import Mathlib

/-!
# Valiant universal circuit (4-way split): switch network, pole chasing, role
assignment, topological ordering and embedding validators

Shallow embedding of `src/uc/4way/ValiantUC.cpp` and `src/debug.cpp`.

Pointers to `UCNode` become indices into an arena (`List UCNode`); pointer
equality becomes index equality.  A read through an index that is not in the
arena, or of a vector element that does not exist, is undefined behaviour in
the source and is reported as an explicit error value here.
-/

namespace UC

/-! ## Data model -/

/-- Kind of a switch-network node (`NodeType` of `UCNode`). -/
inductive NodeType where
  | POLE
  | X_SWITCH
  | Y_SWITCH
  | REVERSE_Y_SWITCH
  | I_SWITCH
  | RECURSION_POINT
  deriving DecidableEq, Repr

/-- Role of a pole (`PoleType` of `UCNode`). -/
inductive PoleType where
  | NO_POLE
  | INPUT
  | OUTPUT
  | GATE
  deriving DecidableEq, Repr

/-- A node of the switch network.  `parents` and `children` hold arena indices. -/
structure UCNode where
  id : Int
  nodeType : NodeType
  poleType : PoleType
  parents : List Nat
  children : List Nat
  controlBits : List Nat
  topologicalVisited : Bool
  topologicalNumber : Nat
  numberOfAdditionalWires : Int
  deriving DecidableEq, Repr

/-- The arena of all nodes of the network. -/
abbrev Network := List UCNode

/-! ## Pole chasing (`find_next_pole`, debug.cpp 91-118) -/

/-- Outcome of a bounded run of the `while` loop of `find_next_pole`. -/
inductive ChaseResult where
  | found (pole : Nat) (iterations : Nat)
  | invalid
  | outOfFuel
  deriving DecidableEq, Repr

/-- The test of the first branch of the loop body: an `X_SWITCH`, or a
`RECURSION_POINT` with two parents and two children. -/
def isFullSwitch (n : UCNode) : Bool :=
  n.nodeType == NodeType.X_SWITCH ||
    (n.nodeType == NodeType.RECURSION_POINT && n.parents.length == 2 && n.children.length == 2)

/-- The test of the second branch: a `Y_SWITCH`, or a `RECURSION_POINT` with one child. -/
def isMergeSwitch (n : UCNode) : Bool :=
  n.nodeType == NodeType.Y_SWITCH ||
    (n.nodeType == NodeType.RECURSION_POINT && n.children.length == 1)

/-- The test of the third branch: an `I_SWITCH`, a `REVERSE_Y_SWITCH`, or a
`RECURSION_POINT` with one parent. -/
def isPassThrough (n : UCNode) : Bool :=
  n.nodeType == NodeType.I_SWITCH || n.nodeType == NodeType.REVERSE_Y_SWITCH ||
    (n.nodeType == NodeType.RECURSION_POINT && n.parents.length == 1)

/-- One execution of the loop body of `find_next_pole` at the non-pole node
`n` (the node `nextNode` points to), with `lastNode` the previous node: the new
value of `nextNode`, or `none` when the body reads a vector element that does
not exist.  When no branch applies `nextNode` is left as it is. -/
def chaseStep (n : UCNode) (lastNode nextNode : Nat) : Option Nat :=
  if isFullSwitch n then
    match n.controlBits[0]?, n.children[0]? with
    | some b, some c0 =>
      if b = 0 then
        if c0 = lastNode then n.parents[0]? else n.parents[1]?
      else
        if c0 = lastNode then n.parents[1]? else n.parents[0]?
    | _, _ => none
  else if isMergeSwitch n then
    match n.controlBits[0]? with
    | some b => n.parents[b]?
    | none => none
  else if isPassThrough n then
    n.parents[0]?
  else
    some nextNode

/-- The `while` loop of `find_next_pole`, run for at most `fuel` iterations;
`iters` counts the iterations done so far. -/
def findNextPoleLoop (net : Network) : Nat → Nat → Nat → Nat → ChaseResult
  | fuel, lastNode, nextNode, iters =>
    match net[nextNode]? with
    | none => ChaseResult.invalid
    | some n =>
      if n.nodeType = NodeType.POLE then ChaseResult.found nextNode iters
      else
        match fuel with
        | 0 => ChaseResult.outOfFuel
        | fuel + 1 =>
          match chaseStep n lastNode nextNode with
          | none => ChaseResult.invalid
          | some nx => findNextPoleLoop net fuel nextNode nx (iters + 1)

/-- `find_next_pole(pole, nextNode)` with a bound on the number of loop iterations. -/
def find_next_pole (fuel : Nat) (net : Network) (pole nextNode : Nat) : ChaseResult :=
  findNextPoleLoop net fuel pole nextNode 0

/-- The network is acyclic along parent chains: some rank strictly decreases
from every node to each of its parents. -/
def AcyclicParents (net : Network) : Prop :=
  ∃ rank : Nat → Nat, ∀ (i : Nat) (n : UCNode), net[i]? = some n → ∀ p ∈ n.parents, rank p < rank i

/-- What the loop body of `find_next_pole` reads at a non-pole node is there:
the node has the shape of the branch its type and arity select. -/
def chaseShapeOk (n : UCNode) : Bool :=
  if isFullSwitch n then
    2 ≤ n.parents.length && 1 ≤ n.children.length && 1 ≤ n.controlBits.length
  else if isMergeSwitch n then
    match n.controlBits[0]? with
    | some b => b < n.parents.length
    | none => false
  else if isPassThrough n then
    1 ≤ n.parents.length
  else
    false

/-- Every parent reference points into the arena and every non-pole node has
a shape `find_next_pole` handles. -/
def ChaseWellFormed (net : Network) : Prop :=
  ∀ (i : Nat) (n : UCNode), net[i]? = some n →
    (∀ p ∈ n.parents, p < net.length) ∧ (n.nodeType ≠ NodeType.POLE → chaseShapeOk n = true)

/-! ## The dependency graph and the assembled universal circuit -/

/-- Ways in which the source leaves its defined behaviour (or, for
`outOfFuel`, in which a bounded run of a loop gives up). -/
inductive UCError where
  | outOfBounds
  | nullPointer
  | intOverflow
  | outOfFuel
  deriving DecidableEq, Repr

/-- A node of a `DAG_Gamma1`.  The pointer `child`, of which the code reads
only `child->number`, is held as that number (`none` for a null pointer). -/
structure Gamma1Node where
  number : Nat
  child : Option Nat
  deriving DecidableEq, Repr

/-- One half of the dependency graph; `node_array` may hold null entries. -/
structure DAG_Gamma1 where
  node_number : Nat
  node_array : List (Option Gamma1Node)
  deriving DecidableEq, Repr

/-- A node of the `DAG_Gamma2` supergraph.  The pointers `left_parent` and
`right_parent`, of which the code reads only `->number`, are held as that
number (`none` for a null pointer). -/
structure Gamma2Node where
  number : Nat
  function_bits : List Nat
  left_parent : Option Nat
  right_parent : Option Nat
  deriving DecidableEq, Repr

/-- The `DAG_Gamma2` supergraph with its two `DAG_Gamma1` halves (null when absent). -/
structure DAG_Gamma2 where
  node_array : List Gamma2Node
  gamma1_left : Option DAG_Gamma1
  gamma1_right : Option DAG_Gamma1
  deriving DecidableEq, Repr

/-- A block of an EUG: its poles (arena indices) and its own validity check,
keyed by an EUG number.  The check is a parameter: the block class is not part
of the sources. -/
structure Block where
  poles : List Nat
  validateEdgeEmbedding : Int → Bool

/-- An EUG: its blocks and its child EUGs. -/
inductive ValiantEUG where
  | mk (blocks : List Block) (children : List ValiantEUG)

/-- `getBlocks()`. -/
def ValiantEUG.getBlocks : ValiantEUG → List Block
  | ValiantEUG.mk blocks _ => blocks

/-- `getChildren()`. -/
def ValiantEUG.getChildren : ValiantEUG → List ValiantEUG
  | ValiantEUG.mk _ children => children

/-- The assembled universal circuit. -/
structure ValiantUC where
  nodes : Network
  poles : List Nat
  eugs : List ValiantEUG
  dag : Option DAG_Gamma2
  inputs : Nat
  outputs : Nat
  gates : Nat
  size : Nat
  topOrderedNodes : List (Option Nat)

/-- Apply `f` to the node an index points to; `none` when it points nowhere. -/
def modifyNode (net : Network) (i : Nat) (f : UCNode → UCNode) : Option Network :=
  match net[i]? with
  | none => none
  | some n => some (net.set i (f n))

/-- Modelled from the spec: `set_pole_type` of the absent `UCNode` class stores the pole role. -/
def UCNode.setPoleType (n : UCNode) (t : PoleType) : UCNode := { n with poleType := t }

/-- Modelled from the spec: `clear_parents` of the absent `UCNode` class
"clears their parent references". -/
def UCNode.clearParents (n : UCNode) : UCNode := { n with parents := [] }

/-- Modelled from the spec: `clear_children` of the absent `UCNode` class
"clears their child references". -/
def UCNode.clearChildren (n : UCNode) : UCNode := { n with children := [] }

/-- Modelled from the spec: `setControlBits` of the absent `UCNode` class stores the control bits. -/
def UCNode.setControlBits (n : UCNode) (bits : List Nat) : UCNode := { n with controlBits := bits }

/-- Modelled from the spec: `setTopologicalVisited` of the absent `UCNode` class. -/
def UCNode.setTopologicalVisited (n : UCNode) (b : Bool) : UCNode :=
  { n with topologicalVisited := b }

/-- Modelled from the spec: `setTopologicalNumber` of the absent `UCNode` class. -/
def UCNode.setTopologicalNumber (n : UCNode) (k : Nat) : UCNode :=
  { n with topologicalNumber := k }

/-- Modelled from the spec: `setNumberOfAdditionalWires` of the absent `UCNode` class. -/
def UCNode.setNumberOfAdditionalWires (n : UCNode) (k : Int) : UCNode :=
  { n with numberOfAdditionalWires := k }

/-- A `for (int i = start; i < bound; i++)` loop with `count` iterations left
and the counter at `i`.  The counter is an `int`: every value it takes, the
final one included, has to be below `2^31`. -/
def intLoop {σ : Type} (body : Nat → σ → Except UCError σ) : Nat → Nat → σ → Except UCError σ
  | 0, i, s => if i < 2 ^ 31 then Except.ok s else Except.error UCError.intOverflow
  | count + 1, i, s =>
    if i < 2 ^ 31 then
      match body i s with
      | Except.error e => Except.error e
      | Except.ok s1 => intLoop body count (i + 1) s1
    else Except.error UCError.intOverflow

/-- Subtraction of `uint32_t` values. -/
def sub32 (a b : Nat) : Nat := (a % 2 ^ 32 + 2 ^ 32 - b % 2 ^ 32) % 2 ^ 32

/-- Conversion to `uint16_t`. -/
def toU16 (a : Nat) : Nat := a % 2 ^ 16

/-! ## Control-bit resolution (`setInputsAndOutputs`, ValiantUC.cpp 126-182) -/

/-- The entry `g->node_array[number - 1]`: `none` when the read is outside the
array, `some none` for a null entry. -/
def gamma1Entry (g : DAG_Gamma1) (number : Nat) : Option (Option Gamma1Node) :=
  if number = 0 then none else g.node_array[number - 1]?

/-- The test `g && g->node_array[p - 1] && g->node_array[p - 1]->child &&
g->node_array[p - 1]->child->number == cur`, evaluated left to right. -/
def successorIs (g : Option DAG_Gamma1) (p cur : Nat) : Except UCError Bool :=
  match g with
  | none => Except.ok false
  | some g =>
    match gamma1Entry g p with
    | none => Except.error UCError.outOfBounds
    | some none => Except.ok false
    | some (some nd) =>
      match nd.child with
      | none => Except.ok false
      | some c => Except.ok (c == cur)

/-- The clause `g && parent && g->node_array[p - 1] && (!g->node_array[p - 1]->child ||
(g->node_array[p - 1]->child && g->node_array[p - 1]->child->number != cur))` of the
two-parent branches, for a parent that is present. -/
def successorDiffers (g : Option DAG_Gamma1) (p cur : Nat) : Except UCError Bool :=
  match g with
  | none => Except.ok false
  | some g =>
    match gamma1Entry g p with
    | none => Except.error UCError.outOfBounds
    | some none => Except.ok false
    | some (some nd) =>
      match nd.child with
      | none => Except.ok true
      | some c => Except.ok (c != cur)

/-- The clause `g && parent && g->node_array[p - 1] && (!g->node_array[p - 1]->child ||
false)` of the last branch, for a parent that is present. -/
def successorAbsent (g : Option DAG_Gamma1) (p : Nat) : Except UCError Bool :=
  match g with
  | none => Except.ok false
  | some g =>
    match gamma1Entry g p with
    | none => Except.error UCError.outOfBounds
    | some none => Except.ok false
    | some (some nd) =>
      match nd.child with
      | none => Except.ok true
      | some _ => Except.ok false

/-- The condition `a || b` of C++, where `b` is evaluated only when `a` is false. -/
def orElse (a : Except UCError Bool) (b : Except UCError Bool) : Except UCError Bool :=
  match a with
  | Except.error e => Except.error e
  | Except.ok true => Except.ok true
  | Except.ok false => b

/-- The outcome of the resolution for one gate: the four stored control bits
and whether the line "Something is wrong!" was printed. -/
structure Resolution where
  bits : List Nat
  reported : Bool
  deriving DecidableEq, Repr

/-- The body of the gate loop of `setInputsAndOutputs` from the read of the
truth table to the vector handed to `setControlBits`. -/
def resolveControlBits (dag : DAG_Gamma2) (currentNode : Gamma2Node) :
    Except UCError Resolution :=
  match currentNode.function_bits[0]?, currentNode.function_bits[1]?,
      currentNode.function_bits[2]?, currentNode.function_bits[3]? with
  | some f0, some f1, some f2, some f3 =>
    let tmp0 := toU16 f0
    let tmp1 := toU16 f1
    let tmp2 := toU16 f2
    let tmp3 := toU16 f3
    if tmp1 ≠ tmp2 then
      let leftParent := currentNode.left_parent
      let rightParent := currentNode.right_parent
      let leftGamma := dag.gamma1_left
      let rightGamma := dag.gamma1_right
      if (leftParent.isSome && !rightParent.isSome) || (rightParent.isSome && !leftParent.isSome) then
        match (if rightParent.isSome then rightParent else leftParent) with
        | none => Except.error UCError.nullPointer
        | some parent =>
          match successorIs leftGamma parent currentNode.number with
          | Except.error e => Except.error e
          | Except.ok true =>
            Except.ok { bits := [tmp0, tmp1, tmp2, tmp3], reported := decide (tmp0 ≠ tmp1) }
          | Except.ok false =>
            match successorIs rightGamma parent currentNode.number with
            | Except.error e => Except.error e
            | Except.ok true =>
              let referenceBit := tmp0
              Except.ok { bits := [tmp0, toU16 (1 + 2 ^ 16 - referenceBit), referenceBit, tmp3],
                          reported := false }
            | Except.ok false => Except.ok { bits := [tmp0, tmp1, tmp2, tmp3], reported := false }
      else
        match rightGamma, rightParent with
        | some rg, some rp =>
          match gamma1Entry rg rp with
          | none => Except.error UCError.outOfBounds
          | some none => Except.error UCError.nullPointer
          | some (some rnode) =>
            let leftClause : Except UCError Bool :=
              match leftParent with
              | none => Except.ok false
              | some lp => successorDiffers leftGamma lp currentNode.number
            let swap : Except UCError Bool :=
              if rnode.child.isSome then
                orElse leftClause (successorDiffers rightGamma rp currentNode.number)
              else
                orElse leftClause (successorAbsent rightGamma rp)
            match swap with
            | Except.error e => Except.error e
            | Except.ok true => Except.ok { bits := [tmp0, tmp2, tmp1, tmp3], reported := false }
            | Except.ok false => Except.ok { bits := [tmp0, tmp1, tmp2, tmp3], reported := false }
        | _, _ => Except.error UCError.nullPointer
    else
      Except.ok { bits := [tmp0, tmp1, tmp2, tmp3], reported := false }
  | _, _, _, _ => Except.error UCError.outOfBounds

/-! ## Topological ordering (`topologicalOrdering`, ValiantUC.cpp 208-249) -/

/-- The variables of `topologicalOrdering` while its loops run: the nodes, the
array `topOrderedNodes` (null entries are `none`), the `uint32_t` counter
`topValue` and the stack `dfs` (top first). -/
structure TopoState where
  nodes : Network
  topOrderedNodes : List (Option Nat)
  topValue : Nat
  dfs : List Nat
  deriving DecidableEq, Repr

/-- Write `v` at position `k` of `topOrderedNodes`; `none` outside the vector. -/
def storeOrdered (ordered : List (Option Nat)) (k v : Nat) : Option (List (Option Nat)) :=
  if k < ordered.length then some (ordered.set k (some v)) else none

/-- The body of the first loop of `topologicalOrdering` for input pole `i`. -/
def seedInput (poles : List Nat) (i : Nat) (st : TopoState) : Except UCError TopoState :=
  match poles[i]? with
  | none => Except.error UCError.outOfBounds
  | some p =>
    match modifyNode st.nodes p
        (fun n => (n.setTopologicalVisited true).setTopologicalNumber i) with
    | none => Except.error UCError.nullPointer
    | some nodes1 =>
      match storeOrdered st.topOrderedNodes i p with
      | none => Except.error UCError.outOfBounds
      | some ordered1 => Except.ok { st with nodes := nodes1, topOrderedNodes := ordered1 }

/-- The scan `for (auto child : currentNode->getChildren())` for the first
child that is not visited: `none` when a child points nowhere, `some none` when
every child is visited. -/
def firstUnvisitedChild (nodes : Network) : List Nat → Option (Option Nat)
  | [] => some none
  | c :: cs =>
    match nodes[c]? with
    | none => none
    | some n => if n.topologicalVisited then firstUnvisitedChild nodes cs else some (some c)

/-- One iteration of the `while (!dfs.empty())` loop with `currentNode` on top
of the stack and `rest` below it. -/
def dfsStep (st : TopoState) (currentNode : Nat) (rest : List Nat) : Except UCError TopoState :=
  match st.nodes[currentNode]? with
  | none => Except.error UCError.nullPointer
  | some n =>
    if n.topologicalVisited then
      match firstUnvisitedChild st.nodes n.children with
      | none => Except.error UCError.nullPointer
      | some (some child) => Except.ok { st with dfs := child :: currentNode :: rest }
      | some none =>
        match storeOrdered st.topOrderedNodes st.topValue currentNode with
        | none => Except.error UCError.outOfBounds
        | some ordered1 =>
          Except.ok { nodes := st.nodes.set currentNode (n.setTopologicalNumber st.topValue),
                      topOrderedNodes := ordered1,
                      topValue := sub32 st.topValue 1,
                      dfs := rest }
    else
      let nodes1 := st.nodes.set currentNode (n.setTopologicalVisited true)
      match firstUnvisitedChild nodes1 n.children with
      | none => Except.error UCError.nullPointer
      | some (some child) => Except.ok { st with nodes := nodes1, dfs := child :: currentNode :: rest }
      | some none => Except.ok { st with nodes := nodes1 }

/-- The `while (!dfs.empty())` loop, run for at most `fuel` iterations. -/
def dfsLoop : Nat → TopoState → Except UCError TopoState
  | fuel, st =>
    match st.dfs with
    | [] => Except.ok st
    | currentNode :: rest =>
      match fuel with
      | 0 => Except.error UCError.outOfFuel
      | fuel + 1 =>
        match dfsStep st currentNode rest with
        | Except.error e => Except.error e
        | Except.ok st1 => dfsLoop fuel st1

/-- `topologicalOrdering(inputs)` up to the end of its `while` loop, run for
at most `fuel` iterations of that loop. -/
def topologicalOrderingState (fuel : Nat) (uc : ValiantUC) (inputs : Nat) :
    Except UCError TopoState :=
  let st0 : TopoState :=
    { nodes := uc.nodes, topOrderedNodes := uc.topOrderedNodes,
      topValue := sub32 uc.size 1, dfs := [] }
  match intLoop (seedInput uc.poles) inputs 0 st0 with
  | Except.error e => Except.error e
  | Except.ok st1 =>
    match uc.poles[0]? with
    | none => Except.error UCError.outOfBounds
    | some p0 =>
      match st1.nodes[p0]? with
      | none => Except.error UCError.nullPointer
      | some n0 =>
        match n0.children[0]?, n0.children[1]? with
        | some c0, some c1 => dfsLoop fuel { st1 with dfs := [c1, c0] }
        | _, _ => Except.error UCError.outOfBounds

/-- A number of iterations the `while` loop of `topologicalOrdering` never
exceeds: every iteration marks a node, pushes a node that is marked in the
next iteration, or pops a node. -/
def dfsFuel (uc : ValiantUC) : Nat := 3 * uc.nodes.length + 4

/-- `topologicalOrdering(inputs)`. -/
def topologicalOrdering (uc : ValiantUC) (inputs : Nat) : Except UCError ValiantUC :=
  match topologicalOrderingState (dfsFuel uc) uc inputs with
  | Except.error e => Except.error e
  | Except.ok st => Except.ok { uc with nodes := st.nodes, topOrderedNodes := st.topOrderedNodes }

/-! ## Role assignment (`setInputsAndOutputs`, ValiantUC.cpp 116-202) -/

/-- The body of the first loop: pole `i` becomes an INPUT and loses its parents. -/
def assignInput (i : Nat) (uc : ValiantUC) : Except UCError ValiantUC :=
  match uc.poles[i]? with
  | none => Except.error UCError.outOfBounds
  | some p =>
    match modifyNode uc.nodes p (fun n => (n.setPoleType PoleType.INPUT).clearParents) with
    | none => Except.error UCError.nullPointer
    | some nodes1 => Except.ok { uc with nodes := nodes1 }

/-- The body of the second loop: pole `i` becomes a GATE and receives the
control bits resolved from node `i` of the dependency graph.  The second
component collects the indices at which "Something is wrong!" was printed. -/
def assignGate (i : Nat) (s : ValiantUC × List Nat) : Except UCError (ValiantUC × List Nat) :=
  match s.1.poles[i]? with
  | none => Except.error UCError.outOfBounds
  | some p =>
    match s.1.dag with
    | none => Except.error UCError.nullPointer
    | some dag =>
      match dag.node_array[i]? with
      | none => Except.error UCError.outOfBounds
      | some currentNode =>
        match resolveControlBits dag currentNode with
        | Except.error e => Except.error e
        | Except.ok r =>
          match modifyNode s.1.nodes p
              (fun n => (n.setPoleType PoleType.GATE).setControlBits r.bits) with
          | none => Except.error UCError.nullPointer
          | some nodes1 =>
            Except.ok ({ s.1 with nodes := nodes1 }, if r.reported then s.2 ++ [i] else s.2)

/-- The body of the third loop: pole `i` becomes an OUTPUT and loses its children. -/
def assignOutput (i : Nat) (uc : ValiantUC) : Except UCError ValiantUC :=
  match uc.poles[i]? with
  | none => Except.error UCError.outOfBounds
  | some p =>
    match modifyNode uc.nodes p (fun n => (n.setPoleType PoleType.OUTPUT).clearChildren) with
    | none => Except.error UCError.nullPointer
    | some nodes1 => Except.ok { uc with nodes := nodes1 }

/-- The value of `poles.size() - outputs`, computed in `size_t`. -/
def gateBound (poleCount outputs : Nat) : Nat :=
  (poleCount % 2 ^ 64 + 2 ^ 64 - outputs % 2 ^ 64) % 2 ^ 64

/-- The loop over `topOrderedNodes` that stores the auxiliary wire counter on
every node; `counter` is the running value. -/
def wireCounters : List (Option Nat) → Int → Network → Except UCError Network
  | [], _, nodes => Except.ok nodes
  | none :: _, _, _ => Except.error UCError.nullPointer
  | some j :: rest, counter, nodes =>
    match nodes[j]? with
    | none => Except.error UCError.nullPointer
    | some n =>
      let nodes1 := nodes.set j (n.setNumberOfAdditionalWires counter)
      if n.parents.length = 2 ∧ n.children.length = 2 ∧ n.poleType = PoleType.NO_POLE then
        wireCounters rest (counter + 1) nodes1
      else if n.parents.length = 1 then
        wireCounters rest (counter - 1) nodes1
      else
        wireCounters rest counter nodes1

/-- The three role loops of `setInputsAndOutputs`, before `topologicalOrdering`
is called; the second component lists the gate indices at which "Something is
wrong!" was printed. -/
def assignRoles (uc : ValiantUC) (inputs outputs : Nat) : Except UCError (ValiantUC × List Nat) :=
  let uc0 : ValiantUC :=
    { uc with inputs := inputs, outputs := outputs,
              gates := sub32 (sub32 uc.poles.length inputs) outputs }
  match intLoop assignInput inputs 0 uc0 with
  | Except.error e => Except.error e
  | Except.ok uc1 =>
    match intLoop assignGate (gateBound uc.poles.length outputs - inputs) inputs (uc1, []) with
    | Except.error e => Except.error e
    | Except.ok (uc2, reports) =>
      match intLoop assignOutput (uc.poles.length - gateBound uc.poles.length outputs)
          (gateBound uc.poles.length outputs) uc2 with
      | Except.error e => Except.error e
      | Except.ok uc3 => Except.ok (uc3, reports)

/-- `setInputsAndOutputs(inputs, outputs)`; the second component lists the gate
indices at which "Something is wrong!" was printed. -/
def setInputsAndOutputs (uc : ValiantUC) (inputs outputs : Nat) :
    Except UCError (ValiantUC × List Nat) :=
  match assignRoles uc inputs outputs with
  | Except.error e => Except.error e
  | Except.ok (uc3, reports) =>
    match topologicalOrdering uc3 inputs with
    | Except.error e => Except.error e
    | Except.ok uc4 =>
      match wireCounters uc4.topOrderedNodes 0 uc4.nodes with
      | Except.error e => Except.error e
      | Except.ok nodes5 => Except.ok ({ uc4 with nodes := nodes5 }, reports)

/-! ## Vocabulary for the correctness of the ordering -/

/-- The visited flag of the node at index `j` (`false` outside the arena). -/
def visitedAt (net : Network) (j : Nat) : Bool :=
  match net[j]? with
  | some n => n.topologicalVisited
  | none => false

/-- The child list of the node at index `j` (empty outside the arena). -/
def childrenAt (net : Network) (j : Nat) : List Nat :=
  match net[j]? with
  | some n => n.children
  | none => []

/-- The topological number of the node at index `j` (`0` outside the arena). -/
def numberAt (net : Network) (j : Nat) : Nat :=
  match net[j]? with
  | some n => n.topologicalNumber
  | none => 0

/-- Node `b` can be reached from node `a` along child references. -/
def Reaches (net : Network) (a b : Nat) : Prop :=
  Relation.ReflTransGen (fun x y => y ∈ childrenAt net x) a b

/-- The state in which `topologicalOrdering(inputs)` is meant to be entered, with
`c0` and `c1` the first two children of pole 0. -/
structure TopoReady (uc : ValiantUC) (inputs c0 c1 : Nat) : Prop where
  size_eq : uc.size = uc.nodes.length
  ordered_len : uc.topOrderedNodes.length = uc.size
  size_lt : uc.size < 2 ^ 31
  inputs_pos : 1 ≤ inputs
  inputs_le : inputs ≤ uc.poles.length
  poles_nodup : (uc.poles.take inputs).Nodup
  poles_valid : ∀ p ∈ uc.poles.take inputs, p < uc.nodes.length
  fresh : ∀ j, visitedAt uc.nodes j = false
  children_valid : ∀ j, ∀ c ∈ childrenAt uc.nodes j, c < uc.nodes.length
  first_children : ∃ p0 rest, uc.poles[0]? = some p0 ∧ childrenAt uc.nodes p0 = c0 :: c1 :: rest
  no_input_child : ∀ j, ∀ c ∈ childrenAt uc.nodes j, c ∉ uc.poles.take inputs
  acyclic : ∃ rank : Nat → Nat, ∀ j, ∀ c ∈ childrenAt uc.nodes j, rank j < rank c
  reach : ∀ j, j < uc.nodes.length → j ∉ uc.poles.take inputs →
    Reaches uc.nodes c0 j ∨ Reaches uc.nodes c1 j
  separate : ¬ Reaches uc.nodes c1 c0

/-- Number of nodes that are not yet visited. -/
def unvisitedCount (net : Network) : Nat := net.countP (fun n => !n.topologicalVisited)

/-- A quantity every iteration of the `while` loop of `topologicalOrdering` decreases. -/
def dfsMeasure (st : TopoState) : Nat :=
  3 * unvisitedCount st.nodes + st.dfs.length +
    (match st.dfs with
     | [] => 0
     | top :: _ => if visitedAt st.nodes top then 2 else 0)

/-- A node with the fields cleared that `topologicalOrdering` and the wire
counter loop write: what is left is what they leave alone. -/
def UCNode.core (n : UCNode) : UCNode :=
  { n with topologicalVisited := false, topologicalNumber := 0, numberOfAdditionalWires := 0 }

/-- What holds between two iterations of the `while` loop of
`topologicalOrdering`: `net0` is the network on entry, `I` the input poles,
`fin` the nodes finished so far, the latest first. -/
structure DfsInv (net0 : Network) (I : List Nat) (c0 c1 : Nat) (rank : Nat → Nat)
    (st : TopoState) (fin : List Nat) : Prop where
  len_nodes : st.nodes.length = net0.length
  len_ordered : st.topOrderedNodes.length = net0.length
  kids : ∀ j, childrenAt st.nodes j = childrenAt net0 j
  top : st.topValue + fin.length + 1 = net0.length
  fin_nodup : fin.Nodup
  fin_lt : ∀ f ∈ fin, f < net0.length
  fin_vis : ∀ f ∈ fin, visitedAt st.nodes f = true
  fin_not_input : ∀ f ∈ fin, f ∉ I
  fin_not_stack : ∀ f ∈ fin, f ∉ st.dfs
  fin_num : ∀ (idx : Nat) (f : Nat), fin[idx]? = some f →
    numberAt st.nodes f = net0.length - fin.length + idx ∧
    st.topOrderedNodes[net0.length - fin.length + idx]? = some (some f)
  inp : ∀ (i : Nat) (p : Nat), I[i]? = some p →
    visitedAt st.nodes p = true ∧ numberAt st.nodes p = i ∧
    st.topOrderedNodes[i]? = some (some p)
  vis_cases : ∀ j, visitedAt st.nodes j = true → j ∈ I ∨ j ∈ fin ∨ j ∈ st.dfs
  stack_nodup : st.dfs.Nodup
  stack_lt : ∀ s ∈ st.dfs, s < net0.length
  stack_not_input : ∀ s ∈ st.dfs, s ∉ I
  stack_rank : st.dfs.Pairwise (fun a b => visitedAt st.nodes b = true → rank b < rank a)
  stack_tail : ∀ s ∈ st.dfs.tail, visitedAt st.nodes s = false → s = c0
  stack_reach : visitedAt st.nodes c0 = false → ∀ s ∈ st.dfs, s = c0 ∨ Reaches net0 c1 s
  fin_children : ∀ f ∈ fin, ∀ c ∈ childrenAt net0 f,
    c ∈ fin ∧ numberAt st.nodes f < numberAt st.nodes c
  roots : (c0 ∈ st.dfs ∨ c0 ∈ fin) ∧ (c1 ∈ st.dfs ∨ c1 ∈ fin)

/-- What the loop of `topologicalOrdering` relies on and never changes: facts
about the network `net0` on entry, its input poles `I`, and the two nodes `c0`,
`c1` pushed first. -/
structure DfsStatic (net0 : Network) (I : List Nat) (c0 c1 : Nat) (rank : Nat → Nat) : Prop where
  children_valid : ∀ j, ∀ c ∈ childrenAt net0 j, c < net0.length
  no_input_child : ∀ j, ∀ c ∈ childrenAt net0 j, c ∉ I
  acyclic : ∀ j, ∀ c ∈ childrenAt net0 j, rank j < rank c
  separate : ¬ Reaches net0 c1 c0
  inputs_nodup : I.Nodup
  inputs_lt : ∀ p ∈ I, p < net0.length
  inputs_pos : 1 ≤ I.length
  size_lt : net0.length < 2 ^ 32

/-- What holds after `i` iterations of the first loop of `topologicalOrdering`. -/
structure SeedInv (net0 : Network) (poles : List Nat) (tv : Nat) (i : Nat) (st : TopoState) :
    Prop where
  len_nodes : st.nodes.length = net0.length
  len_ordered : st.topOrderedNodes.length = net0.length
  top : st.topValue = tv
  stack : st.dfs = []
  kids : ∀ j, childrenAt st.nodes j = childrenAt net0 j
  vis : ∀ j, visitedAt st.nodes j = true ↔ j ∈ poles.take i
  num : ∀ (k p : Nat), k < i → poles[k]? = some p →
    numberAt st.nodes p = k ∧ st.topOrderedNodes[k]? = some (some p)

/-- A network whose node 2 is a `RECURSION_POINT` without parents and with the
two poles 0 and 1 as children. -/
def orphanNet : Network :=
  [ { id := 1, nodeType := NodeType.POLE, poleType := PoleType.NO_POLE, parents := [2],
      children := [], controlBits := [], topologicalVisited := false, topologicalNumber := 0,
      numberOfAdditionalWires := 0 },
    { id := 2, nodeType := NodeType.POLE, poleType := PoleType.NO_POLE, parents := [2],
      children := [], controlBits := [], topologicalVisited := false, topologicalNumber := 0,
      numberOfAdditionalWires := 0 },
    { id := 3, nodeType := NodeType.RECURSION_POINT, poleType := PoleType.NO_POLE, parents := [],
      children := [0, 1], controlBits := [0], topologicalVisited := false,
      topologicalNumber := 0, numberOfAdditionalWires := 0 } ]

/-- A chain pole 0 - X switch 1 - I switch 2 - pole 3, with pole 4 the second
parent of the X switch; pole 3 is chased from its parent 2. -/
def chainNet : Network :=
  [ { id := 1, nodeType := NodeType.POLE, poleType := PoleType.NO_POLE, parents := [],
      children := [1], controlBits := [], topologicalVisited := false, topologicalNumber := 0,
      numberOfAdditionalWires := 0 },
    { id := 0, nodeType := NodeType.X_SWITCH, poleType := PoleType.NO_POLE, parents := [0, 4],
      children := [2, 5], controlBits := [1], topologicalVisited := false,
      topologicalNumber := 0, numberOfAdditionalWires := 0 },
    { id := 0, nodeType := NodeType.I_SWITCH, poleType := PoleType.NO_POLE, parents := [1],
      children := [3], controlBits := [0], topologicalVisited := false, topologicalNumber := 0,
      numberOfAdditionalWires := 0 },
    { id := 2, nodeType := NodeType.POLE, poleType := PoleType.NO_POLE, parents := [2],
      children := [], controlBits := [], topologicalVisited := false, topologicalNumber := 0,
      numberOfAdditionalWires := 0 },
    { id := 3, nodeType := NodeType.POLE, poleType := PoleType.NO_POLE, parents := [],
      children := [1], controlBits := [], topologicalVisited := false, topologicalNumber := 0,
      numberOfAdditionalWires := 0 },
    { id := 4, nodeType := NodeType.POLE, poleType := PoleType.NO_POLE, parents := [1],
      children := [], controlBits := [], topologicalVisited := false, topologicalNumber := 0,
      numberOfAdditionalWires := 0 } ]

/-- A node with the given type and child list and nothing else set. -/
def plainNode (t : NodeType) (parents children : List Nat) : UCNode :=
  { id := 0, nodeType := t, poleType := PoleType.NO_POLE, parents := parents,
    children := children, controlBits := [0], topologicalVisited := false,
    topologicalNumber := 0, numberOfAdditionalWires := 0 }

/-- A circuit over the given nodes and poles, with nothing else set. -/
def plainUC (nodes : Network) (poles : List Nat) : ValiantUC :=
  { nodes := nodes, poles := poles, eugs := [], dag := none, inputs := 0, outputs := 0,
    gates := 0, size := nodes.length, topOrderedNodes := List.replicate nodes.length none }

/-- Pole 0 feeds the switches 1 and 2, which both feed pole 3. -/
def diamondUC : ValiantUC :=
  plainUC
    [ plainNode NodeType.POLE [] [1, 2],
      plainNode NodeType.I_SWITCH [0] [3],
      plainNode NodeType.I_SWITCH [0] [3],
      plainNode NodeType.POLE [1, 2] [] ]
    [0, 3]

/-- Poles 0 and 1 are inputs; the switches 2 and 3 fed by pole 0 both still
list the input pole 1 as their child. -/
def inputChildUC : ValiantUC :=
  plainUC
    [ plainNode NodeType.POLE [] [2, 3],
      plainNode NodeType.POLE [] [],
      plainNode NodeType.I_SWITCH [0] [1],
      plainNode NodeType.I_SWITCH [0] [1] ]
    [0, 1]

/-- Pole 0 feeds the nodes 1 and 2; pole 3 is not below either of them. -/
def strayUC : ValiantUC :=
  plainUC
    [ plainNode NodeType.POLE [] [1, 2],
      plainNode NodeType.I_SWITCH [0] [],
      plainNode NodeType.I_SWITCH [0] [],
      plainNode NodeType.POLE [] [] ]
    [0, 3]

/-- The topological numbers of all nodes, in arena order, after a run. -/
def topologicalNumbers (r : Except UCError ValiantUC) : Option (List Nat) :=
  match r with
  | Except.ok uc => some (uc.nodes.map (fun n => n.topologicalNumber))
  | Except.error _ => none

/-- The array `topOrderedNodes` after a run. -/
def orderedNodes (r : Except UCError ValiantUC) : Option (List (Option Nat)) :=
  match r with
  | Except.ok uc => some uc.topOrderedNodes
  | Except.error _ => none

/-- Seven poles 0..6 and two switches 7, 8: pole 0 feeds the switches, the
switches and pole 1 feed pole 2, and the poles 2, 3, 4 form a chain that ends
in the poles 5 and 6. -/
def sevenNodes : Network :=
  [ plainNode NodeType.POLE [] [7, 8],
    plainNode NodeType.POLE [] [2],
    plainNode NodeType.POLE [7, 8] [3],
    plainNode NodeType.POLE [2] [4],
    plainNode NodeType.POLE [3] [5, 6],
    plainNode NodeType.POLE [4] [],
    plainNode NodeType.POLE [4] [],
    plainNode NodeType.I_SWITCH [0] [2],
    plainNode NodeType.I_SWITCH [0] [2] ]

/-- A dependency graph with seven nodes whose truth tables have equal middle bits. -/
def sevenDag : DAG_Gamma2 :=
  { node_array :=
      [ { number := 1, function_bits := [0, 0, 0, 0], left_parent := none, right_parent := none },
        { number := 2, function_bits := [0, 0, 0, 0], left_parent := none, right_parent := none },
        { number := 3, function_bits := [0, 0, 0, 1], left_parent := some 1, right_parent := some 2 },
        { number := 4, function_bits := [0, 1, 1, 0], left_parent := some 3, right_parent := none },
        { number := 5, function_bits := [1, 1, 1, 0], left_parent := some 4, right_parent := none },
        { number := 6, function_bits := [0, 0, 0, 0], left_parent := some 5, right_parent := none },
        { number := 7, function_bits := [0, 0, 0, 0], left_parent := some 5, right_parent := none } ],
    gamma1_left := none,
    gamma1_right := none }

/-- The scenario of the specification: `pole_count = 7`. -/
def sevenUC : ValiantUC :=
  { nodes := sevenNodes, poles := [0, 1, 2, 3, 4, 5, 6], eugs := [], dag := some sevenDag,
    inputs := 0, outputs := 0, gates := 0, size := 9,
    topOrderedNodes := List.replicate 9 none }

/-- The pole roles of all nodes, in arena order, after a run. -/
def poleRoles (r : Except UCError (ValiantUC × List Nat)) : Option (List PoleType) :=
  match r with
  | Except.ok (uc, _) => some (uc.nodes.map (fun n => n.poleType))
  | Except.error _ => none

/-- The body of a loop over the poles writes, at counter `i`, a node with
property `Q` in place of the node of pole `i`, and changes nothing else of the
circuit `proj` extracts from the loop state. -/
def TouchesPole {σ : Type} (proj : σ → ValiantUC) (Q : UCNode → Prop)
    (body : Nat → σ → Except UCError σ) : Prop :=
  ∀ i s s1, body i s = Except.ok s1 →
    ∃ p n m, (proj s).poles[i]? = some p ∧ (proj s).nodes[p]? = some n ∧
      proj s1 = { proj s with nodes := (proj s).nodes.set p m } ∧ Q m

/-- What a loop over the poles `lo ≤ k < hi` has done to the nodes when its
counter is at `hi`. -/
def PolesDone {σ : Type} (proj : σ → ValiantUC) (Q : UCNode → Prop) (s0 : σ) (lo hi : Nat)
    (s : σ) : Prop :=
  lo ≤ hi ∧ ∃ nodes1, proj s = { proj s0 with nodes := nodes1 } ∧
    (∀ (k p : Nat), lo ≤ k → k < hi → (proj s0).poles[k]? = some p →
      ∃ m, nodes1[p]? = some m ∧ Q m) ∧
    (∀ p : Nat, (∀ k : Nat, lo ≤ k → k < hi → (proj s0).poles[k]? ≠ some p) →
      nodes1[p]? = (proj s0).nodes[p]?)

/-! ## The rules of the specification for the control bits -/

/-- The successor recorded for the node numbered `p` in one half of the
dependency graph, in the words of the specification: absent when the half is
absent, holds no node for `p`, or that node has no successor. -/
def recordedSuccessor (g : Option DAG_Gamma1) (p : Nat) : Option Nat :=
  match g with
  | none => none
  | some g =>
    match g.node_array[p - 1]? with
    | some (some nd) => nd.child
    | _ => none

/-- The single rule of the specification for a gate with both parents `lp` and
`rp`: swap the middle bits when the recorded successor of `lp` in the left
half is not this node, or that of `rp` in the right half is not this node. -/
def specSwapRule (dag : DAG_Gamma2) (lp rp cur : Nat) : Bool :=
  decide (recordedSuccessor dag.gamma1_left lp ≠ some cur) ||
    decide (recordedSuccessor dag.gamma1_right rp ≠ some cur)

/-- The read `g->node_array[p - 1]` stays inside the array whenever the half `g`
is present. -/
def Readable (g : Option DAG_Gamma1) (p : Nat) : Prop :=
  ∀ lg, g = some lg → 1 ≤ p ∧ p ≤ lg.node_array.length

/-- Gate 3 with parents 1 and 2: the left half holds no node for parent 1, the
right half records gate 3 as the successor of parent 2. -/
def nullLeftDag : DAG_Gamma2 :=
  { node_array := [],
    gamma1_left := some { node_number := 1, node_array := [none] },
    gamma1_right := some { node_number := 2,
                           node_array := [none, some { number := 2, child := some 3 }] } }

/-- The gate of `nullLeftDag`, with truth table 0, 1, 0, 0. -/
def nullLeftGate : Gamma2Node :=
  { number := 3, function_bits := [0, 1, 0, 0], left_parent := some 1, right_parent := some 2 }

/-- Gate 3 with parents 1 and 2, recorded in both halves: as the successor of
parent 1 in the left half, and not as the successor of parent 2 in the right half. -/
def bothDag : DAG_Gamma2 :=
  { node_array := [],
    gamma1_left := some { node_number := 1,
                          node_array := [some { number := 1, child := some 3 }] },
    gamma1_right := some { node_number := 2,
                           node_array := [none, some { number := 2, child := none }] } }

/-- A gate without parents whose middle truth-table bits differ. -/
def orphanGate : Gamma2Node :=
  { number := 3, function_bits := [0, 1, 0, 0], left_parent := none, right_parent := none }

/-- A `RECURSION_POINT` with one parent, one child and control bit 1. -/
def oneToOnePoint : UCNode :=
  { id := 0, nodeType := NodeType.RECURSION_POINT, poleType := PoleType.NO_POLE, parents := [7],
    children := [9], controlBits := [1], topologicalVisited := false, topologicalNumber := 0,
    numberOfAdditionalWires := 0 }

/-- An `X_SWITCH` with parents 4, 5, children 8, 9 and control bit 1. -/
def crossSwitch : UCNode :=
  { id := 0, nodeType := NodeType.X_SWITCH, poleType := PoleType.NO_POLE, parents := [4, 5],
    children := [8, 9], controlBits := [1], topologicalVisited := false, topologicalNumber := 0,
    numberOfAdditionalWires := 0 }

/-- Pole 0 feeds the nodes 1 and 2, and node 2 feeds node 1: the first child
of pole 0 can be reached from its second child. -/
def twiceUC : ValiantUC :=
  plainUC
    [ plainNode NodeType.POLE [] [1, 2],
      plainNode NodeType.Y_SWITCH [0, 2] [],
      plainNode NodeType.I_SWITCH [0] [1] ]
    [0]

/-! ## Wire counters, serialization and construction -/

/-- The test of the first branch of the wire counter loop: two parents, two
children and pole role `NO_POLE`. -/
def isCountedSwitch (n : UCNode) : Bool :=
  n.parents.length == 2 && n.children.length == 2 && n.poleType == PoleType.NO_POLE

/-- The test of the second branch of the wire counter loop: exactly one parent. -/
def hasOneParent (n : UCNode) : Bool := n.parents.length == 1

/-- Number of entries of `l` that point to a node satisfying `pred`. -/
def countAt (nodes : Network) (pred : UCNode → Bool) (l : List (Option Nat)) : Nat :=
  (l.filter (fun o =>
    match o with
    | some j =>
      (match nodes[j]? with
       | some n => pred n
       | none => false)
    | none => false)).length

/-- What `writeOnFile` writes: the indices after "C" in the first line of the
circuit file, the node lines of the circuit file, the wires after "O" in its
last line, and the lines of the programming file. -/
structure WrittenFiles (D P W : Type) where
  header : List Nat
  circLines : List D
  trailer : List W
  progLines : List P

/-- The loop of `writeOnFile` over `topOrderedNodes`.  `description j` and
`programming j` stand for the texts `getNodeDescription()` and
`getNodeProgramming(dag)` of the node at index `j`; they are parameters: the
node class is not part of the sources. -/
def writeNodeLines {D P : Type} (description : Nat → D) (programming : Nat → P)
    (nodes : Network) : List (Option Nat) → Except UCError (List D × List P)
  | [] => Except.ok ([], [])
  | none :: _ => Except.error UCError.nullPointer
  | some j :: rest =>
    match nodes[j]? with
    | none => Except.error UCError.nullPointer
    | some n =>
      match writeNodeLines description programming nodes rest with
      | Except.error e => Except.error e
      | Except.ok (circ, prog) =>
        if n.parents.length = 2 then
          if n.poleType ≠ PoleType.INPUT then
            Except.ok (description j :: circ, programming j :: prog)
          else Except.ok (circ, prog)
        else Except.ok (circ, prog)

/-- `writeOnFile(name)`, as the lines it writes.  `inputWire p` stands for
`poles[i]->getInputWire(poles[i])` of the pole at index `p`. -/
def writeOnFile {D P W : Type} (description : Nat → D) (programming : Nat → P)
    (inputWire : Nat → W) (uc : ValiantUC) : Except UCError (WrittenFiles D P W) :=
  match intLoop (fun i (l : List Nat) => Except.ok (l ++ [i])) uc.inputs 0 [] with
  | Except.error e => Except.error e
  | Except.ok header =>
    match writeNodeLines description programming uc.nodes uc.topOrderedNodes with
    | Except.error e => Except.error e
    | Except.ok (circ, prog) =>
      let start := (uc.inputs + uc.gates) % 2 ^ 32
      let trailer : Except UCError (List W) :=
        if start < 2 ^ 31 then
          intLoop (fun i (l : List W) =>
            match uc.poles[i]? with
            | none => Except.error UCError.outOfBounds
            | some p => Except.ok (l ++ [inputWire p])) (uc.poles.length - start) start []
        else Except.ok []
      match trailer with
      | Except.error e => Except.error e
      | Except.ok tr =>
        Except.ok { header := header, circLines := circ, trailer := tr, progLines := prog }

/-- The nodes of `topOrderedNodes`, in order, that have exactly two parents
and a pole role other than INPUT. -/
def writtenNodes (uc : ValiantUC) : List Nat :=
  uc.topOrderedNodes.filterMap (fun o =>
    match o with
    | some j =>
      (match uc.nodes[j]? with
       | some n => if n.parents.length = 2 ∧ n.poleType ≠ PoleType.INPUT then some j else none
       | none => none)
    | none => none)

/-- Modelled from the spec: the constructor `UCNode(id, type)` of the absent
node class gives a node with that id and type, no pole role, no neighbours and
fresh bookkeeping fields. -/
def UCNode.new (id : Nat) (t : NodeType) : UCNode :=
  { id := id, nodeType := t, poleType := PoleType.NO_POLE, parents := [], children := [],
    controlBits := [], topologicalVisited := false, topologicalNumber := 0,
    numberOfAdditionalWires := 0 }

/-- `calculateSize()`: `(uint32_t) (2 * eugs[0]->getSize() - poles.size())`, the
product in `uint32_t`, the difference in `size_t`.  `getSize` is a parameter:
the EUG class is not part of the sources. -/
def calculateSize (getSize : ValiantEUG → Nat) (uc : ValiantUC) : Except UCError ValiantUC :=
  match uc.eugs[0]? with
  | none => Except.error UCError.outOfBounds
  | some e =>
    Except.ok { uc with
      size := ((2 * (getSize e % 2 ^ 32)) % 2 ^ 32 + 2 ^ 64 - uc.poles.length % 2 ^ 64)
                % 2 ^ 64 % 2 ^ 32 }

/-- The constructor `ValiantUC(nodeNum)`.  `newEUG net poles k` stands for
`new ValiantEUG(poles, k)`, which may add nodes to the network and wire the
poles; it is a parameter. -/
def ValiantUC.new (newEUG : Network → List Nat → Nat → Network × ValiantEUG)
    (getSize : ValiantEUG → Nat) (nodeNum : Nat) : Except UCError ValiantUC :=
  let poleNodes : Network := (List.range nodeNum).map (fun i => UCNode.new (i + 1) NodeType.POLE)
  let poles := List.range nodeNum
  let r0 := newEUG poleNodes poles 0
  let r1 := newEUG r0.1 poles 1
  match calculateSize getSize
      { nodes := r1.1, poles := poles, eugs := [r0.2, r1.2], dag := none, inputs := 0,
        outputs := 0, gates := 0, size := 0, topOrderedNodes := [] } with
  | Except.error e => Except.error e
  | Except.ok uc => Except.ok { uc with topOrderedNodes := List.replicate uc.size none }

/-! ## Embedding validators (debug.cpp) -/

/-- Number of binary digits of `q`, for `q` below `2 ^ fuel`. -/
def bitLength : Nat → Nat → Nat
  | 0, _ => 0
  | fuel + 1, q => if q = 0 then 0 else bitLength fuel (q / 2) + 1

/-- The value of `float(q)` for an `int` `q ≥ 0`: `q` rounded to 24 significant
binary digits, ties to the even significand. -/
def floatOfNat (q : Nat) : Nat :=
  if q < 2 ^ 24 then q
  else
    let e := bitLength 64 q - 24
    let m := q / 2 ^ e
    let r := q % 2 ^ e
    let half := 2 ^ (e - 1)
    if r > half ∨ (r = half ∧ m % 2 = 1) then (m + 1) * 2 ^ e else m * 2 ^ e

/-- `(int) floor(float((destId - 1) / 4))` for `destId ≥ 1`: integer division,
conversion to `float`, `floor` (of a whole number), conversion back. -/
def destBlock (destId : Nat) : Nat := floatOfNat ((destId - 1) / 4)

/-- `(destId - 1) % 4` for `destId ≥ 1`. -/
def destBlockPosition (destId : Nat) : Nat := (destId - 1) % 4

/-- Conversion of a 32-bit unsigned value to `int`. -/
def toInt32 (n : Nat) : Int :=
  if n % 2 ^ 32 < 2 ^ 31 then (n % 2 ^ 32 : Nat) else (n % 2 ^ 32 : Nat) - 2 ^ 32

/-- A line "should be `expected` -> `dest` but is: `traced` -> `dest`". -/
structure Mismatch where
  expected : Int
  dest : Nat
  traced : Int
  deriving DecidableEq, Repr

/-- The body of the loop of the edge-level validator for a node `cur` of the
dependency graph: `none` when the node has no successor or the traced pole has
the expected id, the mismatch otherwise.  The successor number is read into an
`int` and has to be positive for the reads that follow to be defined. -/
def checkEdge (fuel : Nat) (net : Network) (eug : ValiantEUG) (eugNum : Nat)
    (cur : Gamma1Node) : Except UCError (Option Mismatch) :=
  match cur.child with
  | none => Except.ok none
  | some destId =>
    if destId = 0 ∨ 2 ^ 31 ≤ destId then Except.error UCError.outOfBounds
    else
      match eug.getBlocks[destBlock destId]? with
      | none => Except.error UCError.outOfBounds
      | some block =>
        match block.poles[destBlockPosition destId]? with
        | none => Except.error UCError.outOfBounds
        | some lastNode =>
          match net[lastNode]? with
          | none => Except.error UCError.nullPointer
          | some ln =>
            match ln.parents[eugNum]? with
            | none => Except.error UCError.outOfBounds
            | some nextNode =>
              match find_next_pole fuel net lastNode nextNode with
              | ChaseResult.invalid => Except.error UCError.nullPointer
              | ChaseResult.outOfFuel => Except.error UCError.outOfFuel
              | ChaseResult.found r _ =>
                match net[r]? with
                | none => Except.error UCError.nullPointer
                | some rn =>
                  if rn.id ≠ toInt32 cur.number then
                    Except.ok (some { expected := toInt32 cur.number, dest := destId,
                                      traced := rn.id })
                  else Except.ok none

/-- One iteration of the loop of the edge-level validator, at index `i` of the
node array; `reports` holds the mismatches printed so far. -/
def scanNode (fuel : Nat) (net : Network) (graph : DAG_Gamma1) (eug : ValiantEUG)
    (eugNum : Nat) (i : Nat) (reports : List Mismatch) : Except UCError (List Mismatch) :=
  match graph.node_array[i]? with
  | none => Except.error UCError.outOfBounds
  | some none => Except.error UCError.nullPointer
  | some (some cur) =>
    match checkEdge fuel net eug eugNum cur with
    | Except.error e => Except.error e
    | Except.ok none => Except.ok reports
    | Except.ok (some m) => Except.ok (reports ++ [m])

/-- `validate_recursion_point_edge_embedding(graph, uc, eugNum)`: the result
`wrongCounter == 0` and the mismatches printed; `fuel` bounds each pole chase. -/
def validateHalf (fuel : Nat) (net : Network) (graph : DAG_Gamma1) (eug : ValiantEUG)
    (eugNum : Nat) : Except UCError (Bool × List Mismatch) :=
  match intLoop (scanNode fuel net graph eug eugNum) graph.node_number 0 [] with
  | Except.error e => Except.error e
  | Except.ok reports => Except.ok (reports.length == 0, reports)

/-- `validate_recursion_point_edge_embedding(uc, gg)`: the result and the
mismatches printed. -/
def validate_recursion_point_edge_embedding (fuel : Nat) (uc : ValiantUC) (gg : DAG_Gamma2) :
    Except UCError (Bool × List Mismatch) :=
  match uc.eugs[0]?, uc.eugs[1]? with
  | some left, some right =>
    match gg.gamma1_left with
    | none => Except.error UCError.nullPointer
    | some g0 =>
      match validateHalf fuel uc.nodes g0 left 0 with
      | Except.error e => Except.error e
      | Except.ok (false, r0) => Except.ok (false, r0)
      | Except.ok (true, r0) =>
        match gg.gamma1_right with
        | none => Except.error UCError.nullPointer
        | some g1 =>
          match validateHalf fuel uc.nodes g1 right 1 with
          | Except.error e => Except.error e
          | Except.ok (b1, r1) => Except.ok (b1, r0 ++ r1)
  | _, _ => Except.error UCError.outOfBounds

/-- The loop over the blocks of one EUG in `validate_block_edge_embedding`: the
result so far and the checks made, each a block with the key it was checked
with. -/
def validateBlocks : List Block → Int → Bool × List (Block × Int)
  | [], _ => (true, [])
  | b :: bs, k =>
    if b.validateEdgeEmbedding k then
      ((validateBlocks bs k).1, (b, k) :: (validateBlocks bs k).2)
    else (false, [(b, k)])

mutual
/-- `validate_block_edge_embedding(eug, eugNumber, path)`: the result and the
checks made.  Lists of blocks and children are taken to have fewer than `2^31`
entries, so that the `int` counters of the two loops are exact. -/
def validateEUG : ValiantEUG → Int → Bool × List (Block × Int)
  | ValiantEUG.mk blocks children, eugNumber =>
    if (validateBlocks blocks eugNumber).1 then
      ((validateChildren children).1,
        (validateBlocks blocks eugNumber).2 ++ (validateChildren children).2)
    else (false, (validateBlocks blocks eugNumber).2)
/-- The loop over the child EUGs, each of which is validated with the key 1. -/
def validateChildren : List ValiantEUG → Bool × List (Block × Int)
  | [] => (true, [])
  | e :: es =>
    if (validateEUG e 1).1 then
      ((validateChildren es).1, (validateEUG e 1).2 ++ (validateChildren es).2)
    else (false, (validateEUG e 1).2)
end

/-- `validate_block_edge_embedding(uc)`: the result and the checks made. -/
def validate_block_edge_embedding (uc : ValiantUC) : Except UCError (Bool × List (Block × Int)) :=
  match uc.eugs[0]?, uc.eugs[1]? with
  | some left, some right =>
    if (validateEUG left 0).1 then
      Except.ok ((validateEUG right 1).1, (validateEUG left 0).2 ++ (validateEUG right 1).2)
    else Except.ok (false, (validateEUG left 0).2)
  | _, _ => Except.error UCError.outOfBounds

mutual
/-- The checks the code makes when every block passes: the blocks of an EUG
with the key given, in order, then the blocks of its child EUGs with the key 1. -/
def codeChecks : ValiantEUG → Int → List (Block × Int)
  | ValiantEUG.mk blocks children, k => blocks.map (fun b => (b, k)) ++ codeChecksList children
/-- The checks of a list of child EUGs. -/
def codeChecksList : List ValiantEUG → List (Block × Int)
  | [] => []
  | e :: es => codeChecks e 1 ++ codeChecksList es
end

mutual
/-- The checks the specification describes: every block of an EUG nested at
any depth under a half, keyed with the index of that half. -/
def ownerChecks : ValiantEUG → Int → List (Block × Int)
  | ValiantEUG.mk blocks children, k =>
    blocks.map (fun b => (b, k)) ++ ownerChecksList children k
/-- The checks of a list of child EUGs under the half with index `k`. -/
def ownerChecksList : List ValiantEUG → Int → List (Block × Int)
  | [], _ => []
  | e :: es, k => ownerChecks e k ++ ownerChecksList es k
end

/-- A block that passes its check with the key 1 only. -/
def rightOnlyBlock : Block :=
  { poles := [], validateEdgeEmbedding := fun k => decide (k = 1) }

/-- A circuit whose left half holds one child EUG with the block
`rightOnlyBlock` and whose right half is empty. -/
def nestedLeftUC : ValiantUC :=
  { nodes := [], poles := [],
    eugs := [ValiantEUG.mk [] [ValiantEUG.mk [rightOnlyBlock] []], ValiantEUG.mk [] []],
    dag := none, inputs := 0, outputs := 0, gates := 0, size := 0, topOrderedNodes := [] }

/-- Every check of the list succeeds. -/
def Passes (l : List (Block × Int)) : Prop :=
  ∀ c ∈ l, c.1.validateEdgeEmbedding c.2 = true

/-- The mismatch the edge-level validator finds at index `i` of the node
array, if it finds one there. -/
def mismatchAt (fuel : Nat) (net : Network) (graph : DAG_Gamma1) (eug : ValiantEUG)
    (eugNum : Nat) (i : Nat) : Option Mismatch :=
  match graph.node_array[i]? with
  | some (some cur) =>
    (match checkEdge fuel net eug eugNum cur with
     | Except.ok o => o
     | Except.error _ => none)
  | _ => none

/-- All mismatches of one half, in the order of the node array. -/
def allMismatches (fuel : Nat) (net : Network) (graph : DAG_Gamma1) (eug : ValiantEUG)
    (eugNum : Nat) : List Mismatch :=
  (List.range graph.node_number).filterMap (mismatchAt fuel net graph eug eugNum)

/-- The node at index `i` of the node array was examined: it is there and its
edge check ran to its end. -/
def Examined (fuel : Nat) (net : Network) (graph : DAG_Gamma1) (eug : ValiantEUG)
    (eugNum : Nat) (i : Nat) : Prop :=
  ∃ cur o, graph.node_array[i]? = some (some cur) ∧
    checkEdge fuel net eug eugNum cur = Except.ok o

/-- In the words of the specification: chasing from parent slot `h` of the pole
at position `pos` of block `block` of the EUG reaches a pole whose id is `id`. -/
def EdgeTraced (fuel : Nat) (net : Network) (eug : ValiantEUG) (h block pos id : Nat) : Prop :=
  ∃ b lastNode ln nextNode r k rn, eug.getBlocks[block]? = some b ∧
    b.poles[pos]? = some lastNode ∧ net[lastNode]? = some ln ∧
    ln.parents[h]? = some nextNode ∧
    find_next_pole fuel net lastNode nextNode = ChaseResult.found r k ∧
    net[r]? = some rn ∧ rn.id = (id : Int)

/-- In the words of the specification: every node of the half that has a
recorded successor `d` is traced back from the pole at position
`(d - 1) mod 4` of block `⌊(d - 1) / 4⌋`. -/
def HalfEmbedded (fuel : Nat) (net : Network) (graph : DAG_Gamma1) (eug : ValiantEUG)
    (h : Nat) : Prop :=
  ∀ i, i < graph.node_number → ∃ cur, graph.node_array[i]? = some (some cur) ∧
    ∀ d, cur.child = some d → EdgeTraced fuel net eug h ((d - 1) / 4) ((d - 1) % 4) cur.number

/-- Zero mismatches in both halves. -/
def EdgeEmbedded (fuel : Nat) (uc : ValiantUC) (gg : DAG_Gamma2) : Prop :=
  ∃ left right g0 g1, uc.eugs[0]? = some left ∧ uc.eugs[1]? = some right ∧
    gg.gamma1_left = some g0 ∧ gg.gamma1_right = some g1 ∧
    HalfEmbedded fuel uc.nodes g0 left 0 ∧ HalfEmbedded fuel uc.nodes g1 right 1

/-- The numbers of a half are in the range in which the validator computes
exactly: fewer than `2^31` nodes, node numbers below `2^31`, successor numbers
from 1 to `2^26`. -/
def GraphInRange (graph : DAG_Gamma1) : Prop :=
  graph.node_number < 2 ^ 31 ∧
  ∀ (i : Nat) (cur : Gamma1Node), graph.node_array[i]? = some (some cur) →
    cur.number < 2 ^ 31 ∧ ∀ d, cur.child = some d → 1 ≤ d ∧ d ≤ 2 ^ 26

/-- Pole 0 with id 1, and pole 1 with id 2 whose two parent slots both lead
straight to pole 0. -/
def pairNet : Network :=
  [ { id := 1, nodeType := NodeType.POLE, poleType := PoleType.NO_POLE, parents := [],
      children := [1], controlBits := [], topologicalVisited := false, topologicalNumber := 0,
      numberOfAdditionalWires := 0 },
    { id := 2, nodeType := NodeType.POLE, poleType := PoleType.NO_POLE, parents := [0, 0],
      children := [], controlBits := [], topologicalVisited := false, topologicalNumber := 0,
      numberOfAdditionalWires := 0 } ]

/-- A circuit over `pairNet` whose two halves each hold one block with the poles 0 and 1. -/
def pairUC : ValiantUC :=
  { nodes := pairNet, poles := [0, 1],
    eugs := [ValiantEUG.mk [{ poles := [0, 1], validateEdgeEmbedding := fun _ => true }] [],
             ValiantEUG.mk [{ poles := [0, 1], validateEdgeEmbedding := fun _ => true }] []],
    dag := none, inputs := 0, outputs := 0, gates := 0, size := 2,
    topOrderedNodes := [none, none] }

/-- A dependency graph whose halves both record the edge 1 -> 2, as `pairUC` embeds it. -/
def pairDag : DAG_Gamma2 :=
  { node_array := [],
    gamma1_left := some
      { node_number := 2,
        node_array := [some { number := 1, child := some 2 }, some { number := 2, child := none }] },
    gamma1_right := some
      { node_number := 2,
        node_array := [some { number := 1, child := some 2 }, some { number := 2, child := none }] } }

/-- A dependency graph whose left half records an edge 7 -> 2 and whose right
half records an edge 9 -> 2; `pairUC` embeds neither. -/
def wrongDag : DAG_Gamma2 :=
  { node_array := [],
    gamma1_left := some
      { node_number := 1, node_array := [some { number := 7, child := some 2 }] },
    gamma1_right := some
      { node_number := 1, node_array := [some { number := 9, child := some 2 }] } }

/-- The half of `pairDag`: the edge 1 -> 2. -/
def pairHalf : DAG_Gamma1 :=
  { node_number := 2,
    node_array := [some { number := 1, child := some 2 }, some { number := 2, child := none }] }

/-- The poles 0 and 1 with the ids 1 and 2, pole 2 fed by pole 0 and pole 3 fed
by pole 1. -/
def farNet : Network :=
  [ { id := 1, nodeType := NodeType.POLE, poleType := PoleType.NO_POLE, parents := [],
      children := [2], controlBits := [], topologicalVisited := false, topologicalNumber := 0,
      numberOfAdditionalWires := 0 },
    { id := 2, nodeType := NodeType.POLE, poleType := PoleType.NO_POLE, parents := [],
      children := [3], controlBits := [], topologicalVisited := false, topologicalNumber := 0,
      numberOfAdditionalWires := 0 },
    { id := 3, nodeType := NodeType.POLE, poleType := PoleType.NO_POLE, parents := [0],
      children := [], controlBits := [], topologicalVisited := false, topologicalNumber := 0,
      numberOfAdditionalWires := 0 },
    { id := 4, nodeType := NodeType.POLE, poleType := PoleType.NO_POLE, parents := [1],
      children := [], controlBits := [], topologicalVisited := false, topologicalNumber := 0,
      numberOfAdditionalWires := 0 } ]

/-- A block without poles. -/
def farFiller : Block := { poles := [], validateEdgeEmbedding := fun _ => true }

/-- The block at index `2^24`, whose first pole is fed by the pole with id 1. -/
def farBlockA : Block := { poles := [2], validateEdgeEmbedding := fun _ => true }

/-- The block at index `2^24 + 1`, whose first pole is fed by the pole with id 2. -/
def farBlockB : Block := { poles := [3], validateEdgeEmbedding := fun _ => true }

/-- A left half of `2^24 + 2` blocks. -/
def farBlocks : List Block := List.replicate 16777216 farFiller ++ [farBlockA, farBlockB]

/-- A circuit over `farNet` with the blocks `farBlocks` in its left half. -/
def farUC : ValiantUC :=
  { nodes := farNet, poles := [0, 1, 2, 3],
    eugs := [ValiantEUG.mk farBlocks [], ValiantEUG.mk [] []],
    dag := none, inputs := 0, outputs := 0, gates := 0, size := 4,
    topOrderedNodes := [none, none, none, none] }

/-- The node of `farDag`: number 1, successor `4 * (2^24 + 1) + 1`. -/
def farNode : Gamma1Node := { number := 1, child := some 67108869 }

/-- A dependency graph whose left half records the edge `1 -> 67108869`, the
first position of block `2^24 + 1`, and whose right half is empty. -/
def farDag : DAG_Gamma2 :=
  { node_array := [],
    gamma1_left := some { node_number := 1, node_array := [some farNode] },
    gamma1_right := some { node_number := 0, node_array := [] } }

/-! ## A circuit with five gates -/

/-- Seven poles 0..6 in a chain behind two switches 7, 8 that pole 0 feeds. -/
def gateNodes : Network :=
  [ plainNode NodeType.POLE [] [7, 8],
    plainNode NodeType.POLE [7, 8] [2],
    plainNode NodeType.POLE [1] [3],
    plainNode NodeType.POLE [2] [4],
    plainNode NodeType.POLE [3] [5],
    plainNode NodeType.POLE [4] [6],
    plainNode NodeType.POLE [5] [],
    plainNode NodeType.I_SWITCH [0] [1],
    plainNode NodeType.I_SWITCH [0] [1] ]

/-- The left half of `gateDag`: the edges 1 -> 2, 3 -> 4, 4 -> 5 and 5 -> 6. -/
def gateLeft : DAG_Gamma1 :=
  { node_number := 5,
    node_array := [some { number := 1, child := some 2 }, some { number := 2, child := none },
                   some { number := 3, child := some 4 }, some { number := 4, child := some 5 },
                   some { number := 5, child := some 6 }] }

/-- The right half of `gateDag`: the edge 2 -> 3. -/
def gateRight : DAG_Gamma1 :=
  { node_number := 3,
    node_array := [some { number := 1, child := none }, some { number := 2, child := some 3 },
                   some { number := 3, child := none }] }

/-- A dependency graph with the gates 2..6: gate 2 has the single parent 1 and
is its successor in the left half (bits 0 and 1 differ); gate 3 has the single
parent 2 and is its successor in the right half only; gate 4 has the single
parent 3 and is its successor in the left half (bits 0 and 1 equal); gate 5 has
the parents 4 and 1, and parent 1 has no successor in the right half; gate 6
has equal middle bits. -/
def gateDag : DAG_Gamma2 :=
  { node_array :=
      [ { number := 1, function_bits := [0, 0, 0, 0], left_parent := none, right_parent := none },
        { number := 2, function_bits := [1, 0, 1, 0], left_parent := some 1, right_parent := none },
        { number := 3, function_bits := [1, 1, 0, 0], left_parent := none, right_parent := some 2 },
        { number := 4, function_bits := [0, 0, 1, 0], left_parent := some 3, right_parent := none },
        { number := 5, function_bits := [0, 1, 0, 1], left_parent := some 4, right_parent := some 1 },
        { number := 6, function_bits := [1, 0, 0, 1], left_parent := some 5, right_parent := none },
        { number := 7, function_bits := [0, 0, 0, 0], left_parent := some 6, right_parent := none } ],
    gamma1_left := some gateLeft,
    gamma1_right := some gateRight }

/-- The circuit over `gateNodes` with the dependency graph `gateDag`. -/
def gateUC : ValiantUC :=
  { nodes := gateNodes, poles := [0, 1, 2, 3, 4, 5, 6], eugs := [], dag := some gateDag,
    inputs := 0, outputs := 0, gates := 0, size := 9,
    topOrderedNodes := List.replicate 9 none }

/-- The control bits of all nodes, in arena order, and the gate indices
reported, after a run. -/
def storedBits (r : Except UCError (ValiantUC × List Nat)) : Option (List (List Nat) × List Nat) :=
  match r with
  | Except.ok (uc, reports) => some (uc.nodes.map (fun n => n.controlBits), reports)
  | Except.error _ => none

/-! ## Reads of the edge-level validator -/

/-- Every read the edge-level validator makes in one half before it chases is
there: fewer than `2^31` nodes, none of them null, and for every recorded
successor (a positive `int`) its block, its pole in the block, the node of that
pole and the parent slot `h` of that node. -/
def HalfReadable (net : Network) (graph : DAG_Gamma1) (eug : ValiantEUG) (h : Nat) : Prop :=
  graph.node_number < 2 ^ 31 ∧
  ∀ i, i < graph.node_number → ∃ cur, graph.node_array[i]? = some (some cur) ∧
    ∀ d, cur.child = some d → 1 ≤ d ∧ d < 2 ^ 31 ∧
      ∃ b lastNode ln nextNode, eug.getBlocks[destBlock d]? = some b ∧
        b.poles[destBlockPosition d]? = some lastNode ∧ net[lastNode]? = some ln ∧
        ln.parents[h]? = some nextNode

/-- The left half of `scanDag`: the edges 5 -> 2, 1 -> 2 and 6 -> 2. -/
def scanLeft : DAG_Gamma1 :=
  { node_number := 3,
    node_array := [some { number := 5, child := some 2 }, some { number := 1, child := some 2 },
                   some { number := 6, child := some 2 }] }

/-- The right half of `scanDag`: the edge 9 -> 2. -/
def scanRight : DAG_Gamma1 :=
  { node_number := 1, node_array := [some { number := 9, child := some 2 }] }

/-- A dependency graph whose left half records three edges into node 2, of
which `pairUC` embeds the second one only. -/
def scanDag : DAG_Gamma2 :=
  { node_array := [], gamma1_left := some scanLeft, gamma1_right := some scanRight }

/-! # Theorems -/

/-! ## Pole chasing -/

theorem chaseStep_mem_parents (n : UCNode) (lastNode nextNode : Nat)
    (h : chaseShapeOk n = true) :
    ∃ p, chaseStep n lastNode nextNode = some p ∧ p ∈ n.parents := by
  unfold chaseShapeOk at h
  unfold chaseStep
  by_cases hf : isFullSwitch n = true
  · simp only [hf, if_true] at h ⊢
    simp only [Bool.and_eq_true, decide_eq_true_eq] at h
    obtain ⟨⟨hp, hc⟩, hb⟩ := h
    obtain ⟨b, hb'⟩ : ∃ b, n.controlBits[0]? = some b :=
      ⟨n.controlBits[0], List.getElem?_eq_getElem (by omega)⟩
    obtain ⟨c, hc'⟩ : ∃ c, n.children[0]? = some c :=
      ⟨n.children[0], List.getElem?_eq_getElem (by omega)⟩
    have h0 : n.parents[0]? = some n.parents[0] := List.getElem?_eq_getElem (by omega)
    have h1 : n.parents[1]? = some n.parents[1] := List.getElem?_eq_getElem (by omega)
    rw [hb', hc']
    simp only
    split_ifs
    · exact ⟨_, h0, List.getElem_mem _⟩
    · exact ⟨_, h1, List.getElem_mem _⟩
    · exact ⟨_, h1, List.getElem_mem _⟩
    · exact ⟨_, h0, List.getElem_mem _⟩
  · simp only [hf, Bool.false_eq_true, if_false] at h ⊢
    by_cases hm : isMergeSwitch n = true
    · simp only [hm, if_true] at h ⊢
      cases hb : n.controlBits[0]? with
      | none => rw [hb] at h; simp at h
      | some b =>
        rw [hb] at h
        simp only [decide_eq_true_eq] at h
        exact ⟨n.parents[b], List.getElem?_eq_getElem h, List.getElem_mem _⟩
    · simp only [hm, Bool.false_eq_true, if_false] at h ⊢
      by_cases hp : isPassThrough n = true
      · simp only [hp, if_true] at h ⊢
        simp only [decide_eq_true_eq] at h
        exact ⟨n.parents[0], List.getElem?_eq_getElem (by omega), List.getElem_mem _⟩
      · simp [hp] at h

/-- Bounded pole chase: with a set `S` of nodes already passed (all of larger
rank than the current node) and at least `net.length - S.card` iterations left,
the loop reaches a pole. -/
theorem findNextPoleLoop_reaches_pole (net : Network) (rank : Nat → Nat)
    (hacyc : ∀ (i : Nat) (n : UCNode), net[i]? = some n → ∀ p ∈ n.parents, rank p < rank i)
    (hwf : ChaseWellFormed net) :
    ∀ (fuel : Nat) (S : Finset Nat) (lastNode nextNode iters : Nat),
      (∀ x ∈ S, x < net.length) → (∀ x ∈ S, rank nextNode < rank x) →
      nextNode < net.length → net.length ≤ S.card + fuel →
      ∃ r k n, findNextPoleLoop net fuel lastNode nextNode iters = ChaseResult.found r k ∧
        k ≤ iters + fuel ∧ net[r]? = some n ∧ n.nodeType = NodeType.POLE := by
  intro fuel
  induction fuel with
  | zero =>
    intro S lastNode nextNode iters hS hrank hlt hcard
    obtain ⟨n, hn⟩ : ∃ n, net[nextNode]? = some n := ⟨net[nextNode], List.getElem?_eq_getElem hlt⟩
    by_cases hp : n.nodeType = NodeType.POLE
    · refine ⟨nextNode, iters, n, ?_, by omega, hn, hp⟩
      unfold findNextPoleLoop
      simp [hn, hp]
    · exfalso
      have hnot : nextNode ∉ S := fun hmem => lt_irrefl _ (hrank nextNode hmem)
      have hsub : insert nextNode S ⊆ Finset.range net.length := by
        intro x hx
        rcases Finset.mem_insert.mp hx with rfl | hx
        · exact Finset.mem_range.mpr hlt
        · exact Finset.mem_range.mpr (hS x hx)
      have hle := Finset.card_le_card hsub
      rw [Finset.card_insert_of_not_mem hnot, Finset.card_range] at hle
      omega
  | succ fuel ih =>
    intro S lastNode nextNode iters hS hrank hlt hcard
    obtain ⟨n, hn⟩ : ∃ n, net[nextNode]? = some n := ⟨net[nextNode], List.getElem?_eq_getElem hlt⟩
    by_cases hp : n.nodeType = NodeType.POLE
    · refine ⟨nextNode, iters, n, ?_, by omega, hn, hp⟩
      unfold findNextPoleLoop
      simp [hn, hp]
    · obtain ⟨hpar, hshape⟩ := hwf nextNode n hn
      obtain ⟨nx, hstep, hmem⟩ := chaseStep_mem_parents n lastNode nextNode (hshape hp)
      have hnot : nextNode ∉ S := fun hmem => lt_irrefl _ (hrank nextNode hmem)
      have hlt' : rank nx < rank nextNode := hacyc nextNode n hn nx hmem
      obtain ⟨r, k, m, hrun, hk, hm, hmp⟩ := ih (insert nextNode S) nextNode nx (iters + 1)
        (by
          intro x hx
          rcases Finset.mem_insert.mp hx with rfl | hx
          · exact hlt
          · exact hS x hx)
        (by
          intro x hx
          rcases Finset.mem_insert.mp hx with rfl | hx
          · exact hlt'
          · exact lt_trans hlt' (hrank x hx))
        (hpar nx hmem)
        (by rw [Finset.card_insert_of_not_mem hnot]; omega)
      refine ⟨r, k, m, ?_, by omega, hm, hmp⟩
      rw [findNextPoleLoop]
      simp only [hn, hp, if_false, hstep]
      exact hrun

/-- C1 (as amended): in a switch network that is acyclic along parent chains and
in which every non-pole node has a shape the loop body handles (with the
parents it reads present), chasing from a pole `P` through any of its parents
`N` ends after at most `size` (the number of nodes) loop iterations at a node of
type POLE. -/
theorem find_next_pole_terminates_at_pole (net : Network) (P N : Nat) (pn : UCNode)
    (hacyc : AcyclicParents net) (hwf : ChaseWellFormed net)
    (hP : net[P]? = some pn) (hpole : pn.nodeType = NodeType.POLE) (hN : N ∈ pn.parents) :
    ∃ r k n, find_next_pole net.length net P N = ChaseResult.found r k ∧
      k ≤ net.length ∧ net[r]? = some n ∧ n.nodeType = NodeType.POLE := by
  obtain ⟨rank, hrank⟩ := hacyc
  have hNlt : N < net.length := (hwf P pn hP).1 N hN
  obtain ⟨r, k, n, hrun, hk, hn, hnp⟩ :=
    findNextPoleLoop_reaches_pole net rank hrank hwf net.length ∅ P N 0
      (by simp) (by simp) hNlt (by simp)
  exact ⟨r, k, n, hrun, by omega, hn, hnp⟩

theorem chainNet_acyclic : AcyclicParents chainNet := by
  refine ⟨fun i => if i = 0 ∨ i = 4 then 0 else i, ?_⟩
  intro i n hi p hp
  have hlt : i < 6 := by
    have := (List.getElem?_eq_some.mp hi).1
    simpa [chainNet] using this
  interval_cases i <;> simp [chainNet] at hi <;> subst hi <;> simp at hp <;>
    (try rcases hp with rfl | rfl) <;> simp

theorem chainNet_wellFormed : ChaseWellFormed chainNet := by
  intro i n hi
  have hlt : i < 6 := by
    have := (List.getElem?_eq_some.mp hi).1
    simpa [chainNet] using this
  interval_cases i <;> simp [chainNet] at hi <;> subst hi <;>
    simp [chainNet, chaseShapeOk, isFullSwitch, isMergeSwitch, isPassThrough]

/-- Witness for C1: the chase from pole 3 of `chainNet` through its parent 2. -/
theorem find_next_pole_terminates_at_pole_witness :
    ∃ r k n, find_next_pole chainNet.length chainNet 3 2 = ChaseResult.found r k ∧
      k ≤ chainNet.length ∧ chainNet[r]? = some n ∧ n.nodeType = NodeType.POLE :=
  find_next_pole_terminates_at_pole chainNet 3 2
    { id := 2, nodeType := NodeType.POLE, poleType := PoleType.NO_POLE, parents := [2],
      children := [], controlBits := [], topologicalVisited := false, topologicalNumber := 0,
      numberOfAdditionalWires := 0 }
    chainNet_acyclic chainNet_wellFormed rfl rfl (by decide)

theorem orphanNet_loops (fuel lastNode iters : Nat) :
    findNextPoleLoop orphanNet fuel lastNode 2 iters = ChaseResult.outOfFuel := by
  induction fuel generalizing lastNode iters with
  | zero => rfl
  | succ fuel ih =>
    rw [findNextPoleLoop]
    have h2 : orphanNet[2]? = some
        { id := 3, nodeType := NodeType.RECURSION_POINT, poleType := PoleType.NO_POLE,
          parents := [], children := [0, 1], controlBits := [0], topologicalVisited := false,
          topologicalNumber := 0, numberOfAdditionalWires := 0 } := rfl
    simp only [h2]
    simp only [chaseStep, isFullSwitch, isMergeSwitch, isPassThrough]
    simpa using ih 2 (iters + 1)

/-- C1 (counterexample to the claim as stated): `orphanNet` is acyclic along
parent chains, node 0 is a pole and node 2 is its parent, yet the loop of
`find_next_pole(0, 2)` never ends: node 2 is a `RECURSION_POINT` without
parents and with two children, no branch of the loop body applies, and
`nextNode` never changes. -/
theorem find_next_pole_claim_fails :
    AcyclicParents orphanNet ∧
    (∃ pn, orphanNet[0]? = some pn ∧ pn.nodeType = NodeType.POLE ∧ 2 ∈ pn.parents) ∧
    ∀ fuel, find_next_pole fuel orphanNet 0 2 = ChaseResult.outOfFuel := by
  refine ⟨⟨fun i => if i = 2 then 0 else 1, ?_⟩, ⟨_, rfl, rfl, by decide⟩, ?_⟩
  · intro i n hi p hp
    have hlt : i < 3 := by
      have := (List.getElem?_eq_some.mp hi).1
      simpa [orphanNet] using this
    interval_cases i <;> simp [orphanNet] at hi <;> subst hi
    · simp at hp; subst hp; decide
    · simp at hp; subst hp; decide
    · exact absurd hp (List.not_mem_nil p)
  · intro fuel
    exact orphanNet_loops fuel 0 0

/-! ## Topological ordering: node accessors under updates -/

theorem visitedAt_set_visited (net : Network) (j k : Nat) (n : UCNode) (h : net[j]? = some n) :
    visitedAt (net.set j (n.setTopologicalVisited true)) k =
      if k = j then true else visitedAt net k := by
  have hj : j < net.length := (List.getElem?_eq_some.mp h).1
  unfold visitedAt
  by_cases hk : k = j
  · subst hk
    simp [List.getElem?_set_self hj, UCNode.setTopologicalVisited]
  · have hne : j ≠ k := fun e => hk e.symm
    simp [List.getElem?_set_ne hne, hk]

theorem childrenAt_set (net : Network) (j k : Nat) (n m : UCNode) (h : net[j]? = some n)
    (hm : m.children = n.children) : childrenAt (net.set j m) k = childrenAt net k := by
  have hj : j < net.length := (List.getElem?_eq_some.mp h).1
  unfold childrenAt
  by_cases hk : k = j
  · subst hk
    simp [List.getElem?_set_self hj, h, hm]
  · have hne : j ≠ k := fun e => hk e.symm
    simp [List.getElem?_set_ne hne]

theorem numberAt_set_visited (net : Network) (j k : Nat) (n : UCNode) (h : net[j]? = some n) :
    numberAt (net.set j (n.setTopologicalVisited true)) k = numberAt net k := by
  have hj : j < net.length := (List.getElem?_eq_some.mp h).1
  unfold numberAt
  by_cases hk : k = j
  · subst hk
    simp [List.getElem?_set_self hj, h, UCNode.setTopologicalVisited]
  · have hne : j ≠ k := fun e => hk e.symm
    simp [List.getElem?_set_ne hne]

theorem visitedAt_set_number (net : Network) (j k t : Nat) (n : UCNode) (h : net[j]? = some n) :
    visitedAt (net.set j (n.setTopologicalNumber t)) k = visitedAt net k := by
  have hj : j < net.length := (List.getElem?_eq_some.mp h).1
  unfold visitedAt
  by_cases hk : k = j
  · subst hk
    simp [List.getElem?_set_self hj, h, UCNode.setTopologicalNumber]
  · have hne : j ≠ k := fun e => hk e.symm
    simp [List.getElem?_set_ne hne]

theorem numberAt_set_number (net : Network) (j k t : Nat) (n : UCNode) (h : net[j]? = some n) :
    numberAt (net.set j (n.setTopologicalNumber t)) k = if k = j then t else numberAt net k := by
  have hj : j < net.length := (List.getElem?_eq_some.mp h).1
  unfold numberAt
  by_cases hk : k = j
  · subst hk
    simp [List.getElem?_set_self hj, UCNode.setTopologicalNumber]
  · have hne : j ≠ k := fun e => hk e.symm
    simp [List.getElem?_set_ne hne, hk]

theorem visitedAt_of_getElem (net : Network) (j : Nat) (n : UCNode) (h : net[j]? = some n) :
    visitedAt net j = n.topologicalVisited := by
  simp [visitedAt, h]

theorem childrenAt_of_getElem (net : Network) (j : Nat) (n : UCNode) (h : net[j]? = some n) :
    childrenAt net j = n.children := by
  simp [childrenAt, h]

/-- The scan for an unvisited child succeeds when all children are in the
arena, and finds the first child that is not visited. -/
theorem firstUnvisitedChild_spec (net : Network) (cs : List Nat)
    (hvalid : ∀ c ∈ cs, c < net.length) :
    (firstUnvisitedChild net cs = some none ∧ ∀ c ∈ cs, visitedAt net c = true) ∨
    (∃ c, firstUnvisitedChild net cs = some (some c) ∧ c ∈ cs ∧ visitedAt net c = false) := by
  induction cs with
  | nil => left; simp [firstUnvisitedChild]
  | cons c cs ih =>
    have hc : c < net.length := hvalid c (List.mem_cons_self _ _)
    obtain ⟨n, hn⟩ : ∃ n, net[c]? = some n := ⟨net[c], List.getElem?_eq_getElem hc⟩
    have hv := visitedAt_of_getElem net c n hn
    by_cases hvis : n.topologicalVisited = true
    · rcases ih (fun x hx => hvalid x (List.mem_cons_of_mem _ hx)) with ⟨h1, h2⟩ | ⟨d, h1, h2, h3⟩
      · left
        refine ⟨by simp [firstUnvisitedChild, hn, hvis, h1], ?_⟩
        intro x hx
        rcases List.mem_cons.mp hx with rfl | hx
        · rw [hv]; exact hvis
        · exact h2 x hx
      · right
        exact ⟨d, by simp [firstUnvisitedChild, hn, hvis, h1], List.mem_cons_of_mem _ h2, h3⟩
    · right
      refine ⟨c, by simp [firstUnvisitedChild, hn, hvis], List.mem_cons_self _ _, ?_⟩
      rw [hv]
      simpa using hvis

/-! ## Topological ordering: the three moves of the loop keep the invariant -/

/-- Disjoint duplicate-free lists of indices below `n` have at most `n` entries together. -/
theorem length_add_le_of_disjoint (n : Nat) (l1 l2 : List Nat) (h1 : l1.Nodup) (h2 : l2.Nodup)
    (hd : ∀ x ∈ l1, x ∉ l2) (hlt1 : ∀ x ∈ l1, x < n) (hlt2 : ∀ x ∈ l2, x < n) :
    l1.length + l2.length ≤ n := by
  have hnd : (l1 ++ l2).Nodup := List.nodup_append.mpr ⟨h1, h2, fun x hx1 hx2 => hd x hx1 hx2⟩
  have hsub : l1 ++ l2 ⊆ List.range n := by
    intro x hx
    rcases List.mem_append.mp hx with hx | hx
    · exact List.mem_range.mpr (hlt1 x hx)
    · exact List.mem_range.mpr (hlt2 x hx)
  have := (List.Nodup.subperm hnd hsub).length_le
  simpa using this

/-- Marking the unvisited node on top of the stack keeps the invariant. -/
theorem DfsInv.mark {net0 : Network} {I : List Nat} {c0 c1 : Nat} {rank : Nat → Nat}
    {st : TopoState} {fin : List Nat} (inv : DfsInv net0 I c0 c1 rank st fin)
    (cur : Nat) (rest : List Nat) (n : UCNode) (hstack : st.dfs = cur :: rest)
    (hn : st.nodes[cur]? = some n) :
    DfsInv net0 I c0 c1 rank
      { st with nodes := st.nodes.set cur (n.setTopologicalVisited true) } fin := by
  have hvis : ∀ k, visitedAt (st.nodes.set cur (n.setTopologicalVisited true)) k =
      if k = cur then true else visitedAt st.nodes k :=
    fun k => visitedAt_set_visited st.nodes cur k n hn
  have hnum : ∀ k, numberAt (st.nodes.set cur (n.setTopologicalVisited true)) k =
      numberAt st.nodes k := fun k => numberAt_set_visited st.nodes cur k n hn
  have hmono : ∀ k, visitedAt st.nodes k = true →
      visitedAt (st.nodes.set cur (n.setTopologicalVisited true)) k = true := by
    intro k hk
    rw [hvis]
    split_ifs <;> simp [hk]
  have hback : ∀ k, k ≠ cur →
      visitedAt (st.nodes.set cur (n.setTopologicalVisited true)) k = visitedAt st.nodes k := by
    intro k hk
    rw [hvis, if_neg hk]
  have hnd := inv.stack_nodup
  rw [hstack] at hnd
  have hcur_rest : cur ∉ rest := (List.nodup_cons.mp hnd).1
  refine
    { len_nodes := by simpa using inv.len_nodes
      len_ordered := inv.len_ordered
      kids := fun j => by
        rw [← inv.kids j]
        exact childrenAt_set st.nodes cur j n _ hn rfl
      top := inv.top
      fin_nodup := inv.fin_nodup
      fin_lt := inv.fin_lt
      fin_vis := fun f hf => hmono f (inv.fin_vis f hf)
      fin_not_input := inv.fin_not_input
      fin_not_stack := inv.fin_not_stack
      fin_num := fun idx f hf => by
        simp only [hnum]
        exact inv.fin_num idx f hf
      inp := fun i p hp => by
        obtain ⟨h1, h2, h3⟩ := inv.inp i p hp
        exact ⟨hmono p h1, by simp only [hnum]; exact h2, h3⟩
      vis_cases := fun j hj => by
        by_cases hjc : j = cur
        · right; right
          show j ∈ st.dfs
          rw [hstack, hjc]
          exact List.mem_cons_self _ _
        · rw [hback j hjc] at hj
          exact inv.vis_cases j hj
      stack_nodup := inv.stack_nodup
      stack_lt := inv.stack_lt
      stack_not_input := inv.stack_not_input
      stack_rank := ?_
      stack_tail := fun s hs hv => by
        have hs' : s ∈ rest := by
          have : s ∈ st.dfs.tail := hs
          simpa [hstack] using this
        have hsc : s ≠ cur := fun e => hcur_rest (e ▸ hs')
        rw [hback s hsc] at hv
        exact inv.stack_tail s hs hv
      stack_reach := fun hv => by
        have hc0 : c0 ≠ cur := by
          intro e
          rw [hvis, if_pos e] at hv
          exact Bool.noConfusion hv
        rw [hback c0 hc0] at hv
        exact inv.stack_reach hv
      fin_children := fun f hf c hc => by
        simp only [hnum]
        exact inv.fin_children f hf c hc
      roots := inv.roots }
  show List.Pairwise _ st.dfs
  have hp := inv.stack_rank
  rw [hstack] at hp ⊢
  rw [List.pairwise_cons] at hp ⊢
  refine ⟨?_, ?_⟩
  · intro b hb hvb
    have hbc : b ≠ cur := fun e => hcur_rest (e ▸ hb)
    rw [hback b hbc] at hvb
    exact hp.1 b hb hvb
  · refine List.Pairwise.imp_of_mem ?_ hp.2
    intro a b _ hb hab hvb
    have hbc : b ≠ cur := fun e => hcur_rest (e ▸ hb)
    rw [hback b hbc] at hvb
    exact hab hvb

/-- Pushing an unvisited child of the visited node on top of the stack keeps
the invariant. -/
theorem DfsInv.push {net0 : Network} {I : List Nat} {c0 c1 : Nat} {rank : Nat → Nat}
    {st : TopoState} {fin : List Nat} (stat : DfsStatic net0 I c0 c1 rank)
    (inv : DfsInv net0 I c0 c1 rank st fin)
    (cur : Nat) (rest : List Nat) (c : Nat) (hstack : st.dfs = cur :: rest)
    (hcurvis : visitedAt st.nodes cur = true) (hc : c ∈ childrenAt net0 cur)
    (hcvis : visitedAt st.nodes c = false) :
    DfsInv net0 I c0 c1 rank { st with dfs := c :: cur :: rest } fin := by
  have hne : c ≠ cur := by
    intro e
    rw [e, hcurvis] at hcvis
    exact Bool.noConfusion hcvis
  have hcur_mem : cur ∈ st.dfs := by rw [hstack]; exact List.mem_cons_self _ _
  have hreach_cur : visitedAt st.nodes c0 = false → Reaches net0 c1 cur := by
    intro hv
    rcases inv.stack_reach hv cur hcur_mem with e | h
    · rw [e, hv] at hcurvis
      exact Bool.noConfusion hcurvis
    · exact h
  have hc_rest : c ∉ rest := by
    intro hmem
    have htail : c ∈ st.dfs.tail := by simpa [hstack] using hmem
    have hc0 : c = c0 := inv.stack_tail c htail hcvis
    have hv0 : visitedAt st.nodes c0 = false := hc0 ▸ hcvis
    exact stat.separate (hc0 ▸ (Relation.ReflTransGen.tail (hreach_cur hv0) hc))
  have hnd := inv.stack_nodup
  rw [hstack] at hnd
  refine
    { len_nodes := inv.len_nodes
      len_ordered := inv.len_ordered
      kids := inv.kids
      top := inv.top
      fin_nodup := inv.fin_nodup
      fin_lt := inv.fin_lt
      fin_vis := inv.fin_vis
      fin_not_input := inv.fin_not_input
      fin_not_stack := fun f hf hmem => by
        rcases List.mem_cons.mp hmem with e | hmem
        · have := inv.fin_vis f hf
          rw [e, hcvis] at this
          exact Bool.noConfusion this
        · exact inv.fin_not_stack f hf (hstack ▸ hmem)
      fin_num := inv.fin_num
      inp := inv.inp
      vis_cases := fun j hj => by
        rcases inv.vis_cases j hj with h | h | h
        · exact Or.inl h
        · exact Or.inr (Or.inl h)
        · exact Or.inr (Or.inr (List.mem_cons_of_mem _ (hstack ▸ h)))
      stack_nodup := by
        show (c :: cur :: rest).Nodup
        refine List.nodup_cons.mpr ⟨?_, hnd⟩
        intro hmem
        rcases List.mem_cons.mp hmem with e | hmem
        · exact hne e
        · exact hc_rest hmem
      stack_lt := fun s hs => by
        rcases List.mem_cons.mp hs with e | hs
        · rw [e]; exact stat.children_valid cur c hc
        · exact inv.stack_lt s (hstack ▸ hs)
      stack_not_input := fun s hs => by
        rcases List.mem_cons.mp hs with e | hs
        · rw [e]; exact stat.no_input_child cur c hc
        · exact inv.stack_not_input s (hstack ▸ hs)
      stack_rank := by
        show List.Pairwise _ (c :: cur :: rest)
        have hp := inv.stack_rank
        rw [hstack] at hp
        refine List.pairwise_cons.mpr ⟨?_, hp⟩
        intro b hb hvb
        rcases List.mem_cons.mp hb with e | hb
        · rw [e]; exact stat.acyclic cur c hc
        · exact lt_trans ((List.pairwise_cons.mp hp).1 b hb hvb) (stat.acyclic cur c hc)
      stack_tail := fun s hs hv => by
        have hs' : s ∈ cur :: rest := hs
        rcases List.mem_cons.mp hs' with e | hs'
        · rw [e, hcurvis] at hv
          exact Bool.noConfusion hv
        · exact inv.stack_tail s (by simpa [hstack] using hs') hv
      stack_reach := fun hv s hs => by
        rcases List.mem_cons.mp hs with e | hs
        · right
          rw [e]
          exact Relation.ReflTransGen.tail (hreach_cur hv) hc
        · exact inv.stack_reach hv s (hstack ▸ hs)
      fin_children := inv.fin_children
      roots := by
        obtain ⟨h0, h1⟩ := inv.roots
        refine ⟨?_, ?_⟩
        · rcases h0 with h | h
          · exact Or.inl (List.mem_cons_of_mem _ (hstack ▸ h))
          · exact Or.inr h
        · rcases h1 with h | h
          · exact Or.inl (List.mem_cons_of_mem _ (hstack ▸ h))
          · exact Or.inr h }

theorem sub32_one (t : Nat) (h1 : 1 ≤ t) (h2 : t < 2 ^ 32) : sub32 t 1 = t - 1 := by
  unfold sub32
  have e1 : t % 2 ^ 32 = t := Nat.mod_eq_of_lt h2
  have e2 : 1 % 2 ^ 32 = 1 := by norm_num
  rw [e1, e2]
  have e3 : t + 2 ^ 32 - 1 = (t - 1) + 2 ^ 32 := by omega
  rw [e3, Nat.add_mod_right]
  exact Nat.mod_eq_of_lt (by omega)

/-- Finishing the visited node on top of the stack, all of whose children are
visited, keeps the invariant; the node joins the finished ones. -/
theorem DfsInv.finish {net0 : Network} {I : List Nat} {c0 c1 : Nat} {rank : Nat → Nat}
    {st : TopoState} {fin : List Nat} (stat : DfsStatic net0 I c0 c1 rank)
    (inv : DfsInv net0 I c0 c1 rank st fin)
    (cur : Nat) (rest : List Nat) (n : UCNode) (hstack : st.dfs = cur :: rest)
    (hn : st.nodes[cur]? = some n) (hcurvis : visitedAt st.nodes cur = true)
    (hkids : ∀ c ∈ childrenAt net0 cur, visitedAt st.nodes c = true) :
    st.topValue < st.topOrderedNodes.length ∧
    DfsInv net0 I c0 c1 rank
      { nodes := st.nodes.set cur (n.setTopologicalNumber st.topValue),
        topOrderedNodes := st.topOrderedNodes.set st.topValue (some cur),
        topValue := sub32 st.topValue 1,
        dfs := rest } (cur :: fin) := by
  have hcur_mem : cur ∈ st.dfs := by rw [hstack]; exact List.mem_cons_self _ _
  have hcur_fin : cur ∉ fin := fun h => inv.fin_not_stack cur h hcur_mem
  have hcur_I : cur ∉ I := inv.stack_not_input cur hcur_mem
  have hnd := inv.stack_nodup
  rw [hstack] at hnd
  have hcur_rest : cur ∉ rest := (List.nodup_cons.mp hnd).1
  have hfin_nodup : (cur :: fin).Nodup := List.nodup_cons.mpr ⟨hcur_fin, inv.fin_nodup⟩
  have hcount : (cur :: fin).length + I.length ≤ net0.length := by
    apply length_add_le_of_disjoint net0.length (cur :: fin) I hfin_nodup stat.inputs_nodup
    · intro x hx
      rcases List.mem_cons.mp hx with e | hx
      · rw [e]; exact hcur_I
      · exact inv.fin_not_input x hx
    · intro x hx
      rcases List.mem_cons.mp hx with e | hx
      · rw [e]; exact inv.stack_lt cur hcur_mem
      · exact inv.fin_lt x hx
    · exact stat.inputs_lt
  have hIpos := stat.inputs_pos
  have htop := inv.top
  have hlen : (cur :: fin).length = fin.length + 1 := List.length_cons _ _
  have htv : st.topValue = net0.length - (fin.length + 1) := by omega
  have htv_lt : st.topValue < net0.length := by omega
  have htv_ge : I.length ≤ st.topValue := by omega
  have hvis : ∀ k, visitedAt (st.nodes.set cur (n.setTopologicalNumber st.topValue)) k =
      visitedAt st.nodes k := fun k => visitedAt_set_number st.nodes cur k _ n hn
  have hnum : ∀ k, numberAt (st.nodes.set cur (n.setTopologicalNumber st.topValue)) k =
      if k = cur then st.topValue else numberAt st.nodes k :=
    fun k => numberAt_set_number st.nodes cur k _ n hn
  have hfin_idx : ∀ f ∈ fin, ∃ idx : Nat, fin[idx]? = some f := by
    intro f hf
    obtain ⟨idx, hidx, e⟩ := List.getElem_of_mem hf
    exact ⟨idx, by rw [List.getElem?_eq_getElem hidx, e]⟩
  have hfin_ne : ∀ f ∈ fin, f ≠ cur := fun f hf e => hcur_fin (e ▸ hf)
  have hchild_fin : ∀ c ∈ childrenAt net0 cur, c ∈ fin := by
    intro c hc
    have hcv := hkids c hc
    rcases inv.vis_cases c hcv with h | h | h
    · exact absurd h (stat.no_input_child cur c hc)
    · exact h
    · exfalso
      have hlt := stat.acyclic cur c hc
      rw [hstack] at h
      rcases List.mem_cons.mp h with e | h
      · rw [e] at hlt; exact lt_irrefl _ hlt
      · have hp := inv.stack_rank
        rw [hstack] at hp
        have := (List.pairwise_cons.mp hp).1 c h hcv
        omega
  refine ⟨by rw [inv.len_ordered]; exact htv_lt, ?_⟩
  refine
    { len_nodes := by simpa using inv.len_nodes
      len_ordered := by simpa using inv.len_ordered
      kids := fun j => by
        rw [← inv.kids j]
        exact childrenAt_set st.nodes cur j n _ hn rfl
      top := by
        show sub32 st.topValue 1 + (cur :: fin).length + 1 = net0.length
        rw [sub32_one st.topValue (by omega) (by have := stat.size_lt; omega), hlen]
        omega
      fin_nodup := hfin_nodup
      fin_lt := fun f hf => by
        rcases List.mem_cons.mp hf with e | hf
        · rw [e]; exact inv.stack_lt cur hcur_mem
        · exact inv.fin_lt f hf
      fin_vis := fun f hf => by
        rw [hvis]
        rcases List.mem_cons.mp hf with e | hf
        · rw [e]; exact hcurvis
        · exact inv.fin_vis f hf
      fin_not_input := fun f hf => by
        rcases List.mem_cons.mp hf with e | hf
        · rw [e]; exact hcur_I
        · exact inv.fin_not_input f hf
      fin_not_stack := fun f hf hmem => by
        rcases List.mem_cons.mp hf with e | hf
        · exact hcur_rest (e ▸ hmem)
        · exact inv.fin_not_stack f hf (hstack ▸ List.mem_cons_of_mem _ hmem)
      fin_num := fun idx f hf => by
        simp only [hnum, hlen]
        cases idx with
        | zero =>
          have e : f = cur := by simpa using hf.symm
          subst e
          simp only [if_true, Nat.add_zero]
          rw [← htv]
          exact ⟨rfl, List.getElem?_set_self (by rw [inv.len_ordered]; exact htv_lt)⟩
        | succ idx =>
          have hf' : fin[idx]? = some f := by simpa using hf
          obtain ⟨h1, h2⟩ := inv.fin_num idx f hf'
          have hmem : f ∈ fin := (List.getElem?_eq_some.mp hf').2 ▸ List.getElem_mem _
          have hidx : idx < fin.length := (List.getElem?_eq_some.mp hf').1
          have epos : net0.length - (fin.length + 1) + (idx + 1) = net0.length - fin.length + idx := by
            omega
          rw [if_neg (hfin_ne f hmem), epos]
          refine ⟨h1, ?_⟩
          rw [List.getElem?_set_ne (by omega)]
          exact h2
      inp := fun i p hp => by
        obtain ⟨h1, h2, h3⟩ := inv.inp i p hp
        have hpI : p ∈ I := (List.getElem?_eq_some.mp hp).2 ▸ List.getElem_mem _
        have hi : i < I.length := (List.getElem?_eq_some.mp hp).1
        have hpc : p ≠ cur := fun e => hcur_I (e ▸ hpI)
        refine ⟨by rw [hvis]; exact h1, by rw [hnum, if_neg hpc]; exact h2, ?_⟩
        show (st.topOrderedNodes.set st.topValue (some cur))[i]? = some (some p)
        rw [List.getElem?_set_ne (by omega)]
        exact h3
      vis_cases := fun j hj => by
        rw [hvis] at hj
        rcases inv.vis_cases j hj with h | h | h
        · exact Or.inl h
        · exact Or.inr (Or.inl (List.mem_cons_of_mem _ h))
        · rw [hstack] at h
          rcases List.mem_cons.mp h with e | h
          · exact Or.inr (Or.inl (e ▸ List.mem_cons_self _ _))
          · exact Or.inr (Or.inr h)
      stack_nodup := (List.nodup_cons.mp hnd).2
      stack_lt := fun s hs => inv.stack_lt s (hstack ▸ List.mem_cons_of_mem _ hs)
      stack_not_input := fun s hs => inv.stack_not_input s (hstack ▸ List.mem_cons_of_mem _ hs)
      stack_rank := by
        show List.Pairwise _ rest
        have hp := inv.stack_rank
        rw [hstack] at hp
        refine List.Pairwise.imp ?_ (List.pairwise_cons.mp hp).2
        intro a b hab hvb
        rw [hvis] at hvb
        exact hab hvb
      stack_tail := fun s hs hv => by
        rw [hvis] at hv
        have hs' : s ∈ rest := List.mem_of_mem_tail hs
        exact inv.stack_tail s (by simpa [hstack] using hs') hv
      stack_reach := fun hv s hs => by
        rw [hvis] at hv
        exact inv.stack_reach hv s (hstack ▸ List.mem_cons_of_mem _ hs)
      fin_children := fun f hf c hc => by
        simp only [hnum]
        rcases List.mem_cons.mp hf with e | hf
        · subst e
          have hcf := hchild_fin c hc
          refine ⟨List.mem_cons_of_mem _ hcf, ?_⟩
          obtain ⟨idx, hidx⟩ := hfin_idx c hcf
          have := (inv.fin_num idx c hidx).1
          rw [if_pos rfl, if_neg (hfin_ne c hcf), this]
          omega
        · obtain ⟨h1, h2⟩ := inv.fin_children f hf c hc
          refine ⟨List.mem_cons_of_mem _ h1, ?_⟩
          rw [if_neg (hfin_ne f hf), if_neg (hfin_ne c h1)]
          exact h2
      roots := by
        obtain ⟨h0, h1⟩ := inv.roots
        refine ⟨?_, ?_⟩
        · rcases h0 with h | h
          · rw [hstack] at h
            rcases List.mem_cons.mp h with e | h
            · exact Or.inr (e ▸ List.mem_cons_self _ _)
            · exact Or.inl h
          · exact Or.inr (List.mem_cons_of_mem _ h)
        · rcases h1 with h | h
          · rw [hstack] at h
            rcases List.mem_cons.mp h with e | h
            · exact Or.inr (e ▸ List.mem_cons_self _ _)
            · exact Or.inl h
          · exact Or.inr (List.mem_cons_of_mem _ h) }

/-! ## Topological ordering: every iteration makes progress -/

theorem unvisitedCount_mark (net : Network) (j : Nat) (n : UCNode) (h : net[j]? = some n)
    (hv : n.topologicalVisited = false) :
    unvisitedCount (net.set j (n.setTopologicalVisited true)) + 1 = unvisitedCount net := by
  have hj : j < net.length := (List.getElem?_eq_some.mp h).1
  have e : net[j] = n := (List.getElem?_eq_some.mp h).2
  unfold unvisitedCount
  rw [List.countP_set _ _ _ _ hj, e]
  have hle := List.boole_getElem_le_countP (fun n => !n.topologicalVisited) net j hj
  rw [e] at hle
  simp only [hv, UCNode.setTopologicalVisited, Bool.not_false, Bool.not_true, if_true] at hle ⊢
  simp only [Bool.false_eq_true, if_false]
  omega

theorem unvisitedCount_number (net : Network) (j t : Nat) (n : UCNode) (h : net[j]? = some n) :
    unvisitedCount (net.set j (n.setTopologicalNumber t)) = unvisitedCount net := by
  have hj : j < net.length := (List.getElem?_eq_some.mp h).1
  have e : net[j] = n := (List.getElem?_eq_some.mp h).2
  unfold unvisitedCount
  rw [List.countP_set _ _ _ _ hj, e]
  have hle := List.boole_getElem_le_countP (fun n => !n.topologicalVisited) net j hj
  rw [e] at hle
  simp only [UCNode.setTopologicalNumber] at hle ⊢
  omega

/-- One iteration of the loop, started where the invariant holds, is defined,
keeps the invariant and decreases the measure. -/
theorem dfsStep_progress {net0 : Network} {I : List Nat} {c0 c1 : Nat} {rank : Nat → Nat}
    {st : TopoState} {fin : List Nat} (stat : DfsStatic net0 I c0 c1 rank)
    (inv : DfsInv net0 I c0 c1 rank st fin)
    (cur : Nat) (rest : List Nat) (hstack : st.dfs = cur :: rest) :
    ∃ st1 fin1, dfsStep st cur rest = Except.ok st1 ∧ DfsInv net0 I c0 c1 rank st1 fin1 ∧
      dfsMeasure st1 < dfsMeasure st := by
  have hcur_mem : cur ∈ st.dfs := by rw [hstack]; exact List.mem_cons_self _ _
  have hcur_lt : cur < st.nodes.length := by
    rw [inv.len_nodes]; exact inv.stack_lt cur hcur_mem
  obtain ⟨n, hn⟩ : ∃ n, st.nodes[cur]? = some n :=
    ⟨st.nodes[cur], List.getElem?_eq_getElem hcur_lt⟩
  have hkids_eq : n.children = childrenAt net0 cur := by
    rw [← inv.kids cur, childrenAt_of_getElem st.nodes cur n hn]
  have hvcur : visitedAt st.nodes cur = n.topologicalVisited :=
    visitedAt_of_getElem st.nodes cur n hn
  by_cases hv : n.topologicalVisited = true
  · have hvalid : ∀ c ∈ n.children, c < st.nodes.length := by
      intro c hc
      rw [inv.len_nodes]
      exact stat.children_valid cur c (hkids_eq ▸ hc)
    rcases firstUnvisitedChild_spec st.nodes n.children hvalid with ⟨h1, h2⟩ | ⟨c, h1, h2, h3⟩
    · obtain ⟨hlt, inv1⟩ := inv.finish stat cur rest n hstack hn (by rw [hvcur]; exact hv)
        (fun c hc => h2 c (hkids_eq ▸ hc))
      refine ⟨_, cur :: fin, ?_, inv1, ?_⟩
      · simp [dfsStep, hn, hv, h1, storeOrdered, hlt]
      · have hU := unvisitedCount_number st.nodes cur st.topValue n hn
        simp only [dfsMeasure, hstack, hU, hvcur, hv, if_true, List.length_cons]
        cases rest with
        | nil => simp only [List.length_nil]; omega
        | cons r rs =>
          simp only [List.length_cons]
          split_ifs <;> omega
    · have inv1 := inv.push stat cur rest c hstack (by rw [hvcur]; exact hv) (hkids_eq ▸ h2) h3
      refine ⟨_, fin, ?_, inv1, ?_⟩
      · simp [dfsStep, hn, hv, h1]
      · simp only [dfsMeasure, hstack, hvcur, hv, h3, if_true, List.length_cons]
        simp only [Bool.false_eq_true, if_false]
        omega
  · have hv' : n.topologicalVisited = false := by simpa using hv
    have inv1 := inv.mark cur rest n hstack hn
    have hvalid : ∀ c ∈ n.children,
        c < (st.nodes.set cur (n.setTopologicalVisited true)).length := by
      intro c hc
      rw [List.length_set, inv.len_nodes]
      exact stat.children_valid cur c (hkids_eq ▸ hc)
    have hU := unvisitedCount_mark st.nodes cur n hn hv'
    have hvcur1 : visitedAt (st.nodes.set cur (n.setTopologicalVisited true)) cur = true := by
      rw [visitedAt_set_visited st.nodes cur cur n hn, if_pos rfl]
    rcases firstUnvisitedChild_spec (st.nodes.set cur (n.setTopologicalVisited true)) n.children
        hvalid with ⟨h1, _⟩ | ⟨c, h1, h2, h3⟩
    · refine ⟨_, fin, ?_, inv1, ?_⟩
      · simp [dfsStep, hn, hv', h1]
      · simp only [dfsMeasure, hstack, hvcur, hv', hvcur1, if_true, List.length_cons]
        simp only [Bool.false_eq_true, if_false]
        omega
    · have inv2 := inv1.push stat cur rest c hstack hvcur1 (hkids_eq ▸ h2) h3
      refine ⟨_, fin, ?_, inv2, ?_⟩
      · simp [dfsStep, hn, hv', h1]
      · simp only [dfsMeasure, hstack, hvcur, hv', h3, List.length_cons]
        simp only [Bool.false_eq_true, if_false]
        omega

/-- Started where the invariant holds, with fuel for the measure, the loop
ends with an empty stack and the invariant. -/
theorem dfsLoop_correct {net0 : Network} {I : List Nat} {c0 c1 : Nat} {rank : Nat → Nat}
    (stat : DfsStatic net0 I c0 c1 rank) :
    ∀ (fuel : Nat) (st : TopoState) (fin : List Nat), DfsInv net0 I c0 c1 rank st fin →
      dfsMeasure st ≤ fuel →
      ∃ st1 fin1, dfsLoop fuel st = Except.ok st1 ∧ DfsInv net0 I c0 c1 rank st1 fin1 ∧
        st1.dfs = [] := by
  intro fuel
  induction fuel with
  | zero =>
    intro st fin inv hm
    cases hstack : st.dfs with
    | nil => exact ⟨st, fin, by simp [dfsLoop, hstack], inv, hstack⟩
    | cons cur rest =>
      exfalso
      simp only [dfsMeasure, hstack, List.length_cons] at hm
      omega
  | succ fuel ih =>
    intro st fin inv hm
    cases hstack : st.dfs with
    | nil => exact ⟨st, fin, by simp [dfsLoop, hstack], inv, hstack⟩
    | cons cur rest =>
      obtain ⟨st1, fin1, hstep, inv1, hlt⟩ := dfsStep_progress stat inv cur rest hstack
      obtain ⟨st2, fin2, hloop, inv2, hemp⟩ := ih st1 fin1 inv1 (by omega)
      refine ⟨st2, fin2, ?_, inv2, hemp⟩
      rw [dfsLoop]
      simp only [hstack, hstep]
      exact hloop

/-! ## Loops with an `int` counter -/

/-- A loop whose body is defined on, and keeps, an invariant runs to its end
when the counter stays below `2^31`. -/
theorem intLoop_invariant {σ : Type} (body : Nat → σ → Except UCError σ) (P : Nat → σ → Prop)
    (stop : Nat)
    (hbody : ∀ j s, j < stop → P j s → ∃ s1, body j s = Except.ok s1 ∧ P (j + 1) s1) :
    ∀ (count i : Nat) (s : σ), i + count = stop → stop < 2 ^ 31 → P i s →
      ∃ s1, intLoop body count i s = Except.ok s1 ∧ P stop s1 := by
  intro count
  induction count with
  | zero =>
    intro i s hi hstop hP
    have e : i = stop := by omega
    subst e
    exact ⟨s, by rw [intLoop, if_pos hstop], hP⟩
  | succ count ih =>
    intro i s hi hstop hP
    obtain ⟨s1, hb, hP1⟩ := hbody i s (by omega) hP
    obtain ⟨s2, hl, hP2⟩ := ih (i + 1) s1 (by omega) hstop hP1
    refine ⟨s2, ?_, hP2⟩
    rw [intLoop, if_pos (by omega)]
    simp only [hb]
    exact hl

/-- A loop that ran to its end kept its counter below `2^31` and carried every
invariant of its body from the start to the end. -/
theorem intLoop_ok {σ : Type} (body : Nat → σ → Except UCError σ) (P : Nat → σ → Prop)
    (hbody : ∀ j s s1, P j s → body j s = Except.ok s1 → P (j + 1) s1) :
    ∀ (count i : Nat) (s s1 : σ), intLoop body count i s = Except.ok s1 → P i s →
      i + count < 2 ^ 31 ∧ P (i + count) s1 := by
  intro count
  induction count with
  | zero =>
    intro i s s1 h hP
    rw [intLoop] at h
    split_ifs at h with hi
    · cases h
      exact ⟨by omega, hP⟩
  | succ count ih =>
    intro i s s1 h hP
    rw [intLoop] at h
    split_ifs at h with hi
    · cases hb : body i s with
      | error e => rw [hb] at h; cases h
      | ok s2 =>
        rw [hb] at h
        obtain ⟨h1, h2⟩ := ih (i + 1) s2 s1 h (hbody i s s2 hP hb)
        have e : i + 1 + count = i + (count + 1) := by omega
        rw [e] at h1 h2
        exact ⟨h1, h2⟩

/-! ## Topological ordering: the loop over the input poles -/

theorem visitedAt_set (net : Network) (j k : Nat) (m : UCNode) (hj : j < net.length) :
    visitedAt (net.set j m) k = if k = j then m.topologicalVisited else visitedAt net k := by
  unfold visitedAt
  by_cases hk : k = j
  · subst hk
    simp [List.getElem?_set_self hj]
  · have hne : j ≠ k := fun e => hk e.symm
    simp [List.getElem?_set_ne hne, hk]

theorem numberAt_set (net : Network) (j k : Nat) (m : UCNode) (hj : j < net.length) :
    numberAt (net.set j m) k = if k = j then m.topologicalNumber else numberAt net k := by
  unfold numberAt
  by_cases hk : k = j
  · subst hk
    simp [List.getElem?_set_self hj]
  · have hne : j ≠ k := fun e => hk e.symm
    simp [List.getElem?_set_ne hne, hk]

/-- The body of the first loop is defined on, and keeps, `SeedInv`. -/
theorem seedInput_invariant (net0 : Network) (poles : List Nat) (tv inputs : Nat)
    (hle : inputs ≤ poles.length) (hnd : (poles.take inputs).Nodup)
    (hvalid : ∀ p ∈ poles.take inputs, p < net0.length) (hsize : inputs ≤ net0.length)
    (i : Nat) (st : TopoState) (hi : i < inputs) (inv : SeedInv net0 poles tv i st) :
    ∃ st1, seedInput poles i st = Except.ok st1 ∧ SeedInv net0 poles tv (i + 1) st1 := by
  have hip : i < poles.length := by omega
  have hp : poles[i]? = some poles[i] := List.getElem?_eq_getElem hip
  have htake : poles.take (i + 1) = poles.take i ++ [poles[i]] := by
    rw [List.take_succ, hp]; rfl
  have hmem : poles[i] ∈ poles.take inputs :=
    List.mem_take_iff_getElem.mpr ⟨i, by omega, rfl⟩
  have hplt : poles[i] < st.nodes.length := by rw [inv.len_nodes]; exact hvalid _ hmem
  have hnd1 : (poles.take (i + 1)).Nodup :=
    List.Nodup.sublist (List.take_sublist_take_left poles (by omega)) hnd
  have hnot : poles[i] ∉ poles.take i := by
    rw [htake] at hnd1
    intro h
    exact (List.nodup_append.mp hnd1).2.2 h (List.mem_singleton_self _)
  obtain ⟨n, hn⟩ : ∃ n, st.nodes[poles[i]]? = some n :=
    ⟨st.nodes[poles[i]], List.getElem?_eq_getElem hplt⟩
  have hilt : i < st.topOrderedNodes.length := by rw [inv.len_ordered]; omega
  refine ⟨{ st with
      nodes := st.nodes.set poles[i] ((n.setTopologicalVisited true).setTopologicalNumber i),
      topOrderedNodes := st.topOrderedNodes.set i (some poles[i]) },
    by simp [seedInput, hp, modifyNode, hn, storeOrdered, hilt], ?_⟩
  refine
    { len_nodes := by simpa using inv.len_nodes
      len_ordered := by simpa using inv.len_ordered
      top := inv.top
      stack := inv.stack
      kids := fun j => by
        rw [← inv.kids j]
        exact childrenAt_set st.nodes poles[i] j n _ hn rfl
      vis := fun j => by
        show visitedAt (st.nodes.set poles[i] _) j = true ↔ _
        rw [visitedAt_set st.nodes poles[i] j _ hplt, htake, List.mem_append, List.mem_singleton]
        by_cases hj : j = poles[i]
        · simp [hj, UCNode.setTopologicalNumber, UCNode.setTopologicalVisited]
        · simp [hj, inv.vis j]
      num := fun k p hk hkp => by
        show numberAt (st.nodes.set poles[i] _) p = k ∧
          (st.topOrderedNodes.set i (some poles[i]))[k]? = some (some p)
        rw [numberAt_set st.nodes poles[i] p _ hplt]
        by_cases hki : k = i
        · subst hki
          have e : p = poles[k] := by
            rw [hp] at hkp
            exact (Option.some.inj hkp).symm
          subst e
          exact ⟨by simp [UCNode.setTopologicalNumber], List.getElem?_set_self hilt⟩
        · have hk' : k < i := by omega
          obtain ⟨h1, h2⟩ := inv.num k p hk' hkp
          have hpm : p ∈ poles.take i := by
            have hkl : k < poles.length := by omega
            have e : poles[k] = p := by
              rw [List.getElem?_eq_getElem hkl] at hkp
              exact Option.some.inj hkp
            exact List.mem_take_iff_getElem.mpr ⟨k, by omega, e⟩
          have hpne : p ≠ poles[i] := fun e => hnot (e ▸ hpm)
          rw [if_neg hpne, List.getElem?_set_ne (fun e => hki e.symm)]
          exact ⟨h1, h2⟩ }

/-! ## Topological ordering: from entry to exit -/

theorem sub32_pred (t : Nat) (h1 : 1 ≤ t) (h2 : t < 2 ^ 32) : sub32 t 1 + 1 = t := by
  rw [sub32_one t h1 h2]
  omega

/-- The facts the loop relies on, drawn from the entry condition. -/
theorem TopoReady.static {uc : ValiantUC} {inputs c0 c1 : Nat} (h : TopoReady uc inputs c0 c1)
    (rank : Nat → Nat) (hrank : ∀ j, ∀ c ∈ childrenAt uc.nodes j, rank j < rank c) :
    DfsStatic uc.nodes (uc.poles.take inputs) c0 c1 rank where
  children_valid := h.children_valid
  no_input_child := h.no_input_child
  acyclic := hrank
  separate := h.separate
  inputs_nodup := h.poles_nodup
  inputs_lt := h.poles_valid
  inputs_pos := by
    rw [List.length_take, Nat.min_eq_left h.inputs_le]
    exact h.inputs_pos
  size_lt := by
    have h1 := h.size_lt
    have h2 := h.size_eq
    omega

/-- With an empty stack the finished nodes and the input poles are all nodes
that can be reached from the two nodes pushed first. -/
theorem DfsInv.covers {net0 : Network} {I : List Nat} {c0 c1 : Nat} {rank : Nat → Nat}
    {st : TopoState} {fin : List Nat} (inv : DfsInv net0 I c0 c1 rank st fin)
    (hemp : st.dfs = []) (j : Nat) (hj : Reaches net0 c0 j ∨ Reaches net0 c1 j) : j ∈ fin := by
  have hclosed : ∀ a b, a ∈ fin → Reaches net0 a b → b ∈ fin := by
    intro a b ha hab
    induction hab with
    | refl => exact ha
    | tail _ hstep ih => exact (inv.fin_children _ ih _ hstep).1
  obtain ⟨h0, h1⟩ := inv.roots
  rw [hemp] at h0 h1
  have hc0 : c0 ∈ fin := by
    rcases h0 with h | h
    · exact absurd h (List.not_mem_nil _)
    · exact h
  have hc1 : c1 ∈ fin := by
    rcases h1 with h | h
    · exact absurd h (List.not_mem_nil _)
    · exact h
  rcases hj with h | h
  · exact hclosed c0 j hc0 h
  · exact hclosed c1 j hc1 h

/-- From the entry condition, `topologicalOrdering` runs to its end without
leaving defined behaviour; on exit the invariant holds with an empty stack
and every node is an input pole or finished. -/
theorem topologicalOrderingState_correct (uc : ValiantUC) (inputs c0 c1 : Nat)
    (h : TopoReady uc inputs c0 c1) :
    ∃ st fin rank, topologicalOrderingState (dfsFuel uc) uc inputs = Except.ok st ∧
      DfsStatic uc.nodes (uc.poles.take inputs) c0 c1 rank ∧
      DfsInv uc.nodes (uc.poles.take inputs) c0 c1 rank st fin ∧ st.dfs = [] ∧
      ∀ j, j < uc.nodes.length → j ∈ uc.poles.take inputs ∨ j ∈ fin := by
  obtain ⟨rank, hrank⟩ := h.acyclic
  have stat := h.static rank hrank
  have hIlen : (uc.poles.take inputs).length = inputs := by
    rw [List.length_take, Nat.min_eq_left h.inputs_le]
  have hIle : inputs ≤ uc.nodes.length := by
    have := length_add_le_of_disjoint uc.nodes.length (uc.poles.take inputs) []
      h.poles_nodup List.nodup_nil (fun x _ => List.not_mem_nil x) h.poles_valid
      (fun x hx => absurd hx (List.not_mem_nil x))
    rw [hIlen] at this
    simpa using this
  have hsz := h.size_eq
  have hszlt := h.size_lt
  have hseed0 : SeedInv uc.nodes uc.poles (sub32 uc.size 1) 0
      { nodes := uc.nodes, topOrderedNodes := uc.topOrderedNodes,
        topValue := sub32 uc.size 1, dfs := [] } :=
    { len_nodes := rfl
      len_ordered := by
        show uc.topOrderedNodes.length = uc.nodes.length
        rw [h.ordered_len, hsz]
      top := rfl
      stack := rfl
      kids := fun _ => rfl
      vis := fun j => by
        show visitedAt uc.nodes j = true ↔ _
        simp [h.fresh j]
      num := fun k p hk _ => absurd hk (Nat.not_lt_zero k) }
  obtain ⟨st1, hloop1, seed⟩ := intLoop_invariant (seedInput uc.poles)
    (SeedInv uc.nodes uc.poles (sub32 uc.size 1)) inputs
    (fun j s hj hP => seedInput_invariant uc.nodes uc.poles (sub32 uc.size 1) inputs
      h.inputs_le h.poles_nodup h.poles_valid hIle j s hj hP)
    inputs 0 _ (by omega) (by omega) hseed0
  obtain ⟨p0, rest, hp0, hkids0⟩ := h.first_children
  have hkids1 : childrenAt st1.nodes p0 = c0 :: c1 :: rest := by rw [seed.kids p0, hkids0]
  obtain ⟨n0, hn0, hn0c⟩ : ∃ n0, st1.nodes[p0]? = some n0 ∧ n0.children = c0 :: c1 :: rest := by
    unfold childrenAt at hkids1
    cases hq : st1.nodes[p0]? with
    | none => rw [hq] at hkids1; cases hkids1
    | some n0 => rw [hq] at hkids1; exact ⟨n0, rfl, hkids1⟩
  have hc0mem : c0 ∈ childrenAt uc.nodes p0 := by rw [hkids0]; simp
  have hc1mem : c1 ∈ childrenAt uc.nodes p0 := by rw [hkids0]; simp
  have hc0I : c0 ∉ uc.poles.take inputs := h.no_input_child p0 c0 hc0mem
  have hc1I : c1 ∉ uc.poles.take inputs := h.no_input_child p0 c1 hc1mem
  have hc0v : visitedAt st1.nodes c0 = false := by
    cases hv : visitedAt st1.nodes c0 with
    | false => rfl
    | true => exact absurd ((seed.vis c0).mp hv) hc0I
  have hc1v : visitedAt st1.nodes c1 = false := by
    cases hv : visitedAt st1.nodes c1 with
    | false => rfl
    | true => exact absurd ((seed.vis c1).mp hv) hc1I
  have hne : c1 ≠ c0 := fun e => h.separate (e ▸ Relation.ReflTransGen.refl)
  have hNpos : 1 ≤ uc.nodes.length := by have := h.inputs_pos; omega
  have inv0 : DfsInv uc.nodes (uc.poles.take inputs) c0 c1 rank { st1 with dfs := [c1, c0] } [] :=
    { len_nodes := seed.len_nodes
      len_ordered := seed.len_ordered
      kids := seed.kids
      top := by
        show st1.topValue + 0 + 1 = uc.nodes.length
        have hpred := sub32_pred uc.nodes.length hNpos (by omega)
        rw [seed.top, hsz]
        omega
      fin_nodup := List.nodup_nil
      fin_lt := fun f hf => absurd hf (List.not_mem_nil f)
      fin_vis := fun f hf => absurd hf (List.not_mem_nil f)
      fin_not_input := fun f hf => absurd hf (List.not_mem_nil f)
      fin_not_stack := fun f hf => absurd hf (List.not_mem_nil f)
      fin_num := fun idx f hf => by simp at hf
      inp := fun i p hp => by
        have hi : i < inputs := by
          have := (List.getElem?_eq_some.mp hp).1
          rw [hIlen] at this
          exact this
        have hp' : uc.poles[i]? = some p := by
          rw [List.getElem?_take_of_lt hi] at hp
          exact hp
        have hpI : p ∈ uc.poles.take inputs := (List.getElem?_eq_some.mp hp).2 ▸ List.getElem_mem _
        obtain ⟨h1, h2⟩ := seed.num i p hi hp'
        exact ⟨(seed.vis p).mpr hpI, h1, h2⟩
      vis_cases := fun j hj => Or.inl ((seed.vis j).mp hj)
      stack_nodup := by
        show [c1, c0].Nodup
        simp [hne]
      stack_lt := fun s hs => by
        have hs' : s ∈ [c1, c0] := hs
        simp only [List.mem_cons, List.mem_singleton, List.not_mem_nil, or_false] at hs'
        rcases hs' with e | e
        · rw [e]; exact h.children_valid p0 c1 hc1mem
        · rw [e]; exact h.children_valid p0 c0 hc0mem
      stack_not_input := fun s hs => by
        have hs' : s ∈ [c1, c0] := hs
        simp only [List.mem_cons, List.mem_singleton, List.not_mem_nil, or_false] at hs'
        rcases hs' with e | e
        · rw [e]; exact hc1I
        · rw [e]; exact hc0I
      stack_rank := by
        show List.Pairwise _ [c1, c0]
        refine List.pairwise_cons.mpr ⟨?_, List.pairwise_singleton _ _⟩
        intro b hb hvb
        have e : b = c0 := by simpa using hb
        rw [e] at hvb
        have : visitedAt st1.nodes c0 = true := hvb
        rw [hc0v] at this
        exact Bool.noConfusion this
      stack_tail := fun s hs _ => by
        have hs' : s ∈ [c0] := hs
        simpa using hs'
      stack_reach := fun _ s hs => by
        have hs' : s ∈ [c1, c0] := hs
        simp only [List.mem_cons, List.mem_singleton, List.not_mem_nil, or_false] at hs'
        rcases hs' with e | e
        · right; rw [e]; exact Relation.ReflTransGen.refl
        · left; exact e
      fin_children := fun f hf => absurd hf (List.not_mem_nil f)
      roots := ⟨Or.inl (by show c0 ∈ [c1, c0]; simp), Or.inl (by show c1 ∈ [c1, c0]; simp)⟩ }
  have hmeasure : dfsMeasure { st1 with dfs := [c1, c0] } ≤ dfsFuel uc := by
    have hU : unvisitedCount st1.nodes ≤ uc.nodes.length := by
      rw [← seed.len_nodes]
      exact List.countP_le_length _
    simp only [dfsMeasure, dfsFuel, hc1v, List.length_cons, List.length_nil]
    simp only [Bool.false_eq_true, if_false]
    omega
  obtain ⟨st2, fin, hloop2, inv2, hemp⟩ := dfsLoop_correct stat (dfsFuel uc) _ [] inv0 hmeasure
  refine ⟨st2, fin, rank, ?_, stat, inv2, hemp, ?_⟩
  · unfold topologicalOrderingState
    simp only [hloop1, hp0, hn0, hn0c, List.getElem?_cons_zero, List.getElem?_cons_succ]
    exact hloop2
  · intro j hj
    by_cases hjI : j ∈ uc.poles.take inputs
    · exact Or.inl hjI
    · exact Or.inr (inv2.covers hemp j (h.reach j hj hjI))

theorem topologicalOrdering_eq_of_state (uc : ValiantUC) (inputs : Nat) (st : TopoState)
    (h : topologicalOrderingState (dfsFuel uc) uc inputs = Except.ok st) :
    topologicalOrdering uc inputs =
      Except.ok { uc with nodes := st.nodes, topOrderedNodes := st.topOrderedNodes } := by
  simp [topologicalOrdering, h]

theorem mem_getElem?_index (l : List Nat) (x : Nat) (h : x ∈ l) : ∃ i : Nat, l[i]? = some x := by
  obtain ⟨i, hi, e⟩ := List.getElem_of_mem h
  exact ⟨i, by rw [List.getElem?_eq_getElem hi, e]⟩

/-- C2 (as amended): when `topologicalOrdering(inputs)` is entered with at least
one input pole, the input poles distinct, no node visited, child references
inside the arena, no input pole in any child list, the child relation acyclic,
every other node reachable from one of the first two children `c0`, `c1` of
pole 0, and `c0` not reachable from `c1`, then it runs to its end and afterwards
every node has a smaller topological number than each node in its child list. -/
theorem topologicalOrdering_parent_before_child (uc : ValiantUC) (inputs c0 c1 : Nat)
    (h : TopoReady uc inputs c0 c1) :
    ∃ uc1, topologicalOrdering uc inputs = Except.ok uc1 ∧
      ∀ u v, v ∈ childrenAt uc1.nodes u → numberAt uc1.nodes u < numberAt uc1.nodes v := by
  obtain ⟨st, fin, rank, hrun, stat, inv, hemp, hcover⟩ :=
    topologicalOrderingState_correct uc inputs c0 c1 h
  refine ⟨_, topologicalOrdering_eq_of_state uc inputs st hrun, ?_⟩
  intro u v hv
  have hv0 : v ∈ childrenAt uc.nodes u := by
    have : v ∈ childrenAt st.nodes u := hv
    rwa [inv.kids u] at this
  show numberAt st.nodes u < numberAt st.nodes v
  have hu : u < uc.nodes.length := by
    by_contra hge
    have : uc.nodes[u]? = none := List.getElem?_eq_none (by omega)
    simp [childrenAt, this] at hv0
  rcases hcover u hu with hI | hF
  · obtain ⟨i, hi⟩ := mem_getElem?_index _ u hI
    have hilt : i < (uc.poles.take inputs).length := (List.getElem?_eq_some.mp hi).1
    have hnum := (inv.inp i u hi).2.1
    have hvI : v ∉ uc.poles.take inputs := stat.no_input_child u v hv0
    have hvF : v ∈ fin := by
      rcases hcover v (stat.children_valid u v hv0) with hx | hx
      · exact absurd hx hvI
      · exact hx
    obtain ⟨idx, hidx⟩ := mem_getElem?_index _ v hvF
    have hvnum := (inv.fin_num idx v hidx).1
    have hcount := length_add_le_of_disjoint uc.nodes.length fin (uc.poles.take inputs)
      inv.fin_nodup stat.inputs_nodup inv.fin_not_input inv.fin_lt stat.inputs_lt
    omega
  · exact (inv.fin_children u hF v hv0).2

theorem diamondUC_ready : TopoReady diamondUC 1 1 2 where
  size_eq := rfl
  ordered_len := rfl
  size_lt := by decide
  inputs_pos := by decide
  inputs_le := by decide
  poles_nodup := by decide
  poles_valid := by decide
  fresh := fun j => by
    by_cases hj : j < 4
    · interval_cases j <;> rfl
    · have : diamondUC.nodes[j]? = none := List.getElem?_eq_none (by simp [diamondUC, plainUC]; omega)
      simp [visitedAt, this]
  children_valid := fun j c hc => by
    by_cases hj : j < 4
    · interval_cases j <;> simp [childrenAt, diamondUC, plainUC, plainNode] at hc ⊢ <;> omega
    · have : diamondUC.nodes[j]? = none := List.getElem?_eq_none (by simp [diamondUC, plainUC]; omega)
      simp [childrenAt, this] at hc
  first_children := ⟨0, [], rfl, rfl⟩
  no_input_child := fun j c hc => by
    by_cases hj : j < 4
    · interval_cases j <;> simp [childrenAt, diamondUC, plainUC, plainNode] at hc ⊢ <;> omega
    · have : diamondUC.nodes[j]? = none := List.getElem?_eq_none (by simp [diamondUC, plainUC]; omega)
      simp [childrenAt, this] at hc
  acyclic := ⟨fun j => j, fun j c hc => by
    by_cases hj : j < 4
    · interval_cases j <;> simp [childrenAt, diamondUC, plainUC, plainNode] at hc ⊢ <;> omega
    · have : diamondUC.nodes[j]? = none := List.getElem?_eq_none (by simp [diamondUC, plainUC]; omega)
      simp [childrenAt, this] at hc⟩
  reach := fun j hj hjI => by
    have hj4 : j < 4 := hj
    have h13 : Reaches diamondUC.nodes 1 3 :=
      Relation.ReflTransGen.single (by simp [childrenAt, diamondUC, plainUC, plainNode])
    interval_cases j
    · exact absurd (by decide) hjI
    · exact Or.inl Relation.ReflTransGen.refl
    · exact Or.inr Relation.ReflTransGen.refl
    · exact Or.inl h13
  separate := by
    intro hr
    have hstep : ∀ x y, y ∈ childrenAt diamondUC.nodes x → x < y := by
      intro x y hxy
      by_cases hx : x < 4
      · interval_cases x <;> simp [childrenAt, diamondUC, plainUC, plainNode] at hxy ⊢ <;> omega
      · have : diamondUC.nodes[x]? = none :=
          List.getElem?_eq_none (by simp [diamondUC, plainUC]; omega)
        simp [childrenAt, this] at hxy
    have hmono : ∀ a b, Reaches diamondUC.nodes a b → a ≤ b := by
      intro a b hab
      induction hab with
      | refl => exact le_refl _
      | tail _ hs ih => exact le_trans ih (le_of_lt (hstep _ _ hs))
    have := hmono 2 1 hr
    omega

/-- Witness for C2: the ordering of `diamondUC` with one input. -/
theorem topologicalOrdering_parent_before_child_witness :
    ∃ uc1, topologicalOrdering diamondUC 1 = Except.ok uc1 ∧
      ∀ u v, v ∈ childrenAt uc1.nodes u → numberAt uc1.nodes u < numberAt uc1.nodes v :=
  topologicalOrdering_parent_before_child diamondUC 1 1 2 diamondUC_ready

/-- C2 (counterexample to the claim as stated): in `inputChildUC`, run with two
inputs, node 2 has the input pole 1 in its child list; the run ends with the
numbers 0, 1, 2, 3 for the nodes 0, 1, 2, 3, so node 2 is not numbered below
its child 1. -/
theorem topologicalOrdering_child_order_fails :
    ∃ uc1, topologicalOrdering inputChildUC 2 = Except.ok uc1 ∧
      1 ∈ childrenAt uc1.nodes 2 ∧ ¬ (numberAt uc1.nodes 2 < numberAt uc1.nodes 1) :=
  ⟨_, rfl, by decide, by decide⟩

/-- C3 (as amended): under the entry condition of C2, `topologicalOrdering`
gives each of the `size` nodes a topological number in `[0, size)`, no two
nodes the same one, and `topOrderedNodes[k]` is the node numbered `k` for
every `k < size`. -/
theorem topologicalOrdering_numbers_permutation (uc : ValiantUC) (inputs c0 c1 : Nat)
    (h : TopoReady uc inputs c0 c1) :
    ∃ uc1, topologicalOrdering uc inputs = Except.ok uc1 ∧
      uc1.nodes.length = uc.size ∧ uc1.topOrderedNodes.length = uc.size ∧
      (∀ j, j < uc.size → numberAt uc1.nodes j < uc.size) ∧
      (∀ j k, j < uc.size → k < uc.size →
        numberAt uc1.nodes j = numberAt uc1.nodes k → j = k) ∧
      (∀ k, k < uc.size →
        ∃ j, j < uc.size ∧ uc1.topOrderedNodes[k]? = some (some j) ∧
          numberAt uc1.nodes j = k) := by
  obtain ⟨st, fin, rank, hrun, stat, inv, hemp, hcover⟩ :=
    topologicalOrderingState_correct uc inputs c0 c1 h
  have hsz := h.size_eq
  have hIlen : (uc.poles.take inputs).length = inputs := by
    rw [List.length_take, Nat.min_eq_left h.inputs_le]
  have hle := length_add_le_of_disjoint uc.nodes.length fin (uc.poles.take inputs)
    inv.fin_nodup stat.inputs_nodup inv.fin_not_input inv.fin_lt stat.inputs_lt
  have hge : uc.nodes.length ≤ (uc.poles.take inputs).length + fin.length := by
    have hsub : List.range uc.nodes.length ⊆ uc.poles.take inputs ++ fin := by
      intro x hx
      rcases hcover x (List.mem_range.mp hx) with hx | hx
      · exact List.mem_append_left _ hx
      · exact List.mem_append_right _ hx
    have := (List.Nodup.subperm (List.nodup_range uc.nodes.length) hsub).length_le
    simpa using this
  have hcases : ∀ j, j < uc.nodes.length →
      (∃ i : Nat, i < inputs ∧ (uc.poles.take inputs)[i]? = some j ∧ numberAt st.nodes j = i) ∨
      (∃ idx : Nat, idx < fin.length ∧ fin[idx]? = some j ∧
        numberAt st.nodes j = uc.nodes.length - fin.length + idx) := by
    intro j hj
    rcases hcover j hj with hx | hx
    · obtain ⟨i, hi⟩ := mem_getElem?_index _ j hx
      have hilt : i < (uc.poles.take inputs).length := (List.getElem?_eq_some.mp hi).1
      exact Or.inl ⟨i, by omega, hi, (inv.inp i j hi).2.1⟩
    · obtain ⟨idx, hidx⟩ := mem_getElem?_index _ j hx
      exact Or.inr ⟨idx, (List.getElem?_eq_some.mp hidx).1, hidx, (inv.fin_num idx j hidx).1⟩
  refine ⟨_, topologicalOrdering_eq_of_state uc inputs st hrun, ?_, ?_, ?_, ?_, ?_⟩
  · show st.nodes.length = uc.size
    rw [inv.len_nodes, hsz]
  · show st.topOrderedNodes.length = uc.size
    rw [inv.len_ordered, hsz]
  · intro j hj
    show numberAt st.nodes j < uc.size
    rcases hcases j (by omega) with ⟨i, hi, _, e⟩ | ⟨idx, hidx, _, e⟩ <;> omega
  · intro j k hj hk hjk
    have hjk' : numberAt st.nodes j = numberAt st.nodes k := hjk
    rcases hcases j (by omega) with ⟨i, hi, hij, e⟩ | ⟨idx, hidx, hij, e⟩ <;>
      rcases hcases k (by omega) with ⟨i2, hi2, hik, e2⟩ | ⟨idx2, hidx2, hik, e2⟩
    · have : i = i2 := by omega
      subst this
      rw [hij] at hik
      exact Option.some.inj hik
    · omega
    · omega
    · have : idx = idx2 := by omega
      subst this
      rw [hij] at hik
      exact Option.some.inj hik
  · intro k hk
    show ∃ j, j < uc.size ∧ st.topOrderedNodes[k]? = some (some j) ∧ numberAt st.nodes j = k
    by_cases hki : k < inputs
    · have hkl : k < (uc.poles.take inputs).length := by omega
      have hkj : (uc.poles.take inputs)[k]? = some (uc.poles.take inputs)[k] :=
        List.getElem?_eq_getElem hkl
      obtain ⟨_, h2, h3⟩ := inv.inp k _ hkj
      refine ⟨_, ?_, h3, h2⟩
      rw [hsz]
      exact stat.inputs_lt _ (List.getElem_mem _)
    · have hidx : k - inputs < fin.length := by omega
      have hkj : fin[k - inputs]? = some fin[k - inputs] := List.getElem?_eq_getElem hidx
      obtain ⟨h1, h2⟩ := inv.fin_num (k - inputs) _ hkj
      have e : uc.nodes.length - fin.length + (k - inputs) = k := by omega
      rw [e] at h1 h2
      refine ⟨_, ?_, h2, h1⟩
      rw [hsz]
      exact inv.fin_lt _ (List.getElem_mem _)

/-- Witness for C3: the ordering of `diamondUC` with one input. -/
theorem topologicalOrdering_numbers_permutation_witness :
    ∃ uc1, topologicalOrdering diamondUC 1 = Except.ok uc1 ∧
      uc1.nodes.length = diamondUC.size ∧ uc1.topOrderedNodes.length = diamondUC.size ∧
      (∀ j, j < diamondUC.size → numberAt uc1.nodes j < diamondUC.size) ∧
      (∀ j k, j < diamondUC.size → k < diamondUC.size →
        numberAt uc1.nodes j = numberAt uc1.nodes k → j = k) ∧
      (∀ k, k < diamondUC.size →
        ∃ j, j < diamondUC.size ∧ uc1.topOrderedNodes[k]? = some (some j) ∧
          numberAt uc1.nodes j = k) :=
  topologicalOrdering_numbers_permutation diamondUC 1 1 2 diamondUC_ready

/-- C3 (counterexample to the claim as stated): in `strayUC`, run with one
input, pole 3 is not below the two children of pole 0; the run ends, pole 3
keeps the number 0 of the input pole 0, and `topOrderedNodes[1]` stays null. -/
theorem topologicalOrdering_permutation_fails :
    ∃ uc1, topologicalOrdering strayUC 1 = Except.ok uc1 ∧
      numberAt uc1.nodes 3 = numberAt uc1.nodes 0 ∧ uc1.topOrderedNodes[1]? = some none :=
  ⟨_, rfl, by decide, by decide⟩

/-! ## Role assignment -/

theorem map_core_set (l : Network) (i : Nat) (n m : UCNode) (h : l[i]? = some n)
    (hc : m.core = n.core) : (l.set i m).map UCNode.core = l.map UCNode.core := by
  have hi : i < l.length := (List.getElem?_eq_some.mp h).1
  apply List.ext_getElem?
  intro k
  rw [List.getElem?_map, List.getElem?_map, List.getElem?_set]
  by_cases hk : i = k
  · subst hk
    simp [hi, h, hc]
  · simp [hk]

theorem core_of_map_eq (a b : Network) (h : a.map UCNode.core = b.map UCNode.core) (p : Nat)
    (n : UCNode) (hn : b[p]? = some n) : ∃ m, a[p]? = some m ∧ m.core = n.core := by
  have hp := congrArg (fun l => l[p]?) h
  simp only [List.getElem?_map, hn, Option.map_some'] at hp
  cases ha : a[p]? with
  | none => rw [ha] at hp; cases hp
  | some m =>
    rw [ha] at hp
    exact ⟨m, rfl, Option.some.inj hp⟩

theorem dfsStep_core (st st1 : TopoState) (cur : Nat) (rest : List Nat)
    (h : dfsStep st cur rest = Except.ok st1) :
    st1.nodes.map UCNode.core = st.nodes.map UCNode.core := by
  unfold dfsStep at h
  cases hn : st.nodes[cur]? with
  | none => rw [hn] at h; cases h
  | some n =>
    rw [hn] at h
    try simp only at h
    by_cases hv : n.topologicalVisited = true
    · rw [if_pos hv] at h
      cases hf : firstUnvisitedChild st.nodes n.children with
      | none => rw [hf] at h; cases h
      | some r =>
        rw [hf] at h
        cases r with
        | some c => cases h; rfl
        | none =>
          try simp only at h
          cases hs : storeOrdered st.topOrderedNodes st.topValue cur with
          | none => rw [hs] at h; cases h
          | some o =>
            rw [hs] at h
            cases h
            exact map_core_set st.nodes cur n _ hn rfl
    · rw [if_neg hv] at h
      try simp only at h
      cases hf : firstUnvisitedChild (st.nodes.set cur (n.setTopologicalVisited true))
          n.children with
      | none => rw [hf] at h; cases h
      | some r =>
        rw [hf] at h
        cases r with
        | some c => cases h; exact map_core_set st.nodes cur n _ hn rfl
        | none => cases h; exact map_core_set st.nodes cur n _ hn rfl

theorem dfsLoop_core : ∀ (fuel : Nat) (st st1 : TopoState), dfsLoop fuel st = Except.ok st1 →
    st1.nodes.map UCNode.core = st.nodes.map UCNode.core := by
  intro fuel
  induction fuel with
  | zero =>
    intro st st1 h
    rw [dfsLoop] at h
    cases hd : st.dfs with
    | nil => rw [hd] at h; cases h; rfl
    | cons c r => rw [hd] at h; cases h
  | succ fuel ih =>
    intro st st1 h
    rw [dfsLoop] at h
    cases hd : st.dfs with
    | nil => rw [hd] at h; cases h; rfl
    | cons c r =>
      rw [hd] at h
      try simp only at h
      cases hs : dfsStep st c r with
      | error e => rw [hs] at h; cases h
      | ok st2 =>
        rw [hs] at h
        rw [ih st2 st1 h, dfsStep_core st st2 c r hs]

theorem seedInput_core (poles : List Nat) (i : Nat) (st st1 : TopoState)
    (h : seedInput poles i st = Except.ok st1) :
    st1.nodes.map UCNode.core = st.nodes.map UCNode.core := by
  unfold seedInput at h
  cases hp : poles[i]? with
  | none => rw [hp] at h; cases h
  | some p =>
    rw [hp] at h
    simp only [modifyNode] at h
    cases hn : st.nodes[p]? with
    | none => rw [hn] at h; cases h
    | some n =>
      rw [hn] at h
      try simp only at h
      cases hs : storeOrdered st.topOrderedNodes i p with
      | none => rw [hs] at h; cases h
      | some o =>
        rw [hs] at h
        cases h
        exact map_core_set st.nodes p n _ hn rfl

/-- `topologicalOrdering` writes only visited flags, topological numbers and
`topOrderedNodes`. -/
theorem topologicalOrdering_core (uc uc1 : ValiantUC) (inputs : Nat)
    (h : topologicalOrdering uc inputs = Except.ok uc1) :
    uc1.nodes.map UCNode.core = uc.nodes.map UCNode.core ∧ uc1.poles = uc.poles ∧
      uc1.inputs = uc.inputs ∧ uc1.outputs = uc.outputs ∧ uc1.gates = uc.gates := by
  unfold topologicalOrdering at h
  cases hst : topologicalOrderingState (dfsFuel uc) uc inputs with
  | error e => rw [hst] at h; cases h
  | ok st =>
    rw [hst] at h
    cases h
    refine ⟨?_, rfl, rfl, rfl, rfl⟩
    show st.nodes.map UCNode.core = uc.nodes.map UCNode.core
    unfold topologicalOrderingState at hst
    try simp only at hst
    cases hl : intLoop (seedInput uc.poles) inputs 0
        { nodes := uc.nodes, topOrderedNodes := uc.topOrderedNodes,
          topValue := sub32 uc.size 1, dfs := [] } with
    | error e => rw [hl] at hst; cases hst
    | ok st1 =>
      rw [hl] at hst
      try simp only at hst
      have h1 := (intLoop_ok (seedInput uc.poles)
        (fun _ s => s.nodes.map UCNode.core = uc.nodes.map UCNode.core)
        (fun j s s1 hP hb => (seedInput_core uc.poles j s s1 hb).trans hP)
        inputs 0 _ st1 hl rfl).2
      cases hp : uc.poles[0]? with
      | none => rw [hp] at hst; cases hst
      | some p0 =>
        rw [hp] at hst
        try simp only at hst
        cases hn : st1.nodes[p0]? with
        | none => rw [hn] at hst; cases hst
        | some n0 =>
          rw [hn] at hst
          try simp only at hst
          cases hc0 : n0.children[0]? with
          | none => rw [hc0] at hst; cases hst
          | some c0 =>
            cases hc1 : n0.children[1]? with
            | none => rw [hc0, hc1] at hst; cases hst
            | some c1 =>
              rw [hc0, hc1] at hst
              try simp only at hst
              rw [dfsLoop_core _ _ st hst]
              exact h1

/-- The wire counter loop writes only the wire counters. -/
theorem wireCounters_core : ∀ (ordered : List (Option Nat)) (counter : Int) (nodes nodes1 : Network),
    wireCounters ordered counter nodes = Except.ok nodes1 →
    nodes1.map UCNode.core = nodes.map UCNode.core := by
  intro ordered
  induction ordered with
  | nil =>
    intro counter nodes nodes1 h
    rw [wireCounters] at h
    cases h
    rfl
  | cons o rest ih =>
    intro counter nodes nodes1 h
    cases o with
    | none => rw [wireCounters] at h; cases h
    | some j =>
      rw [wireCounters] at h
      cases hn : nodes[j]? with
      | none => rw [hn] at h; cases h
      | some n =>
        rw [hn] at h
        try simp only at h
        have hset := map_core_set nodes j n (n.setNumberOfAdditionalWires counter) hn rfl
        split_ifs at h
        · rw [ih _ _ _ h, hset]
        · rw [ih _ _ _ h, hset]
        · rw [ih _ _ _ h, hset]

theorem nodup_index_ne (l : List Nat) (hnd : l.Nodup) (i k p : Nat) (hi : l[i]? = some p)
    (hik : k ≠ i) : l[k]? ≠ some p := by
  intro hk
  have hlt : k < l.length := (List.getElem?_eq_some.mp hk).1
  exact hik (List.getElem?_inj hlt hnd (hk.trans hi.symm))

/-- A loop over the poles `lo ≤ k < lo + count` that ran to its end has put a
node with property `Q` at each of these poles and left all other nodes alone. -/
theorem poleLoop_effect {σ : Type} (proj : σ → ValiantUC) (Q : UCNode → Prop)
    (body : Nat → σ → Except UCError σ) (hbody : TouchesPole proj Q body) (s0 : σ)
    (hnd : (proj s0).poles.Nodup) (count lo : Nat) (s1 : σ)
    (h : intLoop body count lo s0 = Except.ok s1) :
    lo + count < 2 ^ 31 ∧ PolesDone proj Q s0 lo (lo + count) s1 := by
  refine intLoop_ok body (PolesDone proj Q s0 lo) ?_ count lo s0 s1 h ?_
  · intro j s s2 hP hb
    obtain ⟨hlo, nodes1, hs, hdone, hrest⟩ := hP
    obtain ⟨p, n, m, hp, hn, hs2, hQ⟩ := hbody j s s2 hb
    rw [hs] at hp hn hs2
    simp only at hp hn hs2
    have hplt : p < nodes1.length := (List.getElem?_eq_some.mp hn).1
    refine ⟨by omega, nodes1.set p m, hs2, ?_, ?_⟩
    · intro k q hk1 hk2 hq
      by_cases hkj : k = j
      · subst hkj
        have e : q = p := Option.some.inj (hq.symm.trans hp)
        subst e
        exact ⟨m, List.getElem?_set_self hplt, hQ⟩
      · have hne : q ≠ p := by
          intro e
          subst e
          exact nodup_index_ne _ hnd j k q hp hkj hq
        obtain ⟨m1, hm1, hQ1⟩ := hdone k q hk1 (by omega) hq
        exact ⟨m1, by rw [List.getElem?_set_ne (fun e => hne e.symm)]; exact hm1, hQ1⟩
    · intro q hq
      have hne : q ≠ p := by
        intro e
        subst e
        exact hq j hlo (by omega) hp
      rw [List.getElem?_set_ne (fun e => hne e.symm)]
      exact hrest q (fun k hk1 hk2 => hq k hk1 (by omega))
  · exact ⟨le_refl _, (proj s0).nodes, rfl, fun k p hk1 hk2 => absurd hk2 (by omega),
      fun _ _ => rfl⟩

theorem assignInput_touches :
    TouchesPole (fun uc : ValiantUC => uc)
      (fun m => m.poleType = PoleType.INPUT ∧ m.parents = []) assignInput := by
  intro i s s1 h
  unfold assignInput at h
  cases hp : s.poles[i]? with
  | none => rw [hp] at h; cases h
  | some p =>
    rw [hp] at h
    simp only [modifyNode] at h
    cases hn : s.nodes[p]? with
    | none => rw [hn] at h; cases h
    | some n =>
      rw [hn] at h
      cases h
      exact ⟨p, n, _, rfl, hn, rfl, rfl, rfl⟩

theorem assignOutput_touches :
    TouchesPole (fun uc : ValiantUC => uc)
      (fun m => m.poleType = PoleType.OUTPUT ∧ m.children = []) assignOutput := by
  intro i s s1 h
  unfold assignOutput at h
  cases hp : s.poles[i]? with
  | none => rw [hp] at h; cases h
  | some p =>
    rw [hp] at h
    simp only [modifyNode] at h
    cases hn : s.nodes[p]? with
    | none => rw [hn] at h; cases h
    | some n =>
      rw [hn] at h
      cases h
      exact ⟨p, n, _, rfl, hn, rfl, rfl, rfl⟩

theorem assignGate_touches :
    TouchesPole (fun s : ValiantUC × List Nat => s.1)
      (fun m => m.poleType = PoleType.GATE) assignGate := by
  intro i s s1 h
  unfold assignGate at h
  cases hp : s.1.poles[i]? with
  | none => rw [hp] at h; cases h
  | some p =>
    rw [hp] at h
    cases hd : s.1.dag with
    | none => rw [hd] at h; cases h
    | some dag =>
      rw [hd] at h
      simp only at h
      cases hc : dag.node_array[i]? with
      | none => rw [hc] at h; cases h
      | some cn =>
        rw [hc] at h
        simp only at h
        cases hr : resolveControlBits dag cn with
        | error e => rw [hr] at h; cases h
        | ok r =>
          rw [hr] at h
          simp only [modifyNode] at h
          cases hn : s.1.nodes[p]? with
          | none => rw [hn] at h; cases h
          | some n =>
            rw [hn] at h
            cases h
            exact ⟨p, n, _, rfl, hn, rfl, rfl⟩

theorem gateBound_eq (len outputs : Nat) (hle : outputs ≤ len)
    (h : gateBound len outputs + (len - gateBound len outputs) < 2 ^ 31) :
    len < 2 ^ 31 ∧ gateBound len outputs = len - outputs := by
  unfold gateBound at h ⊢
  omega

theorem gates_eq (len inputs outputs : Nat) (hle : inputs + outputs ≤ len) (hlen : len < 2 ^ 31) :
    inputs + sub32 (sub32 len inputs) outputs + outputs = len := by
  unfold sub32
  omega

/-- The three role loops, run to their end on distinct poles with
`inputs + outputs ≤ pole_count`, leave the three ranges of poles as INPUT,
GATE and OUTPUT. -/
theorem assignRoles_spec (uc uc3 : ValiantUC) (inputs outputs : Nat) (reports : List Nat)
    (hnd : uc.poles.Nodup) (hle : inputs + outputs ≤ uc.poles.length)
    (h : assignRoles uc inputs outputs = Except.ok (uc3, reports)) :
    uc3.poles = uc.poles ∧ uc3.inputs = inputs ∧ uc3.outputs = outputs ∧
    uc3.inputs + uc3.gates + uc3.outputs = uc.poles.length ∧
    ∀ (i p : Nat), uc.poles[i]? = some p → ∃ n, uc3.nodes[p]? = some n ∧
      (i < inputs → n.poleType = PoleType.INPUT ∧ n.parents = []) ∧
      (inputs ≤ i → i < inputs + uc3.gates → n.poleType = PoleType.GATE) ∧
      (inputs + uc3.gates ≤ i → n.poleType = PoleType.OUTPUT ∧ n.children = []) := by
  unfold assignRoles at h
  simp only at h
  cases h1 : intLoop assignInput inputs 0
      { uc with inputs := inputs, outputs := outputs,
                gates := sub32 (sub32 uc.poles.length inputs) outputs } with
  | error e => rw [h1] at h; cases h
  | ok uc1 =>
    rw [h1] at h
    simp only at h
    cases h2 : intLoop assignGate (gateBound uc.poles.length outputs - inputs) inputs
        (uc1, []) with
    | error e => rw [h2] at h; cases h
    | ok s2 =>
      rw [h2] at h
      obtain ⟨uc2, reports2⟩ := s2
      simp only at h
      cases h3 : intLoop assignOutput (uc.poles.length - gateBound uc.poles.length outputs)
          (gateBound uc.poles.length outputs) uc2 with
      | error e => rw [h3] at h; cases h
      | ok uc3b =>
        rw [h3] at h
        simp only [Except.ok.injEq, Prod.mk.injEq] at h
        obtain ⟨e3, _⟩ := h
        subst e3
        obtain ⟨_, _, nodes1, e1, done1, _⟩ :=
          poleLoop_effect (fun uc : ValiantUC => uc) _ assignInput assignInput_touches
            { uc with inputs := inputs, outputs := outputs,
                      gates := sub32 (sub32 uc.poles.length inputs) outputs }
            hnd inputs 0 uc1 h1
        simp only at e1 done1
        have hp1 : uc1.poles = uc.poles := by rw [e1]
        obtain ⟨_, _, nodes2, e2, done2, rest2⟩ :=
          poleLoop_effect (fun s : ValiantUC × List Nat => s.1) _ assignGate assignGate_touches
            (uc1, []) (by show uc1.poles.Nodup; rw [hp1]; exact hnd) _ inputs (uc2, reports2) h2
        simp only at e2 done2 rest2
        have hp2 : uc2.poles = uc.poles := by rw [e2, hp1]
        obtain ⟨hb3, _, nodes3, e3, done3, rest3⟩ :=
          poleLoop_effect (fun uc : ValiantUC => uc) _ assignOutput assignOutput_touches uc2
            (by show uc2.poles.Nodup; rw [hp2]; exact hnd) _ _ uc3b h3
        simp only at e3 done3 rest3
        obtain ⟨hlen, hB⟩ := gateBound_eq uc.poles.length outputs (by omega) hb3
        have hgates := gates_eq uc.poles.length inputs outputs hle hlen
        have hg : uc3b.gates = sub32 (sub32 uc.poles.length inputs) outputs := by
          rw [e3, e2, e1]
        rw [hp1] at done2
        rw [hp2] at done3
        rw [hB] at done2 done3 rest3
        rw [hp1] at rest2
        rw [hp2] at rest3
        rw [hB] at rest2
        refine ⟨by rw [e3, hp2], by rw [e3, e2, e1], by rw [e3, e2, e1], ?_, ?_⟩
        · rw [hg]
          have : uc3b.inputs = inputs := by rw [e3, e2, e1]
          have : uc3b.outputs = outputs := by rw [e3, e2, e1]
          omega
        · intro i p hp
          have hilt : i < uc.poles.length := (List.getElem?_eq_some.mp hp).1
          have hn3 : uc3b.nodes = nodes3 := by rw [e3]
          have hn2 : uc2.nodes = nodes2 := by rw [e2]
          have hn1 : uc1.nodes = nodes1 := by rw [e1]
          rw [hn3, hg]
          rw [hn2] at rest3
          rw [hn1] at rest2
          by_cases hi1 : i < inputs
          · obtain ⟨m, hm, hQ⟩ := done1 i p (Nat.zero_le _) (by omega) hp
            have hk2 : nodes2[p]? = nodes1[p]? :=
              rest2 p (fun k hk1 _ => nodup_index_ne _ hnd i k p hp (by omega))
            have hk3 : nodes3[p]? = nodes2[p]? :=
              rest3 p (fun k hk1 _ => nodup_index_ne _ hnd i k p hp (by omega))
            refine ⟨m, by rw [hk3, hk2, hm], fun _ => hQ, fun h _ => absurd h (by omega),
              fun h => absurd h (by omega)⟩
          · by_cases hi2 : i < uc.poles.length - outputs
            · obtain ⟨m, hm, hQ⟩ := done2 i p (by omega) (by omega) hp
              have hk3 : nodes3[p]? = nodes2[p]? :=
                rest3 p (fun k hk1 _ => nodup_index_ne _ hnd i k p hp (by omega))
              refine ⟨m, by rw [hk3, hm], fun h => absurd h hi1, fun _ _ => hQ,
                fun h => absurd h (by omega)⟩
            · obtain ⟨m, hm, hQ⟩ := done3 i p (by omega) (by omega) hp
              refine ⟨m, hm, fun h => absurd h hi1, fun _ h => absurd h (by omega),
                fun _ => hQ⟩

/-- C4: for distinct poles and `inputs + outputs ≤ pole_count`, a run of
`setInputsAndOutputs(inputs, outputs)` that stays within defined behaviour
stores counts with `inputs + gates + outputs = pole_count`, leaves the poles
`[0, inputs)` with role INPUT and an empty parent list, the poles
`[inputs, inputs + gates)` with role GATE, and the poles
`[inputs + gates, pole_count)` with role OUTPUT and an empty child list. -/
theorem setInputsAndOutputs_role_partition (uc uc1 : ValiantUC) (inputs outputs : Nat)
    (reports : List Nat) (hnd : uc.poles.Nodup) (hle : inputs + outputs ≤ uc.poles.length)
    (h : setInputsAndOutputs uc inputs outputs = Except.ok (uc1, reports)) :
    uc1.poles = uc.poles ∧ uc1.inputs = inputs ∧ uc1.outputs = outputs ∧
    uc1.inputs + uc1.gates + uc1.outputs = uc.poles.length ∧
    ∀ (i p : Nat), uc.poles[i]? = some p → ∃ n, uc1.nodes[p]? = some n ∧
      (i < inputs → n.poleType = PoleType.INPUT ∧ n.parents = []) ∧
      (inputs ≤ i → i < inputs + uc1.gates → n.poleType = PoleType.GATE) ∧
      (inputs + uc1.gates ≤ i → n.poleType = PoleType.OUTPUT ∧ n.children = []) := by
  unfold setInputsAndOutputs at h
  cases hr : assignRoles uc inputs outputs with
  | error e => rw [hr] at h; cases h
  | ok s3 =>
    rw [hr] at h
    obtain ⟨uc3, reports3⟩ := s3
    simp only at h
    cases ht : topologicalOrdering uc3 inputs with
    | error e => rw [ht] at h; cases h
    | ok uc4 =>
      rw [ht] at h
      simp only at h
      cases hw : wireCounters uc4.topOrderedNodes 0 uc4.nodes with
      | error e => rw [hw] at h; cases h
      | ok nodes5 =>
        rw [hw] at h
        simp only [Except.ok.injEq, Prod.mk.injEq] at h
        obtain ⟨e5, _⟩ := h
        subst e5
        obtain ⟨hp, hi, ho, hsum, hroles⟩ := assignRoles_spec uc uc3 inputs outputs reports3 hnd hle hr
        obtain ⟨hcore4, hp4, hi4, ho4, hg4⟩ := topologicalOrdering_core uc3 uc4 inputs ht
        have hcore5 := wireCounters_core _ _ _ _ hw
        have hcore : nodes5.map UCNode.core = uc3.nodes.map UCNode.core := hcore5.trans hcore4
        refine ⟨by show uc4.poles = uc.poles; rw [hp4, hp],
          by show uc4.inputs = inputs; rw [hi4, hi],
          by show uc4.outputs = outputs; rw [ho4, ho],
          by show uc4.inputs + uc4.gates + uc4.outputs = uc.poles.length; rw [hi4, hg4, ho4]; exact hsum,
          ?_⟩
        intro i p hpi
        obtain ⟨n, hn, h1, h2, h3⟩ := hroles i p hpi
        obtain ⟨m, hm, hmc⟩ := core_of_map_eq nodes5 uc3.nodes hcore p n hn
        have ept : m.core.poleType = n.core.poleType := congrArg UCNode.poleType hmc
        have epa : m.core.parents = n.core.parents := congrArg UCNode.parents hmc
        have ech : m.core.children = n.core.children := congrArg UCNode.children hmc
        simp only [UCNode.core] at ept epa ech
        refine ⟨m, hm, ?_, ?_, ?_⟩
        · intro hlt
          rw [ept, epa]
          exact h1 hlt
        · intro hge hlt
          rw [ept]
          exact h2 hge (by rw [← hg4]; exact hlt)
        · intro hge
          rw [ept, ech]
          exact h3 (by rw [← hg4]; exact hge)

/-- Witness for C4: the scenario `pole_count = 7`, `inputs = 2`, `outputs = 2`. -/
theorem setInputsAndOutputs_role_partition_witness :
    ∃ uc1 reports, setInputsAndOutputs sevenUC 2 2 = Except.ok (uc1, reports) ∧
      uc1.gates = 3 ∧
      (uc1.poles = sevenUC.poles ∧ uc1.inputs = 2 ∧ uc1.outputs = 2 ∧
        uc1.inputs + uc1.gates + uc1.outputs = sevenUC.poles.length ∧
        ∀ (i p : Nat), sevenUC.poles[i]? = some p → ∃ n, uc1.nodes[p]? = some n ∧
          (i < 2 → n.poleType = PoleType.INPUT ∧ n.parents = []) ∧
          (2 ≤ i → i < 2 + uc1.gates → n.poleType = PoleType.GATE) ∧
          (2 + uc1.gates ≤ i → n.poleType = PoleType.OUTPUT ∧ n.children = [])) :=
  ⟨_, _, rfl, by decide,
    setInputsAndOutputs_role_partition sevenUC _ 2 2 _ (by decide) (by decide) rfl⟩

/-! ## Control-bit resolution -/

theorem toU16_bit (f : Nat) (h : f ≤ 1) : toU16 f = f := by
  unfold toU16
  omega

theorem gamma1Entry_eq (lg : DAG_Gamma1) (p : Nat) (h1 : 1 ≤ p) (h2 : p ≤ lg.node_array.length) :
    ∃ e, gamma1Entry lg p = some e ∧ lg.node_array[p - 1]? = some e := by
  have hlt : p - 1 < lg.node_array.length := by omega
  refine ⟨lg.node_array[p - 1], ?_, List.getElem?_eq_getElem hlt⟩
  unfold gamma1Entry
  rw [if_neg (by omega)]
  exact List.getElem?_eq_getElem hlt

/-- When its read stays inside the array, the test of the single-parent
branches decides whether the recorded successor is this node. -/
theorem successorIs_eq (g : Option DAG_Gamma1) (p cur : Nat) (hr : Readable g p) :
    successorIs g p cur = Except.ok (decide (recordedSuccessor g p = some cur)) := by
  cases g with
  | none => simp [successorIs, recordedSuccessor]
  | some lg =>
    obtain ⟨h1, h2⟩ := hr lg rfl
    obtain ⟨e, he, he2⟩ := gamma1Entry_eq lg p h1 h2
    unfold successorIs recordedSuccessor
    simp only [he, he2]
    cases e with
    | none => simp
    | some nd =>
      cases hc : nd.child with
      | none => simp [hc]
      | some c =>
        simp only [hc, Option.some.injEq]
        by_cases h : c = cur <;> simp [h]

/-- When its read stays inside the array and finds a node, the clause of the
two-parent branches decides whether the recorded successor is not this node. -/
theorem successorDiffers_eq (lg : DAG_Gamma1) (p cur : Nat) (nd : Gamma1Node)
    (he : gamma1Entry lg p = some (some nd)) :
    successorDiffers (some lg) p cur =
      Except.ok (decide (recordedSuccessor (some lg) p ≠ some cur)) ∧
    recordedSuccessor (some lg) p = nd.child := by
  have he2 : lg.node_array[p - 1]? = some (some nd) := by
    unfold gamma1Entry at he
    split_ifs at he
    exact he
  unfold successorDiffers recordedSuccessor
  simp only [he, he2]
  cases hc : nd.child with
  | none => simp
  | some c =>
    simp only [ne_eq, Option.some.injEq, and_true, bne]
    by_cases h : c = cur <;> simp [h]

theorem successorAbsent_eq (lg : DAG_Gamma1) (p : Nat) (nd : Gamma1Node)
    (he : gamma1Entry lg p = some (some nd)) :
    successorAbsent (some lg) p = Except.ok nd.child.isNone := by
  unfold successorAbsent
  simp only [he]
  cases hc : nd.child with
  | none => simp
  | some c => simp

/-- C5 (as amended): for a gate with both parents `lp` and `rp` whose middle
truth-table bits differ, when the left half holds a node for `lp` and the right
half holds a node for `rp`, the two branches of the code together swap bits 1
and 2 exactly when the single rule of the specification says so. -/
theorem resolveControlBits_two_parents (dag : DAG_Gamma2) (cur : Gamma2Node)
    (f0 f1 f2 f3 lp rp : Nat) (lg rg : DAG_Gamma1) (ln rn : Gamma1Node)
    (hbits : cur.function_bits = [f0, f1, f2, f3])
    (h0 : f0 ≤ 1) (h1 : f1 ≤ 1) (h2 : f2 ≤ 1) (h3 : f3 ≤ 1) (hne : f1 ≠ f2)
    (hlp : cur.left_parent = some lp) (hrp : cur.right_parent = some rp)
    (hlg : dag.gamma1_left = some lg) (hln : gamma1Entry lg lp = some (some ln))
    (hrg : dag.gamma1_right = some rg) (hrn : gamma1Entry rg rp = some (some rn)) :
    resolveControlBits dag cur =
      Except.ok { bits := if specSwapRule dag lp rp cur.number then [f0, f2, f1, f3]
                          else [f0, f1, f2, f3],
                  reported := false } := by
  obtain ⟨hl1, hl2⟩ := successorDiffers_eq lg lp cur.number ln hln
  obtain ⟨hr1, hr2⟩ := successorDiffers_eq rg rp cur.number rn hrn
  have hr3 := successorAbsent_eq rg rp rn hrn
  unfold resolveControlBits
  simp only [hbits, List.getElem?_cons_zero, List.getElem?_cons_succ, toU16_bit f0 h0,
    toU16_bit f1 h1, toU16_bit f2 h2, toU16_bit f3 h3, hlp, hrp, hlg, hrg, hrn, hl1, hr1, hr3,
    specSwapRule]
  simp only [ne_eq, hne, not_false_eq_true, if_true, Option.isSome_some, Bool.not_true,
    Bool.and_false, Bool.or_false, Bool.false_eq_true, if_false]
  rw [hl2, hr2]
  cases hlc : ln.child with
  | none =>
    cases hrc : rn.child with
    | none => simp [orElse]
    | some c => simp [orElse]
  | some c =>
    cases hrc : rn.child with
    | none =>
      by_cases hc : c = cur.number <;> simp [orElse, hc]
    | some c2 =>
      by_cases hc : c = cur.number <;> by_cases hc2 : c2 = cur.number <;> simp [orElse, hc, hc2]

/-- Witness for C5: gate 3 of `bothDag`, whose middle bits are swapped. -/
theorem resolveControlBits_two_parents_witness :
    resolveControlBits bothDag nullLeftGate =
      Except.ok { bits := if specSwapRule bothDag 1 2 nullLeftGate.number then [0, 0, 1, 0]
                          else [0, 1, 0, 0],
                  reported := false } :=
  resolveControlBits_two_parents bothDag nullLeftGate 0 1 0 0 1 2
    { node_number := 1, node_array := [some { number := 1, child := some 3 }] }
    { node_number := 2, node_array := [none, some { number := 2, child := none }] }
    { number := 1, child := some 3 } { number := 2, child := none }
    rfl (by decide) (by decide) (by decide) (by decide) (by decide) rfl rfl rfl rfl rfl rfl

/-- C5 (counterexample to the claim as stated): in `nullLeftDag` the left half
holds no node for parent 1, so no successor of parent 1 is recorded there and
the single rule asks for a swap; the code, whose left clause is guarded by the
presence of that node and whose right clause fails because gate 3 is the
successor recorded for parent 2, stores the truth table unswapped. -/
theorem resolveControlBits_single_rule_fails :
    resolveControlBits nullLeftDag nullLeftGate =
      Except.ok { bits := [0, 1, 0, 0], reported := false } ∧
    specSwapRule nullLeftDag 1 2 nullLeftGate.number = true :=
  ⟨rfl, by decide⟩

/-- Single-parent gate whose parent's recorded successor in the left half is
this gate: the truth table is stored as it is, and the line "Something is
wrong!" is printed exactly when bits 0 and 1 differ. -/
theorem resolve_single_left (dag : DAG_Gamma2) (cur : Gamma2Node) (f0 f1 f2 f3 p : Nat)
    (hbits : cur.function_bits = [f0, f1, f2, f3])
    (h0 : f0 ≤ 1) (h1 : f1 ≤ 1) (h2 : f2 ≤ 1) (h3 : f3 ≤ 1) (hne : f1 ≠ f2)
    (hone : (cur.left_parent = some p ∧ cur.right_parent = none) ∨
      (cur.left_parent = none ∧ cur.right_parent = some p))
    (hl : Readable dag.gamma1_left p)
    (hsucc : recordedSuccessor dag.gamma1_left p = some cur.number) :
    resolveControlBits dag cur =
      Except.ok { bits := [f0, f1, f2, f3], reported := decide (f0 ≠ f1) } := by
  have hs := successorIs_eq dag.gamma1_left p cur.number hl
  rw [hsucc] at hs
  unfold resolveControlBits
  simp only [hbits, List.getElem?_cons_zero, List.getElem?_cons_succ, toU16_bit f0 h0,
    toU16_bit f1 h1, toU16_bit f2 h2, toU16_bit f3 h3]
  rcases hone with ⟨hlp, hrp⟩ | ⟨hlp, hrp⟩ <;>
    simp [hlp, hrp, hne, hs]

/-- Single-parent gate whose parent's recorded successor is this gate in the
right half and not in the left half: bits 1 and 2 are recomputed from bit 0. -/
theorem resolve_single_right (dag : DAG_Gamma2) (cur : Gamma2Node) (f0 f1 f2 f3 p : Nat)
    (hbits : cur.function_bits = [f0, f1, f2, f3])
    (h0 : f0 ≤ 1) (h1 : f1 ≤ 1) (h2 : f2 ≤ 1) (h3 : f3 ≤ 1) (hne : f1 ≠ f2)
    (hone : (cur.left_parent = some p ∧ cur.right_parent = none) ∨
      (cur.left_parent = none ∧ cur.right_parent = some p))
    (hl : Readable dag.gamma1_left p) (hr : Readable dag.gamma1_right p)
    (hleft : recordedSuccessor dag.gamma1_left p ≠ some cur.number)
    (hright : recordedSuccessor dag.gamma1_right p = some cur.number) :
    resolveControlBits dag cur =
      Except.ok { bits := [f0, 1 - f0, f0, f3], reported := false } := by
  have hs := successorIs_eq dag.gamma1_left p cur.number hl
  have hs2 := successorIs_eq dag.gamma1_right p cur.number hr
  rw [hright] at hs2
  have hd : decide (recordedSuccessor dag.gamma1_left p = some cur.number) = false := by
    simpa using hleft
  rw [hd] at hs
  have hu : toU16 (1 + 2 ^ 16 - f0) = 1 - f0 := by
    unfold toU16
    omega
  unfold resolveControlBits
  simp only [hbits, List.getElem?_cons_zero, List.getElem?_cons_succ, toU16_bit f0 h0,
    toU16_bit f1 h1, toU16_bit f2 h2, toU16_bit f3 h3, hu]
  rcases hone with ⟨hlp, hrp⟩ | ⟨hlp, hrp⟩ <;>
    simp [hlp, hrp, hne, hs, hs2]

/-- The resolution for a gate with exactly one parent `p` whose middle truth-table
bits differ (reads of the dependency graph inside its arrays): if the successor
recorded for `p` in the left half is this gate, the bits it returns are
`[f0, f1, f2, f3]`; otherwise, if the successor recorded for `p` in the right
half is this gate, they are `[f0, 1 - f0, f0, f3]`. -/
theorem resolveControlBits_single_parent (dag : DAG_Gamma2) (cur : Gamma2Node)
    (f0 f1 f2 f3 p : Nat) (hbits : cur.function_bits = [f0, f1, f2, f3])
    (h0 : f0 ≤ 1) (h1 : f1 ≤ 1) (h2 : f2 ≤ 1) (h3 : f3 ≤ 1) (hne : f1 ≠ f2)
    (hone : (cur.left_parent = some p ∧ cur.right_parent = none) ∨
      (cur.left_parent = none ∧ cur.right_parent = some p))
    (hl : Readable dag.gamma1_left p) :
    (recordedSuccessor dag.gamma1_left p = some cur.number →
      ∃ r, resolveControlBits dag cur = Except.ok r ∧ r.bits = [f0, f1, f2, f3]) ∧
    (recordedSuccessor dag.gamma1_left p ≠ some cur.number →
      Readable dag.gamma1_right p →
      recordedSuccessor dag.gamma1_right p = some cur.number →
      ∃ r, resolveControlBits dag cur = Except.ok r ∧ r.bits = [f0, 1 - f0, f0, f3]) :=
  ⟨fun hs => ⟨_, resolve_single_left dag cur f0 f1 f2 f3 p hbits h0 h1 h2 h3 hne hone hl hs, rfl⟩,
   fun hs hr hs2 =>
    ⟨_, resolve_single_right dag cur f0 f1 f2 f3 p hbits h0 h1 h2 h3 hne hone hl hr hs hs2, rfl⟩⟩

/-- The resolution for a gate with exactly one parent `p` whose middle truth-table
bits differ and whose parent's recorded successor in the left half is this gate:
the line "Something is wrong!" is printed exactly when `f0 ≠ f1`, and in either
case the resolution returns the truth table `[f0, f1, f2, f3]` as it is. -/
theorem resolveControlBits_reports_inconsistency (dag : DAG_Gamma2) (cur : Gamma2Node)
    (f0 f1 f2 f3 p : Nat) (hbits : cur.function_bits = [f0, f1, f2, f3])
    (h0 : f0 ≤ 1) (h1 : f1 ≤ 1) (h2 : f2 ≤ 1) (h3 : f3 ≤ 1) (hne : f1 ≠ f2)
    (hone : (cur.left_parent = some p ∧ cur.right_parent = none) ∨
      (cur.left_parent = none ∧ cur.right_parent = some p))
    (hl : Readable dag.gamma1_left p)
    (hsucc : recordedSuccessor dag.gamma1_left p = some cur.number) :
    ∃ r, resolveControlBits dag cur = Except.ok r ∧ (r.reported = true ↔ f0 ≠ f1) ∧
      r.bits = [f0, f1, f2, f3] :=
  ⟨_, resolve_single_left dag cur f0 f1 f2 f3 p hbits h0 h1 h2 h3 hne hone hl hsucc,
    by simp, rfl⟩

/-- The vectors the resolution can hand to `setControlBits`: the truth table,
the truth table with bits 1 and 2 swapped, or bits 1 and 2 recomputed from bit 0
(only when bits 1 and 2 differ). -/
theorem resolveControlBits_shapes (dag : DAG_Gamma2) (cur : Gamma2Node) (f0 f1 f2 f3 : Nat)
    (r : Resolution) (hbits : cur.function_bits = [f0, f1, f2, f3])
    (h : resolveControlBits dag cur = Except.ok r) :
    r.bits = [toU16 f0, toU16 f1, toU16 f2, toU16 f3] ∨
    r.bits = [toU16 f0, toU16 f2, toU16 f1, toU16 f3] ∨
    (toU16 f1 ≠ toU16 f2 ∧
      r.bits = [toU16 f0, toU16 (1 + 2 ^ 16 - toU16 f0), toU16 f0, toU16 f3]) := by
  unfold resolveControlBits at h
  simp only [hbits, List.getElem?_cons_zero, List.getElem?_cons_succ] at h
  by_cases hne : toU16 f1 = toU16 f2
  · rw [if_neg (by simpa using hne)] at h
    cases h
    exact Or.inl rfl
  · rw [if_pos hne] at h
    repeat' split at h
    all_goals first
      | (cases h
         first
           | exact Or.inl rfl
           | exact Or.inr (Or.inl rfl)
           | exact Or.inr (Or.inr ⟨hne, rfl⟩))
      | cases h

/-- For truth-table bits in `{0, 1}`, whatever branch the resolution takes,
the bits `[c0, c1, c2, c3]` it returns have `c0 = f0`, `c3 = f3` and
`(c1, c2)` equal to `(f1, f2)` or `(f2, f1)`; when `f1 = f2` they are the truth
table. -/
theorem resolveControlBits_keeps_outer_bits (dag : DAG_Gamma2) (cur : Gamma2Node)
    (f0 f1 f2 f3 : Nat) (r : Resolution) (hbits : cur.function_bits = [f0, f1, f2, f3])
    (h0 : f0 ≤ 1) (h1 : f1 ≤ 1) (h2 : f2 ≤ 1) (h3 : f3 ≤ 1)
    (h : resolveControlBits dag cur = Except.ok r) :
    (r.bits = [f0, f1, f2, f3] ∨ r.bits = [f0, f2, f1, f3]) ∧
    (f1 = f2 → r.bits = [f0, f1, f2, f3]) := by
  have hs := resolveControlBits_shapes dag cur f0 f1 f2 f3 r hbits h
  rw [toU16_bit f0 h0, toU16_bit f1 h1, toU16_bit f2 h2, toU16_bit f3 h3] at hs
  have hu : toU16 (1 + 2 ^ 16 - f0) = 1 - f0 := by
    unfold toU16
    omega
  rw [hu] at hs
  refine ⟨?_, ?_⟩
  · rcases hs with hs | hs | ⟨hne, hs⟩
    · exact Or.inl hs
    · exact Or.inr hs
    · have h12 : (1 - f0 = f1 ∧ f0 = f2) ∨ (1 - f0 = f2 ∧ f0 = f1) := by omega
      rcases h12 with ⟨e1, e2⟩ | ⟨e1, e2⟩
      · left; rw [hs, e1, ← e2]
      · right; rw [hs, e1, ← e2]
  · intro he
    rcases hs with hs | hs | ⟨hne, _⟩
    · exact hs
    · rw [hs, he]
    · exact absurd he hne

/-- C19 (the code at the failing input): for the gate `orphanGate`, which has
neither parent and whose middle bits differ, the resolution reads
`rightParent->number` through the null pointer instead of storing the truth
table. -/
theorem resolveControlBits_orphan_gate :
    resolveControlBits bothDag orphanGate = Except.error UCError.nullPointer :=
  rfl

/-! ## Single steps of the pole chase -/

/-- C13: one step of `find_next_pole` at a full switch (an `X_SWITCH`, or a
`RECURSION_POINT` with two parents and two children) with control bit `b`,
parents `p0`, `p1` and two different children `c0`, `c1`: coming from `c0` it
moves to `p0` when `b = 0` and to `p1` otherwise; coming from `c1` it moves to
`p1` when `b = 0` and to `p0` otherwise. -/
theorem chaseStep_full_switch (n : UCNode) (b c0 c1 p0 p1 nextNode : Nat)
    (hfull : isFullSwitch n = true) (hb : n.controlBits[0]? = some b)
    (hc0 : n.children[0]? = some c0) (hc1 : n.children[1]? = some c1) (hne : c0 ≠ c1)
    (hp0 : n.parents[0]? = some p0) (hp1 : n.parents[1]? = some p1) :
    chaseStep n c0 nextNode = some (if b = 0 then p0 else p1) ∧
    chaseStep n c1 nextNode = some (if b = 0 then p1 else p0) := by
  unfold chaseStep
  simp only [hfull, if_true, hb, hc0, hp0, hp1]
  have hne2 : ¬ c0 = c1 := hne
  by_cases hb0 : b = 0 <;> simp [hb0, hne2]

/-- Witness for C13: the switch `crossSwitch`, whose control bit is 1. -/
theorem chaseStep_full_switch_witness :
    chaseStep crossSwitch 8 3 = some (if (1 : Nat) = 0 then 4 else 5) ∧
    chaseStep crossSwitch 9 3 = some (if (1 : Nat) = 0 then 5 else 4) :=
  chaseStep_full_switch crossSwitch 1 8 9 4 5 3 rfl rfl rfl rfl (by decide) rfl rfl

/-- C14 (as amended): one step of `find_next_pole` at an `I_SWITCH`, at a
`REVERSE_Y_SWITCH`, or at a `RECURSION_POINT` with exactly one parent that
has a number of children other than one or the control bit 0, moves to
`parents[0]`. -/
theorem chaseStep_pass_through (n : UCNode) (p lastNode nextNode : Nat)
    (hkind : n.nodeType = NodeType.I_SWITCH ∨ n.nodeType = NodeType.REVERSE_Y_SWITCH ∨
      (n.nodeType = NodeType.RECURSION_POINT ∧ n.parents.length = 1 ∧
        (n.children.length ≠ 1 ∨ n.controlBits[0]? = some 0)))
    (hp : n.parents[0]? = some p) :
    chaseStep n lastNode nextNode = some p := by
  unfold chaseStep isFullSwitch isMergeSwitch isPassThrough
  rcases hkind with h | h | ⟨h, hpar, hch | hcb⟩
  · simp [h, hp]
  · simp [h, hp]
  · simp [h, hpar, hch, hp]
  · by_cases hch : n.children.length = 1
    · simp [h, hpar, hch, hcb, hp]
    · simp [h, hpar, hch, hp]

/-- Witness for C14: an `I_SWITCH` with the single parent 0. -/
theorem chaseStep_pass_through_witness :
    chaseStep (plainNode NodeType.I_SWITCH [0] [3]) 3 2 = some 0 :=
  chaseStep_pass_through (plainNode NodeType.I_SWITCH [0] [3]) 0 3 2 (Or.inl rfl) rfl

/-- C14 (counterexample to the claim as stated): at `oneToOnePoint`, a
`RECURSION_POINT` with exactly one parent, one child and control bit 1, the
branch for one-child recursion points is taken first and reads
`parents[1]`, which does not exist; the step does not move to `parents[0]`. -/
theorem chaseStep_one_parent_fails :
    oneToOnePoint.nodeType = NodeType.RECURSION_POINT ∧ oneToOnePoint.parents.length = 1 ∧
    oneToOnePoint.parents[0]? = some 7 ∧ chaseStep oneToOnePoint 9 3 = none ∧
    chaseStep oneToOnePoint 9 3 ≠ some 7 := by
  decide

/-! ## The first two nodes on the stack -/

/-- C20 (the code at the failing input): in `twiceUC`, run with one input,
node 1 (`poles[0].children[0]`) is reached from node 2
(`poles[0].children[1]`).  It is finished a first time with number 2 inside the
traversal from node 2 and a second time, when it comes to the top of the stack
again, with number 0: it ends at the positions 0 and 2 of `topOrderedNodes`,
and the counter was decremented three times for two reached nodes. -/
theorem topologicalOrdering_finishes_twice :
    orderedNodes (topologicalOrdering twiceUC 1) = some [some 1, some 2, some 1] ∧
    topologicalNumbers (topologicalOrdering twiceUC 1) = some [0, 0, 1] ∧
    (∃ st, topologicalOrderingState (dfsFuel twiceUC) twiceUC 1 = Except.ok st ∧
      st.topValue = 2 ^ 32 - 1) :=
  ⟨by decide, by decide, _, rfl, by decide⟩

/-- C11 (the code at the failing input): in `twiceUC`, run with one input, the
second finish of node 1 overwrites `topOrderedNodes[0]`, the slot of the input
pole `poles[0]`, and gives node 1 the number 0 of that pole. -/
theorem topologicalOrdering_overwrites_input_slot :
    ∃ uc1, topologicalOrdering twiceUC 1 = Except.ok uc1 ∧ uc1.poles[0]? = some 0 ∧
      uc1.topOrderedNodes[0]? = some (some 1) ∧ numberAt uc1.nodes 1 = 0 :=
  ⟨_, rfl, by decide, by decide, by decide⟩

/-! ## Wire counters -/

theorem countAt_cons (nodes : Network) (pred : UCNode → Bool) (j : Nat) (n : UCNode)
    (l : List (Option Nat)) (hn : nodes[j]? = some n) :
    countAt nodes pred (some j :: l) = (if pred n then 1 else 0) + countAt nodes pred l := by
  unfold countAt
  rw [List.filter_cons]
  simp only [hn]
  by_cases hp : pred n = true
  · simp [hp]; omega
  · simp [hp]

theorem countAt_congr (a b : Network) (pred : UCNode → Bool) (l : List (Option Nat))
    (hpred : ∀ n, pred n = pred n.core) (h : a.map UCNode.core = b.map UCNode.core) :
    countAt a pred l = countAt b pred l := by
  unfold countAt
  congr 2
  funext o
  cases o with
  | none => rfl
  | some j =>
    have hj := congrArg (fun l => l[j]?) h
    simp only [List.getElem?_map] at hj
    cases ha : a[j]? with
    | none =>
      rw [ha] at hj
      cases hb : b[j]? with
      | none => simp only [ha, hb]
      | some m => rw [hb] at hj; cases hj
    | some n =>
      rw [ha] at hj
      cases hb : b[j]? with
      | none => rw [hb] at hj; cases hj
      | some m =>
        rw [hb] at hj
        have e : n.core = m.core := Option.some.inj hj
        simp only [ha, hb]
        rw [hpred n, hpred m, e]

theorem wireCounters_untouched : ∀ (ordered : List (Option Nat)) (counter : Int)
    (nodes nodes1 : Network), wireCounters ordered counter nodes = Except.ok nodes1 →
    ∀ j : Nat, some j ∉ ordered → nodes1[j]? = nodes[j]? := by
  intro ordered
  induction ordered with
  | nil =>
    intro counter nodes nodes1 h j _
    rw [wireCounters] at h
    cases h
    rfl
  | cons o rest ih =>
    intro counter nodes nodes1 h j hj
    cases o with
    | none => rw [wireCounters] at h; cases h
    | some j0 =>
      rw [wireCounters] at h
      cases hn : nodes[j0]? with
      | none => rw [hn] at h; cases h
      | some n =>
        rw [hn] at h
        have hne : j0 ≠ j := fun e => hj (e ▸ List.mem_cons_self _ _)
        have hrest : some j ∉ rest := fun hm => hj (List.mem_cons_of_mem _ hm)
        have hset : (nodes.set j0 (n.setNumberOfAdditionalWires counter))[j]? = nodes[j]? :=
          List.getElem?_set_ne hne
        try simp only at h
        split_ifs at h
        · rw [ih _ _ _ h j hrest, hset]
        · rw [ih _ _ _ h j hrest, hset]
        · rw [ih _ _ _ h j hrest, hset]

/-- The wire counter loop, run over distinct nodes from the counter value
`counter`, stores on the node at position `k` the value `counter` plus the
number of counted switches minus the number of one-parent nodes before `k`. -/
theorem wireCounters_stored : ∀ (ordered : List (Option Nat)) (counter : Int)
    (nodes nodes1 : Network), wireCounters ordered counter nodes = Except.ok nodes1 →
    ordered.Nodup → ∀ (k j : Nat), ordered[k]? = some (some j) →
    ∃ n1, nodes1[j]? = some n1 ∧
      n1.numberOfAdditionalWires =
        counter + (countAt nodes isCountedSwitch (ordered.take k) : Int) -
          (countAt nodes hasOneParent (ordered.take k) : Int) := by
  intro ordered
  induction ordered with
  | nil =>
    intro counter nodes nodes1 _ _ k j hk
    simp at hk
  | cons o rest ih =>
    intro counter nodes nodes1 h hnd k j hk
    cases o with
    | none => rw [wireCounters] at h; cases h
    | some j0 =>
      rw [wireCounters] at h
      cases hn : nodes[j0]? with
      | none => rw [hn] at h; cases h
      | some n =>
        rw [hn] at h
        have hj0 : j0 < nodes.length := (List.getElem?_eq_some.mp hn).1
        have hnot : some j0 ∉ rest := (List.nodup_cons.mp hnd).1
        have hnd2 : rest.Nodup := (List.nodup_cons.mp hnd).2
        have hcore := map_core_set nodes j0 n (n.setNumberOfAdditionalWires counter) hn rfl
        have hc1 : ∀ l, countAt (nodes.set j0 (n.setNumberOfAdditionalWires counter))
            isCountedSwitch l = countAt nodes isCountedSwitch l :=
          fun l => countAt_congr _ _ _ l (fun _ => rfl) hcore
        have hc2 : ∀ l, countAt (nodes.set j0 (n.setNumberOfAdditionalWires counter))
            hasOneParent l = countAt nodes hasOneParent l :=
          fun l => countAt_congr _ _ _ l (fun _ => rfl) hcore
        try simp only at h
        cases k with
        | zero =>
          have e : j = j0 := by simpa using hk.symm
          subst e
          have hfin : nodes1[j]? = some (n.setNumberOfAdditionalWires counter) := by
            split_ifs at h
            all_goals
              rw [wireCounters_untouched _ _ _ _ h j hnot]
              exact List.getElem?_set_self hj0
          refine ⟨_, hfin, ?_⟩
          simp [countAt, UCNode.setNumberOfAdditionalWires]
        | succ k =>
          have hk2 : rest[k]? = some (some j) := by simpa using hk
          rw [List.take_succ_cons, countAt_cons nodes _ j0 n _ hn,
            countAt_cons nodes _ j0 n _ hn]
          split_ifs at h with hA hB
          · obtain ⟨n1, h1, h2⟩ := ih _ _ _ h hnd2 k j hk2
            refine ⟨n1, h1, ?_⟩
            rw [h2, hc1, hc2]
            have hp : isCountedSwitch n = true := by
              simp [isCountedSwitch, hA.1, hA.2.1, hA.2.2]
            have hq : hasOneParent n = false := by
              simp [hasOneParent, hA.1]
            simp only [hp, hq, if_true, Bool.false_eq_true, if_false]
            push_cast
            ring
          · obtain ⟨n1, h1, h2⟩ := ih _ _ _ h hnd2 k j hk2
            refine ⟨n1, h1, ?_⟩
            rw [h2, hc1, hc2]
            have hp : isCountedSwitch n = false := by
              simp [isCountedSwitch, hB]
            have hq : hasOneParent n = true := by
              simp [hasOneParent, hB]
            simp only [hp, hq, if_true, Bool.false_eq_true, if_false]
            push_cast
            ring
          · obtain ⟨n1, h1, h2⟩ := ih _ _ _ h hnd2 k j hk2
            refine ⟨n1, h1, ?_⟩
            rw [h2, hc1, hc2]
            have hp : isCountedSwitch n = false := by
              rcases Bool.eq_false_or_eq_true (isCountedSwitch n) with hh | hh
              · exfalso
                simp only [isCountedSwitch, Bool.and_eq_true, beq_iff_eq] at hh
                exact hA ⟨hh.1.1, hh.1.2, hh.2⟩
              · exact hh
            have hq : hasOneParent n = false := by
              simpa [hasOneParent] using hB
            simp only [hp, hq, Bool.false_eq_true, if_false]
            push_cast
            ring

/-- The wire-counter loop over distinct nodes: after a run of `setInputsAndOutputs`
that stays within defined behaviour and leaves distinct nodes at the positions of
`topOrderedNodes`, the
wire counter stored on the node at position `k` is the number of nodes before
`k` with two parents, two children and pole role `NO_POLE`, minus the number
of nodes before `k` with exactly one parent; the node at position 0 stores 0. -/
theorem setInputsAndOutputs_wire_counters (uc uc1 : ValiantUC) (inputs outputs : Nat)
    (reports : List Nat) (h : setInputsAndOutputs uc inputs outputs = Except.ok (uc1, reports))
    (hnd : uc1.topOrderedNodes.Nodup) :
    (∀ (k j : Nat), uc1.topOrderedNodes[k]? = some (some j) →
      ∃ n1, uc1.nodes[j]? = some n1 ∧
        n1.numberOfAdditionalWires =
          (countAt uc1.nodes isCountedSwitch (uc1.topOrderedNodes.take k) : Int) -
            (countAt uc1.nodes hasOneParent (uc1.topOrderedNodes.take k) : Int)) ∧
    (∀ j : Nat, uc1.topOrderedNodes[0]? = some (some j) →
      ∃ n1, uc1.nodes[j]? = some n1 ∧ n1.numberOfAdditionalWires = 0) := by
  unfold setInputsAndOutputs at h
  cases hr : assignRoles uc inputs outputs with
  | error e => rw [hr] at h; cases h
  | ok s3 =>
    rw [hr] at h
    obtain ⟨uc3, reports3⟩ := s3
    try simp only at h
    cases ht : topologicalOrdering uc3 inputs with
    | error e => rw [ht] at h; cases h
    | ok uc4 =>
      rw [ht] at h
      try simp only at h
      cases hw : wireCounters uc4.topOrderedNodes 0 uc4.nodes with
      | error e => rw [hw] at h; cases h
      | ok nodes5 =>
        rw [hw] at h
        simp only [Except.ok.injEq, Prod.mk.injEq] at h
        obtain ⟨e5, _⟩ := h
        subst e5
        have hcore := wireCounters_core _ _ _ _ hw
        have hmain : ∀ (k j : Nat), uc4.topOrderedNodes[k]? = some (some j) →
            ∃ n1, nodes5[j]? = some n1 ∧
              n1.numberOfAdditionalWires =
                (countAt nodes5 isCountedSwitch (uc4.topOrderedNodes.take k) : Int) -
                  (countAt nodes5 hasOneParent (uc4.topOrderedNodes.take k) : Int) := by
          intro k j hk
          obtain ⟨n1, h1, h2⟩ := wireCounters_stored _ _ _ _ hw hnd k j hk
          refine ⟨n1, h1, ?_⟩
          rw [h2, countAt_congr nodes5 uc4.nodes isCountedSwitch _ (fun _ => rfl) hcore,
            countAt_congr nodes5 uc4.nodes hasOneParent _ (fun _ => rfl) hcore]
          ring
        refine ⟨hmain, ?_⟩
        intro j hj
        obtain ⟨n1, h1, h2⟩ := hmain 0 j hj
        refine ⟨n1, h1, ?_⟩
        rw [h2]
        simp [countAt]

/-- The wire counters in the scenario `pole_count = 7`, `inputs = 2`, `outputs = 2`. -/
theorem setInputsAndOutputs_wire_counters_witness :
    ∃ uc1 reports, setInputsAndOutputs sevenUC 2 2 = Except.ok (uc1, reports) ∧
      ((∀ (k j : Nat), uc1.topOrderedNodes[k]? = some (some j) →
        ∃ n1, uc1.nodes[j]? = some n1 ∧
          n1.numberOfAdditionalWires =
            (countAt uc1.nodes isCountedSwitch (uc1.topOrderedNodes.take k) : Int) -
              (countAt uc1.nodes hasOneParent (uc1.topOrderedNodes.take k) : Int)) ∧
      (∀ j : Nat, uc1.topOrderedNodes[0]? = some (some j) →
        ∃ n1, uc1.nodes[j]? = some n1 ∧ n1.numberOfAdditionalWires = 0)) :=
  ⟨_, _, rfl, setInputsAndOutputs_wire_counters sevenUC _ 2 2 _ rfl (by decide)⟩

/-- C15 (the code at the failing input): `setInputsAndOutputs(1, 0)` on
`twiceUC` leaves node 1 at the positions 0 and 2 of `topOrderedNodes`, because
the ordering finishes it twice.  The counter loop stores 0 on it at position 0
and, after the decrement for the one-parent node 2 at position 1, overwrites
it with -1 at position 2: the node at position 0 stores -1, not 0. -/
theorem setInputsAndOutputs_wire_counter_overwritten :
    ∃ uc1 reports, setInputsAndOutputs twiceUC 1 0 = Except.ok (uc1, reports) ∧
      uc1.topOrderedNodes = [some 1, some 2, some 1] ∧
      (∃ n1, uc1.nodes[1]? = some n1 ∧ n1.numberOfAdditionalWires = -1) ∧
      countAt uc1.nodes isCountedSwitch (uc1.topOrderedNodes.take 0) = 0 ∧
      countAt uc1.nodes hasOneParent (uc1.topOrderedNodes.take 0) = 0 :=
  ⟨_, _, rfl, by decide, ⟨_, rfl, by decide⟩, by decide, by decide⟩

/-! ## Serialization -/

theorem writeNodeLines_spec {D P : Type} (description : Nat → D) (programming : Nat → P)
    (nodes : Network) : ∀ (ordered : List (Option Nat)) (circ : List D) (prog : List P),
    writeNodeLines description programming nodes ordered = Except.ok (circ, prog) →
    circ = (ordered.filterMap (fun o =>
      match o with
      | some j =>
        (match nodes[j]? with
         | some n => if n.parents.length = 2 ∧ n.poleType ≠ PoleType.INPUT then some j else none
         | none => none)
      | none => none)).map description ∧
    prog = (ordered.filterMap (fun o =>
      match o with
      | some j =>
        (match nodes[j]? with
         | some n => if n.parents.length = 2 ∧ n.poleType ≠ PoleType.INPUT then some j else none
         | none => none)
      | none => none)).map programming := by
  intro ordered
  induction ordered with
  | nil =>
    intro circ prog h
    rw [writeNodeLines] at h
    simp only [Except.ok.injEq, Prod.mk.injEq] at h
    obtain ⟨e1, e2⟩ := h
    subst e1 e2
    exact ⟨rfl, rfl⟩
  | cons o rest ih =>
    intro circ prog h
    cases o with
    | none => rw [writeNodeLines] at h; cases h
    | some j =>
      rw [writeNodeLines] at h
      cases hn : nodes[j]? with
      | none => rw [hn] at h; cases h
      | some n =>
        rw [hn] at h
        try simp only at h
        cases hrest : writeNodeLines description programming nodes rest with
        | error e => rw [hrest] at h; cases h
        | ok r =>
          rw [hrest] at h
          obtain ⟨c, q⟩ := r
          obtain ⟨ih1, ih2⟩ := ih c q hrest
          try simp only at h
          rw [List.filterMap_cons]
          simp only [hn]
          by_cases h2 : n.parents.length = 2
          · by_cases hin : n.poleType = PoleType.INPUT
            · rw [if_pos h2, if_neg (by simpa using hin)] at h
              simp only [Except.ok.injEq, Prod.mk.injEq] at h
              obtain ⟨e1, e2⟩ := h
              subst e1 e2
              simp [h2, hin, ih1, ih2]
            · rw [if_pos h2, if_pos hin] at h
              simp only [Except.ok.injEq, Prod.mk.injEq] at h
              obtain ⟨e1, e2⟩ := h
              subst e1 e2
              simp [h2, hin, ih1, ih2]
          · rw [if_neg h2] at h
            simp only [Except.ok.injEq, Prod.mk.injEq] at h
            obtain ⟨e1, e2⟩ := h
            subst e1 e2
            simp [h2, ih1, ih2]

/-- C10: when `writeOnFile` runs to its end, the node lines of the circuit
file and the lines of the programming file are the descriptions and the
programmings of the same nodes, in the order of `topOrderedNodes`: the nodes
with exactly two parents and a pole role other than INPUT; so both files hold
as many such lines as there are such nodes. -/
theorem writeOnFile_line_correspondence {D P W : Type} (description : Nat → D)
    (programming : Nat → P) (inputWire : Nat → W) (uc : ValiantUC) (out : WrittenFiles D P W)
    (h : writeOnFile description programming inputWire uc = Except.ok out) :
    out.circLines = (writtenNodes uc).map description ∧
    out.progLines = (writtenNodes uc).map programming ∧
    out.circLines.length = out.progLines.length ∧
    out.circLines.length = (writtenNodes uc).length := by
  unfold writeOnFile at h
  cases hh : intLoop (fun i (l : List Nat) => Except.ok (l ++ [i])) uc.inputs 0 [] with
  | error e => rw [hh] at h; cases h
  | ok header =>
    rw [hh] at h
    try simp only at h
    cases hl : writeNodeLines description programming uc.nodes uc.topOrderedNodes with
    | error e => rw [hl] at h; cases h
    | ok r =>
      rw [hl] at h
      obtain ⟨c, q⟩ := r
      obtain ⟨h1, h2⟩ := writeNodeLines_spec description programming uc.nodes _ c q hl
      try simp only at h
      split at h
      · cases h
      · rename_i tr htr
        cases h
        refine ⟨h1, h2, ?_, ?_⟩
        · show c.length = q.length
          rw [h1, h2, List.length_map, List.length_map]
        · show c.length = (writtenNodes uc).length
          rw [h1, List.length_map]
          rfl

/-- Witness for C10: the files written for `diamondUC` after its ordering, with
the node index standing for both the description and the programming. -/
theorem writeOnFile_line_correspondence_witness :
    ∃ uc1 out, topologicalOrdering diamondUC 1 = Except.ok uc1 ∧
      writeOnFile (fun j => j) (fun j => j) (fun j => j) uc1 = Except.ok out ∧
      out.circLines = [3] ∧
      (out.circLines = (writtenNodes uc1).map (fun j => j) ∧
        out.progLines = (writtenNodes uc1).map (fun j => j) ∧
        out.circLines.length = out.progLines.length ∧
        out.circLines.length = (writtenNodes uc1).length) :=
  ⟨_, _, rfl, rfl, by decide,
    writeOnFile_line_correspondence (fun j => j) (fun j => j) (fun j => j) _ _ rfl⟩

/-! ## Construction -/

theorem calculateSize_formula (s c : Nat) :
    ((2 * (s % 2 ^ 32)) % 2 ^ 32 + 2 ^ 64 - c % 2 ^ 64) % 2 ^ 64 % 2 ^ 32 = sub32 (2 * s) c := by
  unfold sub32
  omega

/-- C12: the constructor stores `size = 2 * (size of the left EUG) - pole_count`,
computed in 32-bit unsigned arithmetic, and gives `topOrderedNodes` exactly
`size` entries. -/
theorem ValiantUC_new_size (newEUG : Network → List Nat → Nat → Network × ValiantEUG)
    (getSize : ValiantEUG → Nat) (nodeNum : Nat) :
    ∃ uc left, ValiantUC.new newEUG getSize nodeNum = Except.ok uc ∧
      uc.eugs[0]? = some left ∧ uc.poles.length = nodeNum ∧
      uc.size = sub32 (2 * getSize left) nodeNum ∧
      uc.topOrderedNodes.length = uc.size := by
  refine ⟨_, _, rfl, rfl, ?_, ?_, ?_⟩
  · simp
  · simp
    unfold sub32
    omega
  · simp

/-- The constructor leaves distinct poles: `poles[i]` is the `i`-th node it allocated. -/
theorem ValiantUC_new_poles_nodup
    (newEUG : Network → List Nat → Nat → Network × ValiantEUG)
    (getSize : ValiantEUG → Nat) (nodeNum : Nat) (uc : ValiantUC)
    (h : ValiantUC.new newEUG getSize nodeNum = Except.ok uc) : uc.poles.Nodup := by
  have hp : uc.poles = List.range nodeNum := by
    simp only [ValiantUC.new, calculateSize, List.getElem?_cons_zero, Except.ok.injEq] at h
    rw [← h]
  rw [hp]
  exact List.nodup_range nodeNum

/-! ## Embedding validators: block index of a destination -/

/-- C17 (as amended): for every destination id `1 ≤ destId ≤ 2^26`, where the
quotient has at most 24 binary digits and the conversion to `float` is exact,
`destBlock = ⌊(destId - 1) / 4⌋`, `destBlockPosition = (destId - 1) mod 4`,
`0 ≤ destBlockPosition < 4` and `destId - 1 = 4 * destBlock + destBlockPosition`. -/
theorem destBlock_exact (destId : Nat) (h1 : 1 ≤ destId) (h2 : destId ≤ 2 ^ 26) :
    destBlock destId = (destId - 1) / 4 ∧ destBlockPosition destId = (destId - 1) % 4 ∧
    destBlockPosition destId < 4 ∧
    destId - 1 = 4 * destBlock destId + destBlockPosition destId := by
  have hq : (destId - 1) / 4 < 2 ^ 24 := by omega
  have hb : destBlock destId = (destId - 1) / 4 := by
    unfold destBlock floatOfNat
    rw [if_pos hq]
  refine ⟨hb, rfl, ?_, ?_⟩
  · unfold destBlockPosition
    omega
  · rw [hb]
    unfold destBlockPosition
    omega

/-- Witness for C17: the destination id 6 lies in block 1 at position 1. -/
theorem destBlock_exact_witness :
    destBlock 6 = (6 - 1) / 4 ∧ destBlockPosition 6 = (6 - 1) % 4 ∧
    destBlockPosition 6 < 4 ∧ 6 - 1 = 4 * destBlock 6 + destBlockPosition 6 :=
  destBlock_exact 6 (by decide) (by decide)

/-- C17 (counterexample to the claim as stated): for `destId = 67108869` the
quotient `(destId - 1) / 4 = 16777217 = 2^24 + 1` has 25 binary digits; its
conversion to `float` gives `16777216`, so `destBlock` is one less than the
quotient and `4 * destBlock + destBlockPosition` is not `destId - 1`. -/
theorem destBlock_rounds :
    destBlock 67108869 = 16777216 ∧ (67108869 - 1) / 4 = 16777217 ∧
    67108869 - 1 ≠ 4 * destBlock 67108869 + destBlockPosition 67108869 := by
  decide

/-! ## Embedding validators: the block-level check -/

theorem passes_append (l1 l2 : List (Block × Int)) :
    Passes (l1 ++ l2) ↔ Passes l1 ∧ Passes l2 := by
  unfold Passes
  constructor
  · intro h
    exact ⟨fun c hc => h c (List.mem_append_left _ hc),
      fun c hc => h c (List.mem_append_right _ hc)⟩
  · intro h c hc
    rcases List.mem_append.mp hc with hc | hc
    · exact h.1 c hc
    · exact h.2 c hc

theorem validateBlocks_spec (k : Int) : ∀ bs : List Block,
    ((validateBlocks bs k).1 = true ↔ Passes (bs.map (fun b => (b, k)))) ∧
    ((validateBlocks bs k).1 = true → (validateBlocks bs k).2 = bs.map (fun b => (b, k))) := by
  intro bs
  induction bs with
  | nil => exact ⟨⟨fun _ c hc => absurd hc (List.not_mem_nil c), fun _ => rfl⟩, fun _ => rfl⟩
  | cons b bs ih =>
    by_cases hb : b.validateEdgeEmbedding k = true
    · have e : validateBlocks (b :: bs) k =
          ((validateBlocks bs k).1, (b, k) :: (validateBlocks bs k).2) := by
        rw [validateBlocks, if_pos hb]
      rw [e]
      refine ⟨⟨?_, ?_⟩, ?_⟩
      · intro h c hc
        rcases List.mem_cons.mp hc with rfl | hc
        · exact hb
        · exact ih.1.mp h c hc
      · intro h
        exact ih.1.mpr (fun c hc => h c (List.mem_cons_of_mem _ hc))
      · intro h
        show (b, k) :: (validateBlocks bs k).2 = (b, k) :: bs.map (fun b => (b, k))
        rw [ih.2 h]
    · have e : validateBlocks (b :: bs) k = (false, [(b, k)]) := by
        rw [validateBlocks, if_neg hb]
      rw [e]
      refine ⟨⟨fun h => (by cases h), ?_⟩, fun h => by cases h⟩
      intro h
      exact absurd (h (b, k) (List.mem_cons_self _ _)) hb

mutual
theorem validateEUG_spec : ∀ (e : ValiantEUG) (k : Int),
    ((validateEUG e k).1 = true ↔ Passes (codeChecks e k)) ∧
    ((validateEUG e k).1 = true → (validateEUG e k).2 = codeChecks e k)
  | ValiantEUG.mk blocks children, k => by
    have hb := validateBlocks_spec k blocks
    have hc := validateChildren_spec children
    rw [validateEUG, codeChecks, passes_append]
    by_cases h : (validateBlocks blocks k).1 = true
    · rw [if_pos h]
      refine ⟨⟨fun h2 => ⟨hb.1.mp h, hc.1.mp h2⟩, fun h2 => hc.1.mpr h2.2⟩, ?_⟩
      intro h2
      show (validateBlocks blocks k).2 ++ (validateChildren children).2 = _
      rw [hb.2 h, hc.2 h2]
    · rw [if_neg h]
      refine ⟨⟨fun h2 => (by cases h2), fun h2 => absurd (hb.1.mpr h2.1) h⟩, fun h2 => by cases h2⟩
theorem validateChildren_spec : ∀ es : List ValiantEUG,
    ((validateChildren es).1 = true ↔ Passes (codeChecksList es)) ∧
    ((validateChildren es).1 = true → (validateChildren es).2 = codeChecksList es)
  | [] => ⟨⟨fun _ c hc => absurd hc (List.not_mem_nil c), fun _ => rfl⟩, fun _ => rfl⟩
  | e :: es => by
    have he := validateEUG_spec e 1
    have hes := validateChildren_spec es
    rw [validateChildren, codeChecksList, passes_append]
    by_cases h : (validateEUG e 1).1 = true
    · rw [if_pos h]
      refine ⟨⟨fun h2 => ⟨he.1.mp h, hes.1.mp h2⟩, fun h2 => hes.1.mpr h2.2⟩, ?_⟩
      intro h2
      show (validateEUG e 1).2 ++ (validateChildren es).2 = _
      rw [he.2 h, hes.2 h2]
    · rw [if_neg h]
      refine ⟨⟨fun h2 => (by cases h2), fun h2 => absurd (he.1.mpr h2.1) h⟩, fun h2 => by cases h2⟩
end

mutual
theorem codeChecks_one : ∀ e : ValiantEUG, codeChecks e 1 = ownerChecks e 1
  | ValiantEUG.mk blocks children => by
    rw [codeChecks, ownerChecks, codeChecksList_one children]
theorem codeChecksList_one : ∀ es : List ValiantEUG, codeChecksList es = ownerChecksList es 1
  | [] => rfl
  | e :: es => by
    rw [codeChecksList, ownerChecksList, codeChecks_one e, codeChecksList_one es]
end

/-- C8 (as amended): `validate_block_edge_embedding(uc)` returns true if and
only if every block directly in the left half passes its check keyed with 0,
every block of every EUG nested under the left half passes it keyed with 1,
and every block at any depth under the right half passes it keyed with 1; when
all pass, each block is checked exactly once, blocks first, then child EUGs. -/
theorem validate_block_edge_embedding_spec (uc : ValiantUC) (left right : ValiantEUG)
    (h0 : uc.eugs[0]? = some left) (h1 : uc.eugs[1]? = some right) :
    ∃ b checks, validate_block_edge_embedding uc = Except.ok (b, checks) ∧
      (b = true ↔ Passes (codeChecks left 0 ++ ownerChecks right 1)) ∧
      (b = true → checks = codeChecks left 0 ++ ownerChecks right 1) := by
  have hl := validateEUG_spec left 0
  have hr := validateEUG_spec right 1
  rw [codeChecks_one right] at hr
  unfold validate_block_edge_embedding
  simp only [h0, h1]
  rw [passes_append]
  by_cases h : (validateEUG left 0).1 = true
  · rw [if_pos h]
    refine ⟨_, _, rfl, ⟨fun h2 => ⟨hl.1.mp h, hr.1.mp h2⟩, fun h2 => hr.1.mpr h2.2⟩, ?_⟩
    intro h2
    rw [hl.2 h, hr.2 h2]
  · rw [if_neg h]
    exact ⟨_, _, rfl, ⟨fun h2 => (by cases h2), fun h2 => absurd (hl.1.mpr h2.1) h⟩,
      fun h2 => by cases h2⟩

/-- Witness for C8: the circuit `nestedLeftUC`. -/
theorem validate_block_edge_embedding_spec_witness :
    ∃ b checks, validate_block_edge_embedding nestedLeftUC = Except.ok (b, checks) ∧
      (b = true ↔ Passes (codeChecks (ValiantEUG.mk [] [ValiantEUG.mk [rightOnlyBlock] []]) 0 ++
        ownerChecks (ValiantEUG.mk [] []) 1)) ∧
      (b = true → checks = codeChecks (ValiantEUG.mk [] [ValiantEUG.mk [rightOnlyBlock] []]) 0 ++
        ownerChecks (ValiantEUG.mk [] []) 1) :=
  validate_block_edge_embedding_spec nestedLeftUC _ _ rfl rfl

/-- C8 (counterexample to the claim as stated): in `nestedLeftUC` the only
block lies in a child EUG of the left half and passes its check with the key
1 only.  The validator hands the key 1 to every child EUG, so it returns true,
although that block does not pass keyed with 0, the index of the half that
owns it. -/
theorem validate_block_edge_embedding_owner_key_fails :
    (∃ checks, validate_block_edge_embedding nestedLeftUC = Except.ok (true, checks)) ∧
    ¬ Passes (ownerChecks (ValiantEUG.mk [] [ValiantEUG.mk [rightOnlyBlock] []]) 0 ++
        ownerChecks (ValiantEUG.mk [] []) 1) := by
  refine ⟨⟨_, rfl⟩, ?_⟩
  intro h
  have := h (rightOnlyBlock, 0) (by simp [ownerChecks, ownerChecksList])
  revert this
  decide

/-! ## Embedding validators: the edge-level check -/

theorem scanNode_cases (fuel : Nat) (net : Network) (graph : DAG_Gamma1) (eug : ValiantEUG)
    (eugNum i : Nat) (reports reports1 : List Mismatch)
    (h : scanNode fuel net graph eug eugNum i reports = Except.ok reports1) :
    Examined fuel net graph eug eugNum i ∧
    reports1 = reports ++ (mismatchAt fuel net graph eug eugNum i).toList := by
  unfold scanNode at h
  unfold Examined mismatchAt
  cases hn : graph.node_array[i]? with
  | none => rw [hn] at h; cases h
  | some o =>
    rw [hn] at h
    cases o with
    | none => cases h
    | some cur =>
      try simp only at h
      cases hc : checkEdge fuel net eug eugNum cur with
      | error e => rw [hc] at h; cases h
      | ok r =>
        rw [hc] at h
        refine ⟨⟨cur, r, rfl, hc⟩, ?_⟩
        cases r with
        | none => cases h; simp [hc]
        | some m => cases h; simp [hc]

/-- A half that was validated to the end: every node of it was examined, the
mismatches printed are all its mismatches in order, and the result says
whether there is none. -/
theorem validateHalf_collects (fuel : Nat) (net : Network) (graph : DAG_Gamma1)
    (eug : ValiantEUG) (eugNum : Nat) (b : Bool) (reports : List Mismatch)
    (h : validateHalf fuel net graph eug eugNum = Except.ok (b, reports)) :
    (∀ i, i < graph.node_number → Examined fuel net graph eug eugNum i) ∧
    reports = allMismatches fuel net graph eug eugNum ∧ (b = true ↔ reports = []) := by
  unfold validateHalf at h
  cases hl : intLoop (scanNode fuel net graph eug eugNum) graph.node_number 0 [] with
  | error e => rw [hl] at h; cases h
  | ok r =>
    rw [hl] at h
    simp only [Except.ok.injEq, Prod.mk.injEq] at h
    obtain ⟨hb, hr⟩ := h
    subst hr
    have hinv := (intLoop_ok (scanNode fuel net graph eug eugNum)
      (fun j rep => (∀ i, i < j → Examined fuel net graph eug eugNum i) ∧
        rep = (List.range j).filterMap (mismatchAt fuel net graph eug eugNum))
      (fun j s s1 hP hb => by
        obtain ⟨h1, h2⟩ := scanNode_cases fuel net graph eug eugNum j s s1 hb
        refine ⟨?_, ?_⟩
        · intro i hi
          by_cases hij : i = j
          · rw [hij]; exact h1
          · exact hP.1 i (by omega)
        · rw [h2, hP.2, List.range_succ, List.filterMap_append]
          cases hm : mismatchAt fuel net graph eug eugNum j <;> simp [List.filterMap_cons, hm])
      graph.node_number 0 [] r hl ⟨fun i hi => absurd hi (Nat.not_lt_zero i), rfl⟩).2
    rw [Nat.zero_add] at hinv
    refine ⟨hinv.1, hinv.2, ?_⟩
    rw [← hb]
    cases r with
    | nil => simp
    | cons m ms => simp

/-- What a returning run of the edge-level validator has done: the left half was
scanned to the end, and the right half was scanned exactly when the left half
had no mismatch. -/
theorem validate_halves_scanned (fuel : Nat) (uc : ValiantUC) (gg : DAG_Gamma2)
    (b : Bool) (reports : List Mismatch)
    (h : validate_recursion_point_edge_embedding fuel uc gg = Except.ok (b, reports)) :
    ∃ left right g0, uc.eugs[0]? = some left ∧ uc.eugs[1]? = some right ∧
      gg.gamma1_left = some g0 ∧
      (∀ i, i < g0.node_number → Examined fuel uc.nodes g0 left 0 i) ∧
      (allMismatches fuel uc.nodes g0 left 0 ≠ [] →
        b = false ∧ reports = allMismatches fuel uc.nodes g0 left 0) ∧
      (allMismatches fuel uc.nodes g0 left 0 = [] →
        ∃ g1, gg.gamma1_right = some g1 ∧
          (∀ i, i < g1.node_number → Examined fuel uc.nodes g1 right 1 i) ∧
          reports = allMismatches fuel uc.nodes g1 right 1 ∧ (b = true ↔ reports = [])) := by
  unfold validate_recursion_point_edge_embedding at h
  cases he0 : uc.eugs[0]? with
  | none => simp [he0] at h
  | some left =>
    cases he1 : uc.eugs[1]? with
    | none => simp [he0, he1] at h
    | some right =>
      simp only [he0, he1] at h
      cases hg0 : gg.gamma1_left with
      | none => rw [hg0] at h; cases h
      | some g0 =>
        rw [hg0] at h
        try simp only at h
        cases hv0 : validateHalf fuel uc.nodes g0 left 0 with
        | error e => rw [hv0] at h; cases h
        | ok p0 =>
          rw [hv0] at h
          obtain ⟨b0, r0⟩ := p0
          obtain ⟨hex0, hr0, hb0⟩ := validateHalf_collects fuel uc.nodes g0 left 0 b0 r0 hv0
          refine ⟨left, right, g0, rfl, rfl, rfl, hex0, ?_, ?_⟩
          · intro hne
            cases b0 with
            | true => exact absurd (hr0 ▸ hb0.mp rfl) hne
            | false =>
              simp only [Except.ok.injEq, Prod.mk.injEq] at h
              exact ⟨h.1.symm, by rw [← h.2, hr0]⟩
          · intro hnil
            cases b0 with
            | false =>
              have := hb0.mpr (hr0.trans hnil)
              cases this
            | true =>
              try simp only at h
              cases hg1 : gg.gamma1_right with
              | none => rw [hg1] at h; cases h
              | some g1 =>
                rw [hg1] at h
                try simp only at h
                cases hv1 : validateHalf fuel uc.nodes g1 right 1 with
                | error e => rw [hv1] at h; cases h
                | ok p1 =>
                  rw [hv1] at h
                  obtain ⟨b1, r1⟩ := p1
                  obtain ⟨hex1, hr1, hb1⟩ :=
                    validateHalf_collects fuel uc.nodes g1 right 1 b1 r1 hv1
                  simp only [Except.ok.injEq, Prod.mk.injEq] at h
                  obtain ⟨e1, e2⟩ := h
                  have hr0nil : r0 = [] := hr0.trans hnil
                  rw [hr0nil, List.nil_append] at e2
                  subst e1 e2
                  exact ⟨g1, rfl, hex1, hr1, hb1⟩

/-- C9 (counterexample to the claim as stated): validated against `wrongDag`,
`pairUC` has the mismatch 7 -> 2 in the left half and the mismatch 9 -> 2 in
the right half; the validator returns after the left half and prints the
first one only. -/
theorem validate_recursion_point_stops_after_left :
    validate_recursion_point_edge_embedding 2 pairUC wrongDag =
      Except.ok (false, [{ expected := 7, dest := 2, traced := 1 }]) ∧
    (∃ left g1, pairUC.eugs[1]? = some left ∧ wrongDag.gamma1_right = some g1 ∧
      allMismatches 2 pairUC.nodes g1 left 1 = [{ expected := 9, dest := 2, traced := 1 }]) :=
  ⟨rfl, _, _, rfl, rfl, by decide⟩

theorem destBlock_small (d : Nat) (h2 : d ≤ 2 ^ 26) : destBlock d = (d - 1) / 4 := by
  have hq : (d - 1) / 4 < 2 ^ 24 := by omega
  unfold destBlock floatOfNat
  rw [if_pos hq]

theorem toInt32_small (n : Nat) (h : n < 2 ^ 31) : toInt32 n = (n : Int) := by
  unfold toInt32
  have e : n % 2 ^ 32 = n := Nat.mod_eq_of_lt (by omega)
  rw [e, if_pos h]

/-- For a node whose numbers are in range, the edge check finds no mismatch
exactly when every recorded successor is traced back to the node. -/
theorem checkEdge_none_iff (fuel : Nat) (net : Network) (eug : ValiantEUG) (h : Nat)
    (cur : Gamma1Node) (hnum : cur.number < 2 ^ 31)
    (hd : ∀ d, cur.child = some d → 1 ≤ d ∧ d ≤ 2 ^ 26) :
    checkEdge fuel net eug h cur = Except.ok none ↔
      ∀ d, cur.child = some d →
        EdgeTraced fuel net eug h ((d - 1) / 4) ((d - 1) % 4) cur.number := by
  unfold checkEdge
  cases hc : cur.child with
  | none => simp
  | some d =>
    obtain ⟨hd1, hd2⟩ := hd d hc
    have hguard : ¬ (d = 0 ∨ 2 ^ 31 ≤ d) := by omega
    simp only [if_neg hguard, destBlock_small d hd2, destBlockPosition, toInt32_small _ hnum]
    constructor
    · intro hrun d2 hd2eq
      have e : d2 = d := (Option.some.inj hd2eq).symm
      subst e
      unfold EdgeTraced
      cases hb : eug.getBlocks[(d2 - 1) / 4]? with
      | none => rw [hb] at hrun; cases hrun
      | some b =>
        rw [hb] at hrun
        cases hp : b.poles[(d2 - 1) % 4]? with
        | none => simp only [hp] at hrun; cases hrun
        | some lastNode =>
          simp only [hp] at hrun
          cases hl : net[lastNode]? with
          | none => simp only [hl] at hrun; cases hrun
          | some ln =>
            simp only [hl] at hrun
            cases hx : ln.parents[h]? with
            | none => simp only [hx] at hrun; cases hrun
            | some nextNode =>
              simp only [hx] at hrun
              cases hf : find_next_pole fuel net lastNode nextNode with
              | invalid => simp only [hf] at hrun; cases hrun
              | outOfFuel => simp only [hf] at hrun; cases hrun
              | found r k =>
                simp only [hf] at hrun
                cases hr : net[r]? with
                | none => simp only [hr] at hrun; cases hrun
                | some rn =>
                  simp only [hr] at hrun
                  by_cases hid : rn.id = (cur.number : Int)
                  · exact ⟨b, lastNode, ln, nextNode, r, k, rn, rfl, hp, hl, hx, hf, hr, hid⟩
                  · rw [if_pos hid] at hrun
                    cases hrun
    · intro htr
      obtain ⟨b, lastNode, ln, nextNode, r, k, rn, hb, hp, hl, hx, hf, hr, hid⟩ := htr d rfl
      simp only [hb, hp, hl, hx, hf, hr]
      rw [if_neg (by simpa using hid)]

/-- A half whose numbers are in range is validated with the result true
exactly when it is embedded. -/
theorem validateHalf_true_iff (fuel : Nat) (net : Network) (graph : DAG_Gamma1)
    (eug : ValiantEUG) (h : Nat) (hrange : GraphInRange graph) :
    (∃ reports, validateHalf fuel net graph eug h = Except.ok (true, reports)) ↔
      HalfEmbedded fuel net graph eug h := by
  obtain ⟨hcount, hnodes⟩ := hrange
  constructor
  · rintro ⟨reports, hv⟩
    obtain ⟨hex, hall, hb⟩ := validateHalf_collects fuel net graph eug h true reports hv
    have hnil : allMismatches fuel net graph eug h = [] := hall ▸ hb.mp rfl
    intro i hi
    obtain ⟨cur, o, hcur, hchk⟩ := hex i hi
    refine ⟨cur, hcur, ?_⟩
    obtain ⟨hnum, hd⟩ := hnodes i cur hcur
    apply (checkEdge_none_iff fuel net eug h cur hnum hd).mp
    have hmis : mismatchAt fuel net graph eug h i = none := by
      unfold allMismatches at hnil
      have := List.filterMap_eq_nil_iff.mp hnil i (List.mem_range.mpr hi)
      exact this
    unfold mismatchAt at hmis
    simp only [hcur, hchk] at hmis
    rw [hchk, hmis]
  · intro hemb
    obtain ⟨reports, hloop, hrep⟩ := intLoop_invariant (scanNode fuel net graph eug h)
      (fun _ rep => rep = []) graph.node_number
      (fun j s hj hP => by
        obtain ⟨cur, hcur, htr⟩ := hemb j hj
        obtain ⟨hnum, hd⟩ := hnodes j cur hcur
        have hchk := (checkEdge_none_iff fuel net eug h cur hnum hd).mpr htr
        refine ⟨s, ?_, hP⟩
        unfold scanNode
        rw [hcur]
        simp only [hchk])
      graph.node_number 0 [] (by omega) hcount rfl
    refine ⟨reports, ?_⟩
    unfold validateHalf
    rw [hloop, hrep]
    rfl

/-- C7 (as amended): when the numbers of both halves of the dependency graph
are in the range in which the validator computes exactly (successor numbers
from 1 to `2^26`, so that the conversion of the block index to `float` is
exact), `validate_recursion_point_edge_embedding(uc, gg)` returns true if and
only if, for each half `h` and every node `n` of it with a recorded successor
`d`, chasing from parent slot `h` of the pole at position `(d - 1) mod 4` of
block `⌊(d - 1) / 4⌋` of EUG half `h` reaches a pole whose id is `n.number`. -/
theorem validate_recursion_point_true_iff (fuel : Nat) (uc : ValiantUC) (gg : DAG_Gamma2)
    (hleft : ∀ g, gg.gamma1_left = some g → GraphInRange g)
    (hright : ∀ g, gg.gamma1_right = some g → GraphInRange g) :
    (∃ reports, validate_recursion_point_edge_embedding fuel uc gg = Except.ok (true, reports)) ↔
      EdgeEmbedded fuel uc gg := by
  constructor
  · rintro ⟨reports, hv⟩
    obtain ⟨left, right, g0, he0, he1, hg0, _, hbad, hgood⟩ :=
      validate_halves_scanned fuel uc gg true reports hv
    have hnil : allMismatches fuel uc.nodes g0 left 0 = [] := by
      by_contra hne
      have := (hbad hne).1
      cases this
    obtain ⟨g1, hg1, _, hrep, hb⟩ := hgood hnil
    have hrnil : reports = [] := hb.mp rfl
    unfold validate_recursion_point_edge_embedding at hv
    simp only [he0, he1, hg0] at hv
    cases hv0 : validateHalf fuel uc.nodes g0 left 0 with
    | error e => rw [hv0] at hv; cases hv
    | ok p0 =>
      obtain ⟨b0, r0⟩ := p0
      rw [hv0] at hv
      cases b0 with
      | false => simp at hv
      | true =>
        simp only [hg1] at hv
        cases hv1 : validateHalf fuel uc.nodes g1 right 1 with
        | error e => rw [hv1] at hv; cases hv
        | ok p1 =>
          obtain ⟨b1, r1⟩ := p1
          rw [hv1] at hv
          simp only [Except.ok.injEq, Prod.mk.injEq] at hv
          have hb1 : b1 = true := hv.1
          subst hb1
          exact ⟨left, right, g0, g1, he0, he1, hg0, hg1,
            (validateHalf_true_iff fuel uc.nodes g0 left 0 (hleft g0 hg0)).mp ⟨r0, hv0⟩,
            (validateHalf_true_iff fuel uc.nodes g1 right 1 (hright g1 hg1)).mp ⟨r1, hv1⟩⟩
  · rintro ⟨left, right, g0, g1, he0, he1, hg0, hg1, h0, h1⟩
    obtain ⟨r0, hv0⟩ := (validateHalf_true_iff fuel uc.nodes g0 left 0 (hleft g0 hg0)).mpr h0
    obtain ⟨r1, hv1⟩ := (validateHalf_true_iff fuel uc.nodes g1 right 1 (hright g1 hg1)).mpr h1
    refine ⟨r0 ++ r1, ?_⟩
    unfold validate_recursion_point_edge_embedding
    simp only [he0, he1, hg0, hg1, hv0, hv1]

theorem pairDag_inRange (g : DAG_Gamma1)
    (hg : pairDag.gamma1_left = some g ∨ pairDag.gamma1_right = some g) : GraphInRange g := by
  have e : g = pairHalf := by
    rcases hg with h | h <;> exact (Option.some.inj h).symm
  subst e
  refine ⟨by decide, ?_⟩
  intro i cur hi
  have hlt : i < 2 := (List.getElem?_eq_some.mp hi).1
  interval_cases i
  · have e : cur = { number := 1, child := some 2 } := by
      simpa [pairHalf] using hi.symm
    subst e
    refine ⟨by decide, ?_⟩
    intro d hd
    have e2 : d = 2 := by simpa using hd.symm
    subst e2
    exact ⟨by decide, by decide⟩
  · have e : cur = { number := 2, child := none } := by
      simpa [pairHalf] using hi.symm
    subst e
    refine ⟨by decide, ?_⟩
    intro d hd
    cases hd

/-- Witness for C7: the validation of `pairUC` against `pairDag`. -/
theorem validate_recursion_point_true_iff_witness :
    (∃ reports, validate_recursion_point_edge_embedding 2 pairUC pairDag =
      Except.ok (true, reports)) ↔ EdgeEmbedded 2 pairUC pairDag :=
  validate_recursion_point_true_iff 2 pairUC pairDag
    (fun g hg => pairDag_inRange g (Or.inl hg)) (fun g hg => pairDag_inRange g (Or.inr hg))

theorem farBlocks_at_rounded : farBlocks[16777216]? = some farBlockA := by
  unfold farBlocks
  rw [List.getElem?_append_right (by rw [List.length_replicate])]
  rw [List.length_replicate]
  rfl

theorem farBlocks_at_exact : farBlocks[16777217]? = some farBlockB := by
  unfold farBlocks
  rw [List.getElem?_append_right (by rw [List.length_replicate]; omega)]
  rw [List.length_replicate]
  rfl

theorem destBlock_far : destBlock 67108869 = 16777216 := by decide

theorem checkEdge_ok_none (fuel : Nat) (net : Network) (eug : ValiantEUG) (h : Nat)
    (cur : Gamma1Node) (d : Nat) (b : Block) (lastNode nextNode r k : Nat) (ln rn : UCNode)
    (hc : cur.child = some d) (hg : ¬ (d = 0 ∨ 2 ^ 31 ≤ d))
    (hb : eug.getBlocks[destBlock d]? = some b)
    (hp : b.poles[destBlockPosition d]? = some lastNode) (hl : net[lastNode]? = some ln)
    (hx : ln.parents[h]? = some nextNode)
    (hf : find_next_pole fuel net lastNode nextNode = ChaseResult.found r k)
    (hr : net[r]? = some rn) (hid : rn.id = toInt32 cur.number) :
    checkEdge fuel net eug h cur = Except.ok none := by
  unfold checkEdge
  simp only [hc, if_neg hg, hb, hp, hl, hx, hf, hr]
  rw [if_neg (by simpa using hid)]

theorem checkEdge_far :
    checkEdge 1 farNet (ValiantEUG.mk farBlocks []) 0 farNode = Except.ok none := by
  refine checkEdge_ok_none 1 farNet (ValiantEUG.mk farBlocks []) 0 farNode 67108869 farBlockA
    2 0 0 0 _ _ rfl (by decide) ?_ rfl rfl rfl rfl rfl (by decide)
  rw [destBlock_far]
  exact farBlocks_at_rounded

theorem scanNode_ok_none (fuel : Nat) (net : Network) (graph : DAG_Gamma1) (eug : ValiantEUG)
    (h i : Nat) (reports : List Mismatch) (cur : Gamma1Node)
    (hc : graph.node_array[i]? = some (some cur))
    (he : checkEdge fuel net eug h cur = Except.ok none) :
    scanNode fuel net graph eug h i reports = Except.ok reports := by
  unfold scanNode
  simp only [hc, he]

theorem validateHalf_single (fuel : Nat) (net : Network) (graph : DAG_Gamma1)
    (eug : ValiantEUG) (h : Nat) (hn : graph.node_number = 1)
    (hs : scanNode fuel net graph eug h 0 [] = Except.ok []) :
    validateHalf fuel net graph eug h = Except.ok (true, []) := by
  unfold validateHalf
  have h1 : (0 : Nat) < 2 ^ 31 := by decide
  have h2 : (0 : Nat) + 1 < 2 ^ 31 := by decide
  rw [hn, intLoop, if_pos h1, hs]
  simp only
  rw [intLoop, if_pos h2]
  rfl

theorem far_scan : scanNode 1 farNet { node_number := 1, node_array := [some farNode] }
    (ValiantEUG.mk farBlocks []) 0 0 [] = Except.ok [] :=
  scanNode_ok_none 1 farNet _ _ 0 0 [] farNode rfl checkEdge_far

theorem far_left : validateHalf 1 farNet { node_number := 1, node_array := [some farNode] }
    (ValiantEUG.mk farBlocks []) 0 = Except.ok (true, []) :=
  validateHalf_single 1 farNet _ _ 0 rfl far_scan

theorem far_right : validateHalf 1 farNet { node_number := 0, node_array := [] }
    (ValiantEUG.mk [] []) 1 = Except.ok (true, []) := rfl

theorem validate_of_halves (fuel : Nat) (uc : ValiantUC) (gg : DAG_Gamma2)
    (left right : ValiantEUG) (g0 g1 : DAG_Gamma1) (r0 r1 : List Mismatch) (b1 : Bool)
    (h0 : uc.eugs[0]? = some left) (h1 : uc.eugs[1]? = some right)
    (hg0 : gg.gamma1_left = some g0) (hg1 : gg.gamma1_right = some g1)
    (hl : validateHalf fuel uc.nodes g0 left 0 = Except.ok (true, r0))
    (hr : validateHalf fuel uc.nodes g1 right 1 = Except.ok (b1, r1)) :
    validate_recursion_point_edge_embedding fuel uc gg = Except.ok (b1, r0 ++ r1) := by
  unfold validate_recursion_point_edge_embedding
  simp only [h0, h1, hg0, hg1, hl, hr]

theorem validate_far_true :
    validate_recursion_point_edge_embedding 1 farUC farDag = Except.ok (true, []) :=
  validate_of_halves 1 farUC farDag _ _ _ _ [] [] true rfl rfl rfl rfl far_left far_right

theorem far_chase : find_next_pole 1 farNet 3 1 = ChaseResult.found 1 0 := rfl

theorem found_inj (a b c d : Nat) (h : ChaseResult.found a b = ChaseResult.found c d) :
    a = c := by
  cases h
  rfl

theorem far_not_traced :
    ¬ EdgeTraced 1 farNet (ValiantEUG.mk farBlocks []) 0 16777217 0 1 := by
  rintro ⟨b, lastNode, ln, nextNode, r, k, rn, hb, hp, hl, hx, hf, hr, hid⟩
  have hb2 : farBlocks[16777217]? = some b := hb
  rw [farBlocks_at_exact] at hb2
  have eb : b = farBlockB := (Option.some.inj hb2).symm
  subst eb
  have el : lastNode = 3 := (Option.some.inj hp).symm
  subst el
  have eln : ln.parents = [1] := by
    rw [← Option.some.inj hl]
    rfl
  rw [eln] at hx
  have en : nextNode = 1 := (Option.some.inj hx).symm
  subst en
  rw [far_chase] at hf
  have er : r = 1 := (found_inj _ _ _ _ hf).symm
  subst er
  have ern : rn.id = 2 := by
    rw [← Option.some.inj hr]
    rfl
  rw [ern] at hid
  revert hid
  decide

/-- C7 (counterexample to the claim as stated): `farDag` records the edge
`1 -> 67108869`, whose destination is the first position of block
`⌊67108868 / 4⌋ = 2^24 + 1`.  The pole there is fed by the pole with id 2, so
the edge is not embedded; but the validator, which converts the block index
to `float`, inspects block `2^24`, traces the pole with id 1 and returns true. -/
theorem validate_recursion_point_rounds_block :
    (∃ reports, validate_recursion_point_edge_embedding 1 farUC farDag =
      Except.ok (true, reports)) ∧ ¬ EdgeEmbedded 1 farUC farDag := by
  refine ⟨⟨[], validate_far_true⟩, ?_⟩
  rintro ⟨left, right, g0, g1, he0, _, hg0, _, h0, _⟩
  have e0 : left = ValiantEUG.mk farBlocks [] := (Option.some.inj he0).symm
  have eg : g0 = { node_number := 1, node_array := [some farNode] } :=
    (Option.some.inj hg0).symm
  subst e0 eg
  obtain ⟨cur, hcur, htr⟩ := h0 0 (by decide)
  have ec : cur = farNode := by
    have : some (some farNode) = some (some cur) := hcur
    exact (Option.some.inj (Option.some.inj this)).symm
  subst ec
  have htr2 := htr 67108869 rfl
  have hq : (67108869 - 1) / 4 = 16777217 := by decide
  have hm : (67108869 - 1) % 4 = 0 := by decide
  rw [hq, hm] at htr2
  exact far_not_traced htr2

/-! ## Control bits on the gate poles -/

/-- One iteration of the gate loop: the bits the resolution returns for node
`i` of the dependency graph are stored on pole `i`, which becomes a GATE. -/
theorem assignGate_step (i : Nat) (s s1 : ValiantUC × List Nat)
    (h : assignGate i s = Except.ok s1) :
    ∃ p dag cur r n, s.1.poles[i]? = some p ∧ s.1.dag = some dag ∧
      dag.node_array[i]? = some cur ∧ resolveControlBits dag cur = Except.ok r ∧
      s.1.nodes[p]? = some n ∧ s1.1.poles = s.1.poles ∧ s1.1.dag = s.1.dag ∧
      s1.1.nodes = s.1.nodes.set p ((n.setPoleType PoleType.GATE).setControlBits r.bits) ∧
      s1.2 = if r.reported then s.2 ++ [i] else s.2 := by
  unfold assignGate at h
  cases hp : s.1.poles[i]? with
  | none => rw [hp] at h; cases h
  | some p =>
    rw [hp] at h
    cases hd : s.1.dag with
    | none => rw [hd] at h; cases h
    | some dag =>
      rw [hd] at h
      simp only at h
      cases hc : dag.node_array[i]? with
      | none => rw [hc] at h; cases h
      | some cn =>
        rw [hc] at h
        simp only at h
        cases hr : resolveControlBits dag cn with
        | error e => rw [hr] at h; cases h
        | ok r =>
          rw [hr] at h
          simp only [modifyNode] at h
          cases hn : s.1.nodes[p]? with
          | none => rw [hn] at h; cases h
          | some n =>
            rw [hn] at h
            cases h
            exact ⟨p, dag, cn, r, n, rfl, rfl, hc, hr, hn, rfl, hd, rfl, rfl⟩

/-- The gate loop over the poles `lo ≤ k < lo + count`, run to its end on
distinct poles: every one of these poles holds the bits the resolution returns
for its node of the dependency graph, and its index is among the reported
indices exactly when the resolution printed its message. -/
theorem gateLoop_stored (uc0 : ValiantUC) (hnd : uc0.poles.Nodup) (count lo : Nat)
    (s1 : ValiantUC × List Nat)
    (h : intLoop assignGate count lo (uc0, []) = Except.ok s1) :
    ∀ (k p : Nat), lo ≤ k → k < lo + count → uc0.poles[k]? = some p →
      ∃ dag cur r m, uc0.dag = some dag ∧ dag.node_array[k]? = some cur ∧
        resolveControlBits dag cur = Except.ok r ∧ s1.1.nodes[p]? = some m ∧
        m.controlBits = r.bits ∧ (k ∈ s1.2 ↔ r.reported = true) := by
  have hinv := (intLoop_ok assignGate
    (fun j s => s.1.poles = uc0.poles ∧ s.1.dag = uc0.dag ∧ (∀ k ∈ s.2, k < j) ∧
      ∀ (k p : Nat), lo ≤ k → k < j → uc0.poles[k]? = some p →
        ∃ dag cur r m, uc0.dag = some dag ∧ dag.node_array[k]? = some cur ∧
          resolveControlBits dag cur = Except.ok r ∧ s.1.nodes[p]? = some m ∧
          m.controlBits = r.bits ∧ (k ∈ s.2 ↔ r.reported = true))
    (fun j s s2 hP hb => by
      obtain ⟨hpoles, hdag, hrep, hst⟩ := hP
      obtain ⟨p, dag, cur, r, n, hp, hd, hc, hr, hn, e1, e2, e3, e4⟩ := assignGate_step j s s2 hb
      rw [hpoles] at hp
      rw [hdag] at hd
      have hplt : p < s.1.nodes.length := (List.getElem?_eq_some.mp hn).1
      refine ⟨e1.trans hpoles, e2.trans hdag, ?_, ?_⟩
      · intro k hk
        rw [e4] at hk
        by_cases hrr : r.reported = true
        · simp only [hrr, if_true, List.mem_append, List.mem_singleton] at hk
          rcases hk with hk | hk
          · exact Nat.lt_succ_of_lt (hrep k hk)
          · omega
        · simp only [hrr, Bool.false_eq_true, if_false] at hk
          exact Nat.lt_succ_of_lt (hrep k hk)
      · intro k q hk1 hk2 hq
        rw [e3, e4]
        by_cases hkj : k = j
        · subst hkj
          have e : q = p := Option.some.inj (hq.symm.trans hp)
          subst e
          refine ⟨dag, cur, r, _, hd, hc, hr, List.getElem?_set_self hplt, rfl, ?_⟩
          by_cases hrr : r.reported = true
          · simp [hrr]
          · simp only [hrr, Bool.false_eq_true, if_false, iff_false]
            intro hmem
            exact absurd (hrep k hmem) (Nat.lt_irrefl k)
        · have hne : q ≠ p := by
            intro e
            subst e
            exact nodup_index_ne _ hnd j k q hp hkj hq
          obtain ⟨dag1, cur1, r1, m1, hd1, hc1, hr1, hm1, hb1, hrep1⟩ :=
            hst k q hk1 (by omega) hq
          refine ⟨dag1, cur1, r1, m1, hd1, hc1, hr1, ?_, hb1, ?_⟩
          · rw [List.getElem?_set_ne (fun e => hne e.symm)]
            exact hm1
          · rw [← hrep1]
            by_cases hrr : r.reported = true
            · simp only [hrr, if_true, List.mem_append, List.mem_singleton]
              exact ⟨fun hh => hh.resolve_right hkj, Or.inl⟩
            · simp only [hrr, Bool.false_eq_true, if_false])
    count lo (uc0, []) s1 h
    ⟨rfl, rfl, fun k hk => absurd hk (List.not_mem_nil k),
      fun k p hk1 hk2 => absurd hk2 (by omega)⟩).2
  exact hinv.2.2.2

/-- The three role loops, run to their end on distinct poles with
`inputs + outputs ≤ pole_count`: every gate pole holds the bits the resolution
returns for its node of the dependency graph. -/
theorem assignRoles_stores (uc uc3 : ValiantUC) (inputs outputs : Nat) (reports : List Nat)
    (hnd : uc.poles.Nodup) (hle : inputs + outputs ≤ uc.poles.length)
    (h : assignRoles uc inputs outputs = Except.ok (uc3, reports)) :
    ∀ (i p : Nat), inputs ≤ i → i + outputs < uc.poles.length → uc.poles[i]? = some p →
      ∃ dag cur r m, uc.dag = some dag ∧ dag.node_array[i]? = some cur ∧
        resolveControlBits dag cur = Except.ok r ∧ uc3.nodes[p]? = some m ∧
        m.controlBits = r.bits ∧ (i ∈ reports ↔ r.reported = true) := by
  unfold assignRoles at h
  simp only at h
  cases h1 : intLoop assignInput inputs 0
      { uc with inputs := inputs, outputs := outputs,
                gates := sub32 (sub32 uc.poles.length inputs) outputs } with
  | error e => rw [h1] at h; cases h
  | ok uc1 =>
    rw [h1] at h
    simp only at h
    cases h2 : intLoop assignGate (gateBound uc.poles.length outputs - inputs) inputs
        (uc1, []) with
    | error e => rw [h2] at h; cases h
    | ok s2 =>
      rw [h2] at h
      obtain ⟨uc2, reports2⟩ := s2
      simp only at h
      cases h3 : intLoop assignOutput (uc.poles.length - gateBound uc.poles.length outputs)
          (gateBound uc.poles.length outputs) uc2 with
      | error e => rw [h3] at h; cases h
      | ok uc3b =>
        rw [h3] at h
        simp only [Except.ok.injEq, Prod.mk.injEq] at h
        obtain ⟨e3, er⟩ := h
        subst e3 er
        obtain ⟨_, _, nodes1, e1, _, _⟩ :=
          poleLoop_effect (fun uc : ValiantUC => uc) _ assignInput assignInput_touches
            { uc with inputs := inputs, outputs := outputs,
                      gates := sub32 (sub32 uc.poles.length inputs) outputs }
            hnd inputs 0 uc1 h1
        simp only at e1
        have hp1 : uc1.poles = uc.poles := by rw [e1]
        have hd1 : uc1.dag = uc.dag := by rw [e1]
        have hnd1 : uc1.poles.Nodup := by rw [hp1]; exact hnd
        obtain ⟨_, _, nodes2, e2, _, _⟩ :=
          poleLoop_effect (fun s : ValiantUC × List Nat => s.1) _ assignGate assignGate_touches
            (uc1, []) hnd1 _ inputs (uc2, reports2) h2
        simp only at e2
        have hp2 : uc2.poles = uc.poles := by rw [e2, hp1]
        obtain ⟨hb3, _, nodes3, e3, _, rest3⟩ :=
          poleLoop_effect (fun uc : ValiantUC => uc) _ assignOutput assignOutput_touches uc2
            (by show uc2.poles.Nodup; rw [hp2]; exact hnd) _ _ uc3b h3
        simp only at e3 rest3
        obtain ⟨hlen, hB⟩ := gateBound_eq uc.poles.length outputs (by omega) hb3
        have hstored := gateLoop_stored uc1 hnd1 _ inputs (uc2, reports2) h2
        rw [hp1, hd1, hB] at hstored
        rw [hp2, hB] at rest3
        intro i p hi hlt hp
        obtain ⟨dag, cur, r, m, hd, hc, hr, hm, hbits, hrep⟩ := hstored i p hi (by omega) hp
        have hk3 : nodes3[p]? = uc2.nodes[p]? :=
          rest3 p (fun k hk1 _ => nodup_index_ne _ hnd i k p hp (by omega))
        have hn3 : uc3b.nodes = nodes3 := by rw [e3]
        exact ⟨dag, cur, r, m, hd, hc, hr, by rw [hn3, hk3]; exact hm, hbits, hrep⟩

/-- A run of `setInputsAndOutputs` that stays within defined behaviour leaves
on every gate pole the bits the resolution returns for its node of the
dependency graph, and prints "Something is wrong!" for exactly the gates for
which the resolution does. -/
theorem setInputsAndOutputs_stores (uc uc1 : ValiantUC) (inputs outputs : Nat)
    (reports : List Nat) (hnd : uc.poles.Nodup) (hle : inputs + outputs ≤ uc.poles.length)
    (h : setInputsAndOutputs uc inputs outputs = Except.ok (uc1, reports))
    (i p : Nat) (hi : inputs ≤ i) (hlt : i < inputs + uc1.gates) (hp : uc.poles[i]? = some p) :
    ∃ dag cur r n, uc.dag = some dag ∧ dag.node_array[i]? = some cur ∧
      resolveControlBits dag cur = Except.ok r ∧ uc1.nodes[p]? = some n ∧
      n.controlBits = r.bits ∧ (i ∈ reports ↔ r.reported = true) := by
  unfold setInputsAndOutputs at h
  cases hr : assignRoles uc inputs outputs with
  | error e => rw [hr] at h; cases h
  | ok s3 =>
    rw [hr] at h
    obtain ⟨uc3, reports3⟩ := s3
    simp only at h
    cases ht : topologicalOrdering uc3 inputs with
    | error e => rw [ht] at h; cases h
    | ok uc4 =>
      rw [ht] at h
      simp only at h
      cases hw : wireCounters uc4.topOrderedNodes 0 uc4.nodes with
      | error e => rw [hw] at h; cases h
      | ok nodes5 =>
        rw [hw] at h
        simp only [Except.ok.injEq, Prod.mk.injEq] at h
        obtain ⟨e5, er⟩ := h
        subst e5 er
        obtain ⟨_, hi3, ho3, hsum, _⟩ :=
          assignRoles_spec uc uc3 inputs outputs reports3 hnd hle hr
        obtain ⟨hcore4, _, _, _, hg4⟩ := topologicalOrdering_core uc3 uc4 inputs ht
        have hcore5 := wireCounters_core _ _ _ _ hw
        have hcore : nodes5.map UCNode.core = uc3.nodes.map UCNode.core := hcore5.trans hcore4
        have hlt2 : i < inputs + uc4.gates := hlt
        rw [hg4] at hlt2
        obtain ⟨dag, cur, r, m, hd, hc, hres, hm, hbits, hrep⟩ :=
          assignRoles_stores uc uc3 inputs outputs reports3 hnd hle hr i p hi (by omega) hp
        obtain ⟨n, hn, hnc⟩ := core_of_map_eq nodes5 uc3.nodes hcore p m hm
        have ecb : n.core.controlBits = m.core.controlBits := congrArg UCNode.controlBits hnc
        simp only [UCNode.core] at ecb
        exact ⟨dag, cur, r, n, hd, hc, hres, hn, ecb.trans hbits, hrep⟩

/-- A successor test that returned a result read inside the array. -/
theorem successorIs_ok_readable (g : Option DAG_Gamma1) (p cur : Nat) (b : Bool)
    (h : successorIs g p cur = Except.ok b) : Readable g p := by
  intro lg hg
  subst hg
  unfold successorIs at h
  simp only at h
  cases he : gamma1Entry lg p with
  | none => rw [he] at h; cases h
  | some e =>
    unfold gamma1Entry at he
    by_cases hp0 : p = 0
    · rw [if_pos hp0] at he
      cases he
    · rw [if_neg hp0] at he
      have hlt := (List.getElem?_eq_some.mp he).1
      omega

/-- A successor test that returned a result returned what the recorded
successor says. -/
theorem successorIs_ok (g : Option DAG_Gamma1) (p cur : Nat) (b : Bool)
    (h : successorIs g p cur = Except.ok b) :
    b = decide (recordedSuccessor g p = some cur) := by
  have hs := successorIs_eq g p cur (successorIs_ok_readable g p cur b h)
  rw [h] at hs
  exact Except.ok.inj hs

/-- The resolution of a single-parent gate whose middle bits differ, when it
returns: the truth table (with the message exactly when bits 0 and 1 differ) if
the parent's recorded successor in the left half is this gate; bits 1 and 2
recomputed from bit 0 if it is this gate in the right half only. -/
theorem resolve_single_cases (dag : DAG_Gamma2) (cur : Gamma2Node) (f0 f1 f2 f3 p : Nat)
    (r : Resolution) (hbits : cur.function_bits = [f0, f1, f2, f3])
    (h0 : f0 ≤ 1) (h1 : f1 ≤ 1) (h2 : f2 ≤ 1) (h3 : f3 ≤ 1) (hne : f1 ≠ f2)
    (hone : (cur.left_parent = some p ∧ cur.right_parent = none) ∨
      (cur.left_parent = none ∧ cur.right_parent = some p))
    (hr : resolveControlBits dag cur = Except.ok r) :
    (recordedSuccessor dag.gamma1_left p = some cur.number →
      r.bits = [f0, f1, f2, f3] ∧ (r.reported = true ↔ f0 ≠ f1)) ∧
    (recordedSuccessor dag.gamma1_left p ≠ some cur.number →
      recordedSuccessor dag.gamma1_right p = some cur.number →
      r.bits = [f0, 1 - f0, f0, f3]) := by
  have hleft : ∃ b, successorIs dag.gamma1_left p cur.number = Except.ok b ∧
      (b = false → ∃ b2, successorIs dag.gamma1_right p cur.number = Except.ok b2) := by
    unfold resolveControlBits at hr
    simp only [hbits, List.getElem?_cons_zero, List.getElem?_cons_succ, toU16_bit f0 h0,
      toU16_bit f1 h1, toU16_bit f2 h2, toU16_bit f3 h3] at hr
    cases hs : successorIs dag.gamma1_left p cur.number with
    | error e =>
      rcases hone with ⟨hlp, hrp⟩ | ⟨hlp, hrp⟩ <;> simp [hlp, hrp, hne, hs] at hr
    | ok b =>
      refine ⟨b, rfl, ?_⟩
      intro hb
      subst hb
      cases hs2 : successorIs dag.gamma1_right p cur.number with
      | error e =>
        rcases hone with ⟨hlp, hrp⟩ | ⟨hlp, hrp⟩ <;> simp [hlp, hrp, hne, hs, hs2] at hr
      | ok b2 => exact ⟨b2, rfl⟩
  obtain ⟨b, hs, hs2⟩ := hleft
  have hl : Readable dag.gamma1_left p := successorIs_ok_readable _ _ _ _ hs
  have hb := successorIs_ok _ _ _ _ hs
  refine ⟨?_, ?_⟩
  · intro hsucc
    have e := resolve_single_left dag cur f0 f1 f2 f3 p hbits h0 h1 h2 h3 hne hone hl hsucc
    rw [e] at hr
    rw [← Except.ok.inj hr]
    exact ⟨rfl, by simp⟩
  · intro hnl hsr
    have hbf : b = false := by
      rw [hb]
      simpa using hnl
    obtain ⟨b2, hs2'⟩ := hs2 hbf
    have hrr : Readable dag.gamma1_right p := successorIs_ok_readable _ _ _ _ hs2'
    have e := resolve_single_right dag cur f0 f1 f2 f3 p hbits h0 h1 h2 h3 hne hone hl hrr
      hnl hsr
    rw [e] at hr
    rw [← Except.ok.inj hr]

/-- C6: after a run of `setInputsAndOutputs` that stays within defined
behaviour, for a gate pole whose dependency-graph node has exactly one parent
`p` and truth-table bits with `f1 ≠ f2`: if the successor recorded for `p` in
the left half is this node, the control bits stored on the pole are
`[f0, f1, f2, f3]`; otherwise, if the successor recorded for `p` in the right
half is this node, they are `[f0, 1 - f0, f0, f3]`. -/
theorem setInputsAndOutputs_single_parent (uc uc1 : ValiantUC) (inputs outputs : Nat)
    (reports : List Nat) (dag : DAG_Gamma2) (cur : Gamma2Node) (i pole f0 f1 f2 f3 p : Nat)
    (hnd : uc.poles.Nodup) (hle : inputs + outputs ≤ uc.poles.length)
    (h : setInputsAndOutputs uc inputs outputs = Except.ok (uc1, reports))
    (hi : inputs ≤ i) (hlt : i < inputs + uc1.gates) (hpole : uc.poles[i]? = some pole)
    (hdag : uc.dag = some dag) (hcur : dag.node_array[i]? = some cur)
    (hbits : cur.function_bits = [f0, f1, f2, f3])
    (h0 : f0 ≤ 1) (h1 : f1 ≤ 1) (h2 : f2 ≤ 1) (h3 : f3 ≤ 1) (hne : f1 ≠ f2)
    (hone : (cur.left_parent = some p ∧ cur.right_parent = none) ∨
      (cur.left_parent = none ∧ cur.right_parent = some p)) :
    ∃ n, uc1.nodes[pole]? = some n ∧
      (recordedSuccessor dag.gamma1_left p = some cur.number →
        n.controlBits = [f0, f1, f2, f3]) ∧
      (recordedSuccessor dag.gamma1_left p ≠ some cur.number →
        recordedSuccessor dag.gamma1_right p = some cur.number →
        n.controlBits = [f0, 1 - f0, f0, f3]) := by
  obtain ⟨dag1, cur1, r, n, hd, hc, hr, hn, hb, _⟩ :=
    setInputsAndOutputs_stores uc uc1 inputs outputs reports hnd hle h i pole hi hlt hpole
  have ed : dag1 = dag := Option.some.inj (hd.symm.trans hdag)
  subst ed
  have ec : cur1 = cur := Option.some.inj (hc.symm.trans hcur)
  subst ec
  obtain ⟨hL, hR⟩ := resolve_single_cases dag1 cur1 f0 f1 f2 f3 p r hbits h0 h1 h2 h3 hne hone hr
  exact ⟨n, hn, fun hs => hb.trans (hL hs).1, fun hs1 hs2 => hb.trans (hR hs1 hs2)⟩

/-- Witness for C6: `setInputsAndOutputs(1, 1)` on `gateUC`.  Gate 2 (pole 1,
truth table 1, 0, 1, 0) is the successor of its parent 1 in the left half and
keeps its bits; gate 3 (pole 2, truth table 1, 1, 0, 0) is the successor of its
parent 2 in the right half only and gets `[1, 1 - 1, 1, 0]`. -/
theorem setInputsAndOutputs_single_parent_witness :
    ∃ uc1 reports, setInputsAndOutputs gateUC 1 1 = Except.ok (uc1, reports) ∧
      (∃ n, uc1.nodes[1]? = some n ∧ n.controlBits = [1, 0, 1, 0]) ∧
      (∃ n, uc1.nodes[2]? = some n ∧ n.controlBits = [1, 1 - 1, 1, 0]) :=
  ⟨_, _, rfl,
    (setInputsAndOutputs_single_parent gateUC _ 1 1 _ gateDag _
      1 1 1 0 1 0 1 (by decide) (by decide) rfl (by decide) (by decide) rfl rfl rfl rfl
      (by decide) (by decide) (by decide) (by decide) (by decide) (Or.inl ⟨rfl, rfl⟩)).imp
      (fun _ hn => ⟨hn.1, hn.2.1 (by decide)⟩),
    (setInputsAndOutputs_single_parent gateUC _ 1 1 _ gateDag _
      2 2 1 1 0 0 2 (by decide) (by decide) rfl (by decide) (by decide) rfl rfl rfl rfl
      (by decide) (by decide) (by decide) (by decide) (by decide) (Or.inr ⟨rfl, rfl⟩)).imp
      (fun _ hn => ⟨hn.1, hn.2.2 (by decide) (by decide)⟩)⟩

/-- C16: after a run of `setInputsAndOutputs` that stays within defined
behaviour, for a gate pole whose dependency-graph node has exactly one parent
`p`, truth-table bits with `f1 ≠ f2`, and is the successor recorded for `p` in
the left half: "Something is wrong!" was printed for this gate exactly when
`f0 ≠ f1`, and in either case the run went on and the pole stores the truth
table `[f0, f1, f2, f3]` as it is. -/
theorem setInputsAndOutputs_reports_inconsistency (uc uc1 : ValiantUC) (inputs outputs : Nat)
    (reports : List Nat) (dag : DAG_Gamma2) (cur : Gamma2Node) (i pole f0 f1 f2 f3 p : Nat)
    (hnd : uc.poles.Nodup) (hle : inputs + outputs ≤ uc.poles.length)
    (h : setInputsAndOutputs uc inputs outputs = Except.ok (uc1, reports))
    (hi : inputs ≤ i) (hlt : i < inputs + uc1.gates) (hpole : uc.poles[i]? = some pole)
    (hdag : uc.dag = some dag) (hcur : dag.node_array[i]? = some cur)
    (hbits : cur.function_bits = [f0, f1, f2, f3])
    (h0 : f0 ≤ 1) (h1 : f1 ≤ 1) (h2 : f2 ≤ 1) (h3 : f3 ≤ 1) (hne : f1 ≠ f2)
    (hone : (cur.left_parent = some p ∧ cur.right_parent = none) ∨
      (cur.left_parent = none ∧ cur.right_parent = some p))
    (hsucc : recordedSuccessor dag.gamma1_left p = some cur.number) :
    (i ∈ reports ↔ f0 ≠ f1) ∧
    ∃ n, uc1.nodes[pole]? = some n ∧ n.controlBits = [f0, f1, f2, f3] := by
  obtain ⟨dag1, cur1, r, n, hd, hc, hr, hn, hb, hrep⟩ :=
    setInputsAndOutputs_stores uc uc1 inputs outputs reports hnd hle h i pole hi hlt hpole
  have ed : dag1 = dag := Option.some.inj (hd.symm.trans hdag)
  subst ed
  have ec : cur1 = cur := Option.some.inj (hc.symm.trans hcur)
  subst ec
  obtain ⟨hL, _⟩ := resolve_single_cases dag1 cur1 f0 f1 f2 f3 p r hbits h0 h1 h2 h3 hne hone hr
  exact ⟨hrep.trans (hL hsucc).2, n, hn, hb.trans (hL hsucc).1⟩

/-- Witness for C16: `setInputsAndOutputs(1, 1)` on `gateUC`.  Gate 2 (index 1,
truth table 1, 0, 1, 0) is reported and gate 4 (index 3, truth table
0, 0, 1, 0) is not; both keep their truth table. -/
theorem setInputsAndOutputs_reports_inconsistency_witness :
    ∃ uc1 reports, setInputsAndOutputs gateUC 1 1 = Except.ok (uc1, reports) ∧
      reports = [1] ∧
      ((1 ∈ reports ↔ 1 ≠ 0) ∧
        ∃ n, uc1.nodes[1]? = some n ∧ n.controlBits = [1, 0, 1, 0]) ∧
      ((3 ∈ reports ↔ 0 ≠ 0) ∧
        ∃ n, uc1.nodes[3]? = some n ∧ n.controlBits = [0, 0, 1, 0]) :=
  ⟨_, _, rfl, by decide,
    setInputsAndOutputs_reports_inconsistency gateUC _ 1 1 _ gateDag _
      1 1 1 0 1 0 1 (by decide) (by decide) rfl (by decide) (by decide) rfl rfl rfl rfl
      (by decide) (by decide) (by decide) (by decide) (by decide) (Or.inl ⟨rfl, rfl⟩)
      (by decide),
    setInputsAndOutputs_reports_inconsistency gateUC _ 1 1 _ gateDag _
      3 3 0 0 1 0 3 (by decide) (by decide) rfl (by decide) (by decide) rfl rfl rfl rfl
      (by decide) (by decide) (by decide) (by decide) (by decide) (Or.inl ⟨rfl, rfl⟩)
      (by decide)⟩

/-- C18: after a run of `setInputsAndOutputs` that stays within defined
behaviour, for every gate pole with truth-table bits `[f0, f1, f2, f3]` in
`{0, 1}`, whatever branch the resolution took, the control bits
`[c0, c1, c2, c3]` stored on the pole have `c0 = f0`, `c3 = f3` and `(c1, c2)`
equal to `(f1, f2)` or `(f2, f1)`; when `f1 = f2` they are the truth table. -/
theorem setInputsAndOutputs_keeps_outer_bits (uc uc1 : ValiantUC) (inputs outputs : Nat)
    (reports : List Nat) (dag : DAG_Gamma2) (cur : Gamma2Node) (i pole f0 f1 f2 f3 : Nat)
    (hnd : uc.poles.Nodup) (hle : inputs + outputs ≤ uc.poles.length)
    (h : setInputsAndOutputs uc inputs outputs = Except.ok (uc1, reports))
    (hi : inputs ≤ i) (hlt : i < inputs + uc1.gates) (hpole : uc.poles[i]? = some pole)
    (hdag : uc.dag = some dag) (hcur : dag.node_array[i]? = some cur)
    (hbits : cur.function_bits = [f0, f1, f2, f3])
    (h0 : f0 ≤ 1) (h1 : f1 ≤ 1) (h2 : f2 ≤ 1) (h3 : f3 ≤ 1) :
    ∃ n, uc1.nodes[pole]? = some n ∧
      (n.controlBits = [f0, f1, f2, f3] ∨ n.controlBits = [f0, f2, f1, f3]) ∧
      (f1 = f2 → n.controlBits = [f0, f1, f2, f3]) := by
  obtain ⟨dag1, cur1, r, n, hd, hc, hr, hn, hb, _⟩ :=
    setInputsAndOutputs_stores uc uc1 inputs outputs reports hnd hle h i pole hi hlt hpole
  have ed : dag1 = dag := Option.some.inj (hd.symm.trans hdag)
  subst ed
  have ec : cur1 = cur := Option.some.inj (hc.symm.trans hcur)
  subst ec
  obtain ⟨hshape, heq⟩ :=
    resolveControlBits_keeps_outer_bits dag1 cur1 f0 f1 f2 f3 r hbits h0 h1 h2 h3 hr
  rw [← hb] at hshape heq
  exact ⟨n, hn, hshape, heq⟩

/-- Witness for C18: `setInputsAndOutputs(1, 1)` on `gateUC`.  Gate 5 (pole 4,
truth table 0, 1, 0, 1) stores its truth table or the swapped one (the run
stores the swapped one), and gate 6 (pole 5, truth table 1, 0, 0, 1, equal
middle bits) stores its truth table. -/
theorem setInputsAndOutputs_keeps_outer_bits_witness :
    ∃ uc1 reports, setInputsAndOutputs gateUC 1 1 = Except.ok (uc1, reports) ∧
      (∃ n, uc1.nodes[4]? = some n ∧
        (n.controlBits = [0, 1, 0, 1] ∨ n.controlBits = [0, 0, 1, 1])) ∧
      (∃ n, uc1.nodes[4]? = some n ∧ n.controlBits = [0, 0, 1, 1]) ∧
      (∃ n, uc1.nodes[5]? = some n ∧ n.controlBits = [1, 0, 0, 1]) :=
  ⟨_, _, rfl,
    (setInputsAndOutputs_keeps_outer_bits gateUC _ 1 1 _ gateDag _
      4 4 0 1 0 1 (by decide) (by decide) rfl (by decide) (by decide) rfl rfl rfl rfl
      (by decide) (by decide) (by decide) (by decide)).imp
      (fun _ hn => ⟨hn.1, hn.2.1⟩),
    ⟨_, rfl, rfl⟩,
    (setInputsAndOutputs_keeps_outer_bits gateUC _ 1 1 _ gateDag _
      5 5 1 0 0 1 (by decide) (by decide) rfl (by decide) (by decide) rfl rfl rfl rfl
      (by decide) (by decide) (by decide) (by decide)).imp
      (fun _ hn => ⟨hn.1, hn.2.2 rfl⟩)⟩

/-! ## Embedding validators: the edge-level scan runs to its end -/

/-- The edge check of a node returns when every read before the chase is there
and the network is acyclic and well-shaped for the chase: the chase ends at a
pole within `net.length` iterations. -/
theorem checkEdge_defined (fuel : Nat) (net : Network) (eug : ValiantEUG) (h : Nat)
    (cur : Gamma1Node) (hacyc : AcyclicParents net) (hwf : ChaseWellFormed net)
    (hfuel : net.length ≤ fuel)
    (hr : ∀ d, cur.child = some d → 1 ≤ d ∧ d < 2 ^ 31 ∧
      ∃ b lastNode ln nextNode, eug.getBlocks[destBlock d]? = some b ∧
        b.poles[destBlockPosition d]? = some lastNode ∧ net[lastNode]? = some ln ∧
        ln.parents[h]? = some nextNode) :
    ∃ o, checkEdge fuel net eug h cur = Except.ok o := by
  cases hc : cur.child with
  | none =>
    refine ⟨none, ?_⟩
    unfold checkEdge
    simp only [hc]
  | some d =>
    obtain ⟨hd1, hd2, b, lastNode, ln, nextNode, hb, hp, hl, hx⟩ := hr d hc
    obtain ⟨rank, hrank⟩ := hacyc
    have hNlt : nextNode < net.length := (hwf lastNode ln hl).1 nextNode (List.getElem?_mem hx)
    obtain ⟨r, k, n, hrun, _, hn, _⟩ :=
      findNextPoleLoop_reaches_pole net rank hrank hwf fuel ∅ lastNode nextNode 0
        (by simp) (by simp) hNlt (by simp; omega)
    have hf : find_next_pole fuel net lastNode nextNode = ChaseResult.found r k := hrun
    have hg : ¬ (d = 0 ∨ 2 ^ 31 ≤ d) := by omega
    unfold checkEdge
    simp only [hc, if_neg hg, hb, hp, hl, hx, hf, hn]
    split_ifs
    · exact ⟨_, rfl⟩
    · exact ⟨_, rfl⟩

/-- The scan of one half returns under the same conditions. -/
theorem validateHalf_defined (fuel : Nat) (net : Network) (graph : DAG_Gamma1)
    (eug : ValiantEUG) (h : Nat) (hacyc : AcyclicParents net) (hwf : ChaseWellFormed net)
    (hfuel : net.length ≤ fuel) (hr : HalfReadable net graph eug h) :
    ∃ b reports, validateHalf fuel net graph eug h = Except.ok (b, reports) := by
  obtain ⟨s1, hl, _⟩ := intLoop_invariant (scanNode fuel net graph eug h) (fun _ _ => True)
    graph.node_number
    (fun j s hj _ => by
      obtain ⟨cur, hcur, hd⟩ := hr.2 j hj
      obtain ⟨o, ho⟩ := checkEdge_defined fuel net eug h cur hacyc hwf hfuel hd
      unfold scanNode
      simp only [hcur, ho]
      cases o with
      | none => exact ⟨_, rfl, trivial⟩
      | some m => exact ⟨_, rfl, trivial⟩)
    graph.node_number 0 [] (by omega) hr.1 trivial
  unfold validateHalf
  rw [hl]
  exact ⟨_, _, rfl⟩

theorem pairNet_acyclic : AcyclicParents pairNet := by
  refine ⟨fun i => i, ?_⟩
  intro i n hi p hp
  have hlt : i < 2 := by
    have := (List.getElem?_eq_some.mp hi).1
    simpa [pairNet] using this
  interval_cases i <;> simp [pairNet] at hi <;> subst hi <;> simp at hp
  subst hp
  decide

theorem pairNet_wellFormed : ChaseWellFormed pairNet := by
  intro i n hi
  have hlt : i < 2 := by
    have := (List.getElem?_eq_some.mp hi).1
    simpa [pairNet] using this
  interval_cases i <;> simp [pairNet] at hi <;> subst hi <;> simp [pairNet]

/-- Every edge into node 2 is readable in either half of `pairUC`: block 0,
position 1 holds pole 1, which has both parent slots. -/
theorem pairUC_edge_readable (h : Nat) (hh : h < 2) (d : Nat) (hd : d = 2) :
    1 ≤ d ∧ d < 2 ^ 31 ∧
      ∃ b lastNode ln nextNode,
        (ValiantEUG.mk [{ poles := [0, 1], validateEdgeEmbedding := fun _ => true }]
          []).getBlocks[destBlock d]? = some b ∧
        b.poles[destBlockPosition d]? = some lastNode ∧ pairNet[lastNode]? = some ln ∧
        ln.parents[h]? = some nextNode := by
  subst hd
  refine ⟨by decide, by decide, _, 1, _, 0, rfl, rfl, rfl, ?_⟩
  interval_cases h <;> rfl

theorem scanLeft_readable :
    HalfReadable pairNet scanLeft
      (ValiantEUG.mk [{ poles := [0, 1], validateEdgeEmbedding := fun _ => true }] []) 0 := by
  refine ⟨by decide, ?_⟩
  intro i hi
  have hlt : i < 3 := hi
  interval_cases i
  · exact ⟨_, rfl, fun d hd => pairUC_edge_readable 0 (by decide) d (Option.some.inj hd).symm⟩
  · exact ⟨_, rfl, fun d hd => pairUC_edge_readable 0 (by decide) d (Option.some.inj hd).symm⟩
  · exact ⟨_, rfl, fun d hd => pairUC_edge_readable 0 (by decide) d (Option.some.inj hd).symm⟩

theorem scanRight_readable :
    HalfReadable pairNet scanRight
      (ValiantEUG.mk [{ poles := [0, 1], validateEdgeEmbedding := fun _ => true }] []) 1 := by
  refine ⟨by decide, ?_⟩
  intro i hi
  have hlt : i < 1 := hi
  interval_cases i
  exact ⟨_, rfl, fun d hd => pairUC_edge_readable 1 (by decide) d (Option.some.inj hd).symm⟩

/-- C9 (as amended): on a network that is acyclic along parent chains and
well-shaped for the chase, with at least `size` iterations allowed to each
chase and every read before a chase present, the edge-level validator returns,
and within a half it does not stop at a mismatch: it examines every node of the
half and prints every mismatch of it.  It examines the right half only when the
left half has no mismatch: otherwise it returns false with the mismatches of
the left half alone. -/
theorem validate_recursion_point_collects (fuel : Nat) (uc : ValiantUC) (gg : DAG_Gamma2)
    (left right : ValiantEUG) (g0 g1 : DAG_Gamma1)
    (hacyc : AcyclicParents uc.nodes) (hwf : ChaseWellFormed uc.nodes)
    (hfuel : uc.nodes.length ≤ fuel)
    (he0 : uc.eugs[0]? = some left) (he1 : uc.eugs[1]? = some right)
    (hg0 : gg.gamma1_left = some g0) (hg1 : gg.gamma1_right = some g1)
    (hr0 : HalfReadable uc.nodes g0 left 0) (hr1 : HalfReadable uc.nodes g1 right 1) :
    ∃ b reports, validate_recursion_point_edge_embedding fuel uc gg = Except.ok (b, reports) ∧
      (∀ i, i < g0.node_number → Examined fuel uc.nodes g0 left 0 i) ∧
      (allMismatches fuel uc.nodes g0 left 0 ≠ [] →
        b = false ∧ reports = allMismatches fuel uc.nodes g0 left 0) ∧
      (allMismatches fuel uc.nodes g0 left 0 = [] →
        (∀ i, i < g1.node_number → Examined fuel uc.nodes g1 right 1 i) ∧
        reports = allMismatches fuel uc.nodes g1 right 1 ∧ (b = true ↔ reports = [])) := by
  obtain ⟨b0, r0, hv0⟩ := validateHalf_defined fuel uc.nodes g0 left 0 hacyc hwf hfuel hr0
  obtain ⟨b1, r1, hv1⟩ := validateHalf_defined fuel uc.nodes g1 right 1 hacyc hwf hfuel hr1
  have hrun : ∃ b reports,
      validate_recursion_point_edge_embedding fuel uc gg = Except.ok (b, reports) := by
    unfold validate_recursion_point_edge_embedding
    simp only [he0, he1, hg0, hv0]
    cases b0 with
    | false => exact ⟨_, _, rfl⟩
    | true =>
      simp only [hg1, hv1]
      exact ⟨_, _, rfl⟩
  obtain ⟨b, reports, hrun⟩ := hrun
  obtain ⟨left1, right1, g01, e0, e1, eg0, hex, hbad, hgood⟩ :=
    validate_halves_scanned fuel uc gg b reports hrun
  have el : left1 = left := Option.some.inj (e0.symm.trans he0)
  have er : right1 = right := Option.some.inj (e1.symm.trans he1)
  have eg : g01 = g0 := Option.some.inj (eg0.symm.trans hg0)
  subst el er eg
  refine ⟨b, reports, hrun, hex, hbad, ?_⟩
  intro hnil
  obtain ⟨g11, eg1, hex1, hrep, hb⟩ := hgood hnil
  have eg2 : g11 = g1 := Option.some.inj (eg1.symm.trans hg1)
  subst eg2
  exact ⟨hex1, hrep, hb⟩

/-- Witness for C9: the validation of `pairUC` against `scanDag`.  The first
node of the left half is a mismatch (5 -> 2 is traced to the pole with id 1);
the scan goes on over the second node, which is embedded, to the third node and
prints its mismatch too. -/
theorem validate_recursion_point_collects_witness :
    (∃ b reports, validate_recursion_point_edge_embedding 2 pairUC scanDag =
        Except.ok (b, reports) ∧
      (∀ i, i < scanLeft.node_number → Examined 2 pairUC.nodes scanLeft
        (ValiantEUG.mk [{ poles := [0, 1], validateEdgeEmbedding := fun _ => true }] []) 0 i) ∧
      (allMismatches 2 pairUC.nodes scanLeft
          (ValiantEUG.mk [{ poles := [0, 1], validateEdgeEmbedding := fun _ => true }] []) 0 ≠ [] →
        b = false ∧ reports = allMismatches 2 pairUC.nodes scanLeft
          (ValiantEUG.mk [{ poles := [0, 1], validateEdgeEmbedding := fun _ => true }] []) 0) ∧
      (allMismatches 2 pairUC.nodes scanLeft
          (ValiantEUG.mk [{ poles := [0, 1], validateEdgeEmbedding := fun _ => true }] []) 0 = [] →
        (∀ i, i < scanRight.node_number → Examined 2 pairUC.nodes scanRight
          (ValiantEUG.mk [{ poles := [0, 1], validateEdgeEmbedding := fun _ => true }] []) 1 i) ∧
        reports = allMismatches 2 pairUC.nodes scanRight
          (ValiantEUG.mk [{ poles := [0, 1], validateEdgeEmbedding := fun _ => true }] []) 1 ∧
        (b = true ↔ reports = []))) ∧
    allMismatches 2 pairUC.nodes scanLeft
      (ValiantEUG.mk [{ poles := [0, 1], validateEdgeEmbedding := fun _ => true }] []) 0 =
      [{ expected := 5, dest := 2, traced := 1 }, { expected := 6, dest := 2, traced := 1 }] ∧
    validate_recursion_point_edge_embedding 2 pairUC scanDag =
      Except.ok (false, [{ expected := 5, dest := 2, traced := 1 },
                         { expected := 6, dest := 2, traced := 1 }]) :=
  ⟨validate_recursion_point_collects 2 pairUC scanDag _ _ scanLeft scanRight
      pairNet_acyclic pairNet_wellFormed (by decide) rfl rfl rfl rfl
      scanLeft_readable scanRight_readable,
    by decide, rfl⟩

end UC
